import Mathlib

/-!
Verification of the libp2p-rs specification claims against a shallow
embedding of the repository's source code.

Each section embeds the Rust functions a claim talks about as executable
Lean definitions, translated directly from the source files, and proves or
refutes the claim about them.
-/

set_option maxRecDepth 200000
set_option maxHeartbeats 2000000

deriving instance DecidableEq for Except

/-! ## Yamux stream state machine and stream I/O
Embedded from `src/yamux/src/connection/stream.rs` and
`src/protocols/yamux/src/chunks.rs`. -/

namespace Yamux

/-- The state of a Yamux stream (`enum State`). -/
inductive State where
  | Open
  | SendClosed
  | RecvClosed
  | Closed
deriving DecidableEq

/-- `State::can_read`: can we receive messages over this stream? -/
def State.can_read : State → Bool
  | State.RecvClosed | State.Closed => false
  | _ => true

/-- `State::can_write`: can we send messages over this stream? -/
def State.can_write : State → Bool
  | State.SendClosed | State.Closed => false
  | _ => true

/-- `Shared::update_state`: the transition table, translated case by case
from the `match (current, next)` in the source. Returns the new state
(the source mutates `self.state` and returns the previous state; the
previous state is the argument `current` itself, so we return the updated
state). -/
def update_state (current next : State) : State :=
  match current, next with
  | State.Closed, _ => State.Closed
  | State.Open, n => n
  | State.RecvClosed, State.Closed => State.Closed
  | State.RecvClosed, State.Open => State.RecvClosed
  | State.RecvClosed, State.RecvClosed => State.RecvClosed
  | State.RecvClosed, State.SendClosed => State.Closed
  | State.SendClosed, State.Closed => State.Closed
  | State.SendClosed, State.Open => State.SendClosed
  | State.SendClosed, State.RecvClosed => State.Closed
  | State.SendClosed, State.SendClosed => State.SendClosed

/-- Rank of a state in the order `Open < {SendClosed, RecvClosed} < Closed`. -/
def State.rank : State → Nat
  | State.Open => 0
  | State.SendClosed => 1
  | State.RecvClosed => 1
  | State.Closed => 2

/-- `enum Flag`: flag still to be set on an outbound header. -/
inductive Flag where
  | None
  | Syn
  | Ack
deriving DecidableEq

/-- `enum WindowUpdateMode` (from the yamux crate configuration). -/
inductive WindowUpdateMode where
  | OnReceive
  | OnRead
deriving DecidableEq

/-- The fields of `Config` that `Stream::read_stream` / `write_stream`
consult. -/
structure Config where
  read_after_close : Bool
  window_update_mode : WindowUpdateMode
  receive_window : Nat
deriving DecidableEq

/-- `struct Shared`: the per-stream shared state. The buffer is the chunk
queue, represented by the remaining byte count of each `Chunk` (the
stream code only ever inspects lengths, copies bytes out and advances
cursors). The waker fields record whether a reader/writer waker is
parked. -/
structure Shared where
  state : State
  window : Nat
  credit : Nat
  buffer : List Nat
  reader_waiting : Bool
  writer_waiting : Bool
deriving DecidableEq

/-- `Chunks::len`: total number of bytes over all chunks. -/
def chunksLen (buffer : List Nat) : Nat :=
  buffer.foldl (fun total c => total + c) 0

/-- The copy loop of `Stream::read_stream`: empty chunks are popped, the
front chunk is copied into the caller's buffer and advanced, until the
caller's buffer (of size `bufLen`) is full or the queue is drained.
Returns the number of bytes copied and the remaining chunk queue. -/
def copyLoop : List Nat → Nat → Nat → (Nat × List Nat)
  | [], n, _ => (n, [])
  | c :: rest, n, bufLen =>
    if c = 0 then copyLoop rest n bufLen
    else
      let k := min c (bufLen - n)
      if n + k = bufLen then (n + k, (c - k) :: rest)
      else copyLoop rest (n + k) bufLen

/-- Wrapping `u32` subtraction (release-mode semantics of `a - b` on `u32`),
for operands already reduced below `2^32`. -/
def wsub32 (a b : Nat) : Nat :=
  (a + (2 ^ 32 - b % 2 ^ 32)) % 2 ^ 32

/-- Outcome of one invocation of `Stream::write_stream`. `sendErr` is the
`write_zero_err` failure of `self.sender.send(cmd)`: the credit has
already been deducted under the shared lock, but the Data frame is
dropped instead of emitted and the caller gets a `WriteZero` error. -/
inductive WriteStep where
  | closedErr
  | pending (s : Shared)
  | frame (n : Nat) (s : Shared)
  | sendErr (s : Shared)
deriving DecidableEq

/-- `Stream::write_stream`, one step: error if the send side is closed;
park the writer waker when no credit is left; otherwise consume
`min(credit, buf.len())` credit (`saturating_sub`, which on `Nat`
is plain subtraction) and emit a Data frame of that body length —
unless the command channel to the connection is closed (`senderClosed`,
the failure of `self.sender.send`), in which case the frame is lost and
a `WriteZero` error is returned with the credit already consumed. -/
def write_stream (senderClosed : Bool) (s : Shared) (bufLen : Nat) : WriteStep :=
  if !s.state.can_write then WriteStep.closedErr
  else if s.credit = 0 then WriteStep.pending { s with writer_waiting := true }
  else
    let k := min s.credit bufLen
    if senderClosed then WriteStep.sendErr { s with credit := s.credit - k }
    else WriteStep.frame k { s with credit := s.credit - k }

/-- Outcome of one invocation of `Stream::read_stream`. `earlyEof` is the
`return Ok(0)` taken before any state inspection when `read_after_close`
is disabled and the command channel to the connection is closed;
`brokenPipe` is `Err(io::ErrorKind::BrokenPipe)`; `pending` parks the
reader waker; `ok n s update` is a successful read of `n` bytes with an
optional WindowUpdate frame (the credit delta) enqueued; `sendErr` is the
`write_zero_err` failure when enqueueing that frame fails. -/
inductive ReadStep where
  | earlyEof
  | brokenPipe
  | pending (s : Shared)
  | ok (n : Nat) (s : Shared) (update : Option Nat)
  | sendErr (n : Nat) (s : Shared)
deriving DecidableEq

/-- Does this read outcome surface an `io::Error` to the caller? -/
def ReadStep.isError : ReadStep → Bool
  | ReadStep.brokenPipe => true
  | ReadStep.sendErr _ _ => true
  | _ => false

/-- `Stream::read_stream`, one step, translated from the source:
`senderClosed` models `self.sender.is_closed()`, `flag` is the stream's
pending header flag. The window-update delta uses the source's `u32`
arithmetic (`max - blen - window`, wrapping in release mode). -/
def read_stream (cfg : Config) (flag : Flag) (senderClosed : Bool)
    (s : Shared) (bufLen : Nat) : ReadStep :=
  if !cfg.read_after_close && senderClosed then ReadStep.earlyEof
  else if !s.state.can_read then ReadStep.brokenPipe
  else if chunksLen s.buffer = 0 then ReadStep.pending { s with reader_waiting := true }
  else
    let r := copyLoop s.buffer 0 bufLen
    let n := r.1
    let buffer := r.2
    if cfg.window_update_mode = WindowUpdateMode.OnRead then
      let mx := cfg.receive_window % 2 ^ 32
      let blen := chunksLen buffer % 2 ^ 32
      let delta := wsub32 (wsub32 mx blen) (s.window % 2 ^ 32)
      if delta < mx / 2 && flag = Flag.None then
        ReadStep.ok n { s with buffer := buffer } none
      else
        let s1 : Shared :=
          { s with buffer := buffer, window := (s.window % 2 ^ 32 + delta) % 2 ^ 32 }
        if senderClosed then ReadStep.sendErr n s1
        else ReadStep.ok n s1 (some delta)
    else
      ReadStep.ok n { s with buffer := buffer } none

end Yamux

/-! ### Claim C1 -/

/-- C1 counterexample: on a writable stream with nonzero credit but a
closed command channel, `write_stream` deducts the credit (5 → 2) yet
emits no Data frame and does not suspend: it returns the `WriteZero`
error of `self.sender.send` — a third outcome refuting the claimed
frame-or-suspend dichotomy. -/
theorem C1_counterexample :
    Yamux.write_stream true
      { state := Yamux.State.Open, window := 0, credit := 5, buffer := [],
        reader_waiting := false, writer_waiting := false } 3 =
      Yamux.WriteStep.sendErr
        { state := Yamux.State.Open, window := 0, credit := 2, buffer := [],
          reader_waiting := false, writer_waiting := false } := by
  decide

/-- C1 (amended): on a writable stream, `write_stream` with nonzero credit
always consumes exactly `min(send-credit, buffer length)` credit (so no
Data frame body ever exceeds the granted credit); if the command channel
to the connection is open it emits exactly one Data frame of that body
length, but if the channel is closed the frame is dropped and a
`WriteZero` error is returned with the credit nevertheless consumed; with
zero credit it emits no frame and parks the writer waker (suspending the
writer until credit arrives). -/
theorem C1_write_stream_credit (senderClosed : Bool) (s : Yamux.Shared)
    (bufLen : Nat) (h : s.state.can_write = true) :
    (s.credit ≠ 0 → senderClosed = false →
      Yamux.write_stream senderClosed s bufLen =
        Yamux.WriteStep.frame (min s.credit bufLen)
          { s with credit := s.credit - min s.credit bufLen } ∧
      min s.credit bufLen ≤ s.credit) ∧
    (s.credit ≠ 0 → senderClosed = true →
      Yamux.write_stream senderClosed s bufLen =
        Yamux.WriteStep.sendErr
          { s with credit := s.credit - min s.credit bufLen }) ∧
    (s.credit = 0 →
      Yamux.write_stream senderClosed s bufLen =
        Yamux.WriteStep.pending { s with writer_waiting := true }) := by
  refine ⟨?_, ?_, ?_⟩
  · intro hc hsc
    refine ⟨?_, Nat.min_le_left _ _⟩
    simp [Yamux.write_stream, h, hc, hsc]
  · intro hc hsc
    simp [Yamux.write_stream, h, hc, hsc]
  · intro hc
    simp [Yamux.write_stream, h, hc]

/-- Witness for C1 at a concrete stream state with an open channel. -/
theorem C1_write_stream_credit_witness :
    ({ state := Yamux.State.Open, window := 0, credit := 5, buffer := [],
       reader_waiting := false, writer_waiting := false } : Yamux.Shared).state.can_write
      = true ∧
    Yamux.write_stream false
      { state := Yamux.State.Open, window := 0, credit := 5, buffer := [],
        reader_waiting := false, writer_waiting := false } 3 =
      Yamux.WriteStep.frame 3
        { state := Yamux.State.Open, window := 0, credit := 2, buffer := [],
          reader_waiting := false, writer_waiting := false } := by
  refine ⟨by decide, ?_⟩
  have h := C1_write_stream_credit false
    { state := Yamux.State.Open, window := 0, credit := 5, buffer := [],
      reader_waiting := false, writer_waiting := false } 3 (by decide)
  have h2 := h.1 (by decide) rfl
  exact h2.1

/-! ### Claim C2 -/

/-- C2 counterexample: with `read_after_close` disabled and the command
channel closed, `read_stream` on a stream whose receive side is closed
(`RecvClosed`) returns `Ok(0)` — not an error — refuting the claim that
`read_stream` returns an error whenever the receive side is closed. -/
theorem C2_counterexample :
    (Yamux.State.RecvClosed.can_read = false) ∧
    Yamux.read_stream
      { read_after_close := false,
        window_update_mode := Yamux.WindowUpdateMode.OnReceive,
        receive_window := 256 * 1024 }
      Yamux.Flag.None true
      { state := Yamux.State.RecvClosed, window := 0, credit := 0, buffer := [],
        reader_waiting := false, writer_waiting := false } 1 =
      Yamux.ReadStep.earlyEof ∧
    (Yamux.ReadStep.earlyEof.isError = false) := by
  decide

/-- C2 (amended): the substream state machine is monotonic in the order
`Open < {SendClosed, RecvClosed} < Closed`: `update_state` never leaves
`Closed`, never returns a non-`Open` state to `Open`, never decreases the
rank, and maps `SendClosed` + `RecvClosed` (in either order) to `Closed`;
`read_stream` returns an error whenever the receive side is closed,
provided the early `Ok(0)` return (command channel closed with
`read_after_close` disabled) does not fire; and `write_stream` returns an
error whenever the send side is closed. -/
theorem C2_state_machine_monotonic :
    (∀ next, Yamux.update_state Yamux.State.Closed next = Yamux.State.Closed) ∧
    (∀ current next, current ≠ Yamux.State.Open →
      Yamux.update_state current next ≠ Yamux.State.Open) ∧
    (∀ current next,
      (Yamux.update_state current next).rank ≥ current.rank) ∧
    (Yamux.update_state Yamux.State.SendClosed Yamux.State.RecvClosed =
      Yamux.State.Closed ∧
     Yamux.update_state Yamux.State.RecvClosed Yamux.State.SendClosed =
      Yamux.State.Closed) ∧
    (∀ cfg flag senderClosed s bufLen,
      Yamux.State.can_read s.state = false →
      (cfg.read_after_close = true ∨ senderClosed = false) →
      Yamux.read_stream cfg flag senderClosed s bufLen = Yamux.ReadStep.brokenPipe) ∧
    (∀ senderClosed s bufLen,
      Yamux.State.can_write s.state = false →
      Yamux.write_stream senderClosed s bufLen = Yamux.WriteStep.closedErr) := by
  refine ⟨by intro next; rfl, ?_, ?_, ⟨rfl, rfl⟩, ?_, ?_⟩
  · intro current next h
    cases current <;> cases next <;> simp_all [Yamux.update_state]
  · intro current next
    cases current <;> cases next <;> decide
  · intro cfg flag senderClosed s bufLen hr hf
    have hguard : (!cfg.read_after_close && senderClosed) = false := by
      rcases hf with hf | hf <;> simp [hf]
    simp [Yamux.read_stream, hguard, hr]
  · intro senderClosed s bufLen hw
    simp [Yamux.write_stream, hw]

/-- Witness for C2 at concrete inputs: a `RecvClosed` stream with an open
command channel gets `BrokenPipe` from `read_stream`, and a `SendClosed`
stream gets the write error from `write_stream`. -/
theorem C2_state_machine_monotonic_witness :
    Yamux.read_stream
      { read_after_close := false,
        window_update_mode := Yamux.WindowUpdateMode.OnReceive,
        receive_window := 256 * 1024 }
      Yamux.Flag.None false
      { state := Yamux.State.RecvClosed, window := 0, credit := 0, buffer := [],
        reader_waiting := false, writer_waiting := false } 1 =
      Yamux.ReadStep.brokenPipe ∧
    Yamux.write_stream true
      { state := Yamux.State.SendClosed, window := 0, credit := 7, buffer := [],
        reader_waiting := false, writer_waiting := false } 3 =
      Yamux.WriteStep.closedErr := by
  constructor
  · exact C2_state_machine_monotonic.2.2.2.2.1
      { read_after_close := false,
        window_update_mode := Yamux.WindowUpdateMode.OnReceive,
        receive_window := 256 * 1024 }
      Yamux.Flag.None false
      { state := Yamux.State.RecvClosed, window := 0, credit := 0, buffer := [],
        reader_waiting := false, writer_waiting := false } 1
      (by decide) (Or.inr rfl)
  · exact C2_state_machine_monotonic.2.2.2.2.2 true
      { state := Yamux.State.SendClosed, window := 0, credit := 7, buffer := [],
        reader_waiting := false, writer_waiting := false } 3 (by decide)

/-! ## Secio handshake key-half assignment
Embedded from `src/secio/src/handshake/procedure.rs` (the block computing
`(local_infos, remote_infos)` from the stretched key). -/

namespace Secio

/-- The secio error values reachable from the embedded fragments
(`SecioError`). -/
inductive SecioError where
  | InvalidProposition
  | NonceVerificationFailed
deriving DecidableEq

/-- The `(local_infos, remote_infos)` assignment in `handshake`: split the
stretched key block in half at `len / 2` and assign the halves according
to `hashes_ordering`, aborting the handshake with
`InvalidProposition` when the ordering is `Equal`. -/
def key_half_assignment (longerKey : List Nat) (hashesOrdering : Ordering) :
    Except SecioError (List Nat × List Nat) :=
  let firstHalf := longerKey.take (longerKey.length / 2)
  let secondHalf := longerKey.drop (longerKey.length / 2)
  match hashesOrdering with
  | Ordering.eq => Except.error SecioError.InvalidProposition
  | Ordering.lt => Except.ok (secondHalf, firstHalf)
  | Ordering.gt => Except.ok (firstHalf, secondHalf)

end Secio

/-! ### Claim C4 -/

/-- C4: after key stretching, the `(local, remote)` key-block assignment is
`(first half, second half)` when the hash ordering is `Greater`,
`(second half, first half)` when it is `Less`, and when the ordering is
`Equal` the handshake aborts with an error instead of producing key
blocks (and hence no secure stream). -/
theorem C4_key_half_assignment (longerKey : List Nat) :
    Secio.key_half_assignment longerKey Ordering.gt =
      Except.ok (longerKey.take (longerKey.length / 2),
                 longerKey.drop (longerKey.length / 2)) ∧
    Secio.key_half_assignment longerKey Ordering.lt =
      Except.ok (longerKey.drop (longerKey.length / 2),
                 longerKey.take (longerKey.length / 2)) ∧
    Secio.key_half_assignment longerKey Ordering.eq =
      Except.error Secio.SecioError.InvalidProposition := by
  exact ⟨rfl, rfl, rfl⟩


/-! ## Secio nonce verification
Embedded from `src/protocols/secio/src/codec/secure_stream.rs`
(`SecureStream::verify_nonce`). -/

namespace Secio

/-- `SecureStream::verify_nonce`. The local nonce is cloned into a buffer
and `read2` fills its first `k` bytes with the bytes delivered over the
encrypted channel (`received`, with `k = min(received.len, nonce.len)`
since `read2` cannot deliver more than the buffer holds); the unfilled
tail of the buffer keeps the cloned nonce bytes. The buffer is then
compared against the stored nonce over `n = min(buf.len, nonce.len)`
bytes; the byte count returned by `read2` is not consulted. -/
def verify_nonce (nonce received : List Nat) : Except SecioError Unit :=
  if nonce.isEmpty then Except.ok ()
  else
    let k := min received.length nonce.length
    let buf := received.take k ++ nonce.drop k
    let n := min buf.length nonce.length
    if buf.take n ≠ nonce.take n then Except.error SecioError.NonceVerificationFailed
    else Except.ok ()

/-- Closed form of `verify_nonce`: it compares the delivered bytes with the
prefix of the stored nonce of the delivered length. -/
theorem verify_nonce_eq (nonce received : List Nat) :
    verify_nonce nonce received =
      if nonce = [] then Except.ok ()
      else if received.take (min received.length nonce.length) =
              nonce.take (min received.length nonce.length)
        then Except.ok ()
        else Except.error SecioError.NonceVerificationFailed := by
  by_cases hn : nonce = []
  · subst hn
    simp [verify_nonce]
  · have hnil : nonce.isEmpty = false := by
      simp [List.isEmpty_iff, hn]
    have hk1 : min received.length nonce.length ≤ received.length :=
      Nat.min_le_left _ _
    have hk2 : min received.length nonce.length ≤ nonce.length :=
      Nat.min_le_right _ _
    have hlen : (received.take (min received.length nonce.length) ++
        nonce.drop (min received.length nonce.length)).length = nonce.length := by
      simp only [List.length_append, List.length_take, List.length_drop]
      omega
    have hiff : (received.take (min received.length nonce.length) ++
          nonce.drop (min received.length nonce.length)) = nonce ↔
        received.take (min received.length nonce.length) =
          nonce.take (min received.length nonce.length) := by
      constructor
      · intro h
        have h2 := congrArg (List.take (min received.length nonce.length)) h
        rwa [List.take_append_of_le_length
              (by rw [List.length_take]; omega),
            List.take_take, Nat.min_self] at h2
      · intro h
        conv_lhs => rw [h]
        exact List.take_append_drop _ nonce
    simp only [verify_nonce, hnil, Bool.false_eq_true, if_false, if_neg hn]
    rw [hlen, Nat.min_self]
    rw [List.take_of_length_le (le_of_eq hlen), List.take_length]
    by_cases hc : received.take (min received.length nonce.length) =
        nonce.take (min received.length nonce.length)
    · rw [if_pos hc, if_neg]
      simp only [ne_eq, Decidable.not_not]
      exact hiff.mpr hc
    · rw [if_neg hc, if_pos]
      simp only [ne_eq]
      intro h
      exact hc (hiff.mp h)

end Secio

/-! ### Claim C5 -/

/-- C5 counterexample: `verify_nonce` accepts a strict prefix of the nonce.
With stored nonce `[1, 2]` and only the single byte `1` delivered,
`verify_nonce` returns `Ok` although the received bytes do not equal the
stored nonce, refuting the claimed equivalence. -/
theorem C5_counterexample :
    Secio.verify_nonce [1, 2] [1] = Except.ok () ∧ ([1] : List Nat) ≠ [1, 2] := by
  refine ⟨?_, by decide⟩
  rw [Secio.verify_nonce_eq]
  norm_num

/-- C5 (amended): `verify_nonce` accepts exactly the reads that agree with
the corresponding prefix of the stored nonce: it returns `Ok` iff the
nonce is empty or the delivered bytes equal the prefix of the stored
nonce of the delivered length, and it returns the nonce-verification
error on any other delivered bytes. In particular, when the delivered
bytes fill the whole buffer (a full-length read, the intended use after
the handshake), `Ok` is returned iff they equal the stored nonce. -/
theorem C5_verify_nonce (nonce received : List Nat) :
    (Secio.verify_nonce nonce received = Except.ok () ↔
      (nonce = [] ∨
        received.take (min received.length nonce.length) =
          nonce.take (min received.length nonce.length))) ∧
    (Secio.verify_nonce nonce received ≠ Except.ok () →
      Secio.verify_nonce nonce received =
        Except.error Secio.SecioError.NonceVerificationFailed) ∧
    (received.length = nonce.length →
      (Secio.verify_nonce nonce received = Except.ok () ↔ received = nonce)) := by
  rw [Secio.verify_nonce_eq]
  by_cases hn : nonce = []
  · subst hn
    refine ⟨by simp, by simp, ?_⟩
    intro hlen
    have : received = [] := List.eq_nil_of_length_eq_zero hlen
    simp [this]
  · rw [if_neg hn]
    by_cases hc : received.take (min received.length nonce.length) =
        nonce.take (min received.length nonce.length)
    · refine ⟨by simp [hc, hn], by simp [hc], ?_⟩
      intro hlen
      have hmin : min received.length nonce.length = nonce.length := by
        rw [hlen, Nat.min_self]
      have hr : received.take (min received.length nonce.length) = received := by
        rw [hmin]
        exact List.take_of_length_le (le_of_eq hlen)
      have hnn : nonce.take (min received.length nonce.length) = nonce := by
        rw [hmin]
        exact List.take_length nonce
      rw [hr, hnn] at hc
      simp [hc]
    · refine ⟨by simp [hc, hn], by simp [hc], ?_⟩
      intro hlen
      have hmin : min received.length nonce.length = nonce.length := by
        rw [hlen, Nat.min_self]
      have hr : received.take (min received.length nonce.length) = received := by
        rw [hmin]
        exact List.take_of_length_le (le_of_eq hlen)
      have hnn : nonce.take (min received.length nonce.length) = nonce := by
        rw [hmin]
        exact List.take_length nonce
      rw [hr, hnn] at hc ⊢
      simp only [if_neg hc]
      constructor
      · intro h
        exact absurd h (by simp)
      · intro h
        exact absurd h hc

/-- Witness for C5 at concrete inputs (full-length read). -/
theorem C5_verify_nonce_witness :
    Secio.verify_nonce [3, 4, 5] [3, 4, 5] = Except.ok () ∧
    Secio.verify_nonce [3, 4, 5] [3, 4, 9] =
      Except.error Secio.SecioError.NonceVerificationFailed := by
  constructor
  · exact ((C5_verify_nonce [3, 4, 5] [3, 4, 5]).2.2 (by decide)).mpr rfl
  · apply (C5_verify_nonce [3, 4, 5] [3, 4, 9]).2.1
    intro hok
    have h2 := ((C5_verify_nonce [3, 4, 5] [3, 4, 9]).2.2 (by decide)).mp hok
    simp at h2

/-! ## Swarm connection ping-failure accounting
Embedded from `src/swarm/src/connection.rs` (`Connection::handle_failure`,
`Connection::reset_failure`). -/

namespace Swarm

/-- The fields of `Connection` that the ping-failure logic touches:
`ping_failures` is the `u32` consecutive-failure counter, `muxer_open`
records whether `close()` has been requested on the stream muxer. -/
structure Connection where
  ping_failures : Nat
  muxer_open : Bool
deriving DecidableEq

/-- `Connection::handle_failure`: increment the failure counter (`u32`
wrapping in release mode) and close the connection when the counter
reaches `allowed_max_failures` (`>=` in the source). -/
def handle_failure (allowed_max_failures : Nat) (c : Connection) : Connection :=
  let f := (c.ping_failures + 1) % 2 ^ 32
  if f ≥ allowed_max_failures then { ping_failures := f, muxer_open := false }
  else { c with ping_failures := f }

/-- `Connection::reset_failure`: reset the failure counter to zero. -/
def reset_failure (c : Connection) : Connection :=
  { c with ping_failures := 0 }

end Swarm

/-! ### Claim C6 -/

/-- C6 counterexample: with `max-failures = 1`, the very first call to
`handle_failure` already closes the connection (the source closes on
`ping_failures >= allowed_max_failures`), so the first `m` failures are
not tolerated and the connection closes when the count merely reaches
`m`, not when it exceeds `m`. -/
theorem C6_counterexample :
    Swarm.handle_failure 1 { ping_failures := 0, muxer_open := true } =
      { ping_failures := 1, muxer_open := false } ∧ ¬(1 > 1) := by
  decide

/-- C6 (amended): for every configured `max-failures` `m` with
`1 ≤ m < 2^32`, consecutive ping failures strictly below `m` are
tolerated — after each of the first `m - 1` calls to `handle_failure` the
connection is still open and the counter equals the number of calls — and
the `m`-th consecutive failure (counter reaching `m`) closes the
connection; a successful ping (`reset_failure`) resets the counter to
zero. -/
theorem C6_ping_failure_threshold (m k : Nat) (hm : 1 ≤ m) (hw : m < 2 ^ 32) :
    (k < m →
      (Swarm.handle_failure m)^[k] { ping_failures := 0, muxer_open := true } =
        { ping_failures := k, muxer_open := true }) ∧
    ((Swarm.handle_failure m)^[m] { ping_failures := 0, muxer_open := true } =
      { ping_failures := m, muxer_open := false }) ∧
    (∀ c, (Swarm.reset_failure c).ping_failures = 0) := by
  have step : ∀ j : Nat, j < m →
      (Swarm.handle_failure m)^[j] { ping_failures := 0, muxer_open := true } =
        { ping_failures := j, muxer_open := true } := by
    intro j
    induction j with
    | zero => intro _; rfl
    | succ i ih =>
      intro hj
      rw [Function.iterate_succ_apply', ih (Nat.lt_of_succ_lt hj)]
      unfold Swarm.handle_failure
      have h1 : (i + 1) % 2 ^ 32 = i + 1 := Nat.mod_eq_of_lt (by omega)
      simp only [h1]
      rw [if_neg (by omega)]
  refine ⟨step k, ?_, fun c => rfl⟩
  obtain ⟨j, rfl⟩ : ∃ j, m = j + 1 := ⟨m - 1, by omega⟩
  rw [Function.iterate_succ_apply', step j (by omega)]
  unfold Swarm.handle_failure
  have h1 : (j + 1) % 2 ^ 32 = j + 1 := Nat.mod_eq_of_lt (by omega)
  simp only [h1]
  rw [if_pos (by omega)]

/-- Witness for C6 at `m = 3`, `k = 2`. -/
theorem C6_ping_failure_threshold_witness :
    (Swarm.handle_failure 3)^[2] { ping_failures := 0, muxer_open := true } =
      { ping_failures := 2, muxer_open := true } ∧
    (Swarm.handle_failure 3)^[3] { ping_failures := 0, muxer_open := true } =
      { ping_failures := 3, muxer_open := false } := by
  have h := C6_ping_failure_threshold 3 2 (by decide) (by norm_num)
  exact ⟨h.1 (by decide), h.2.1⟩

/-! ## Upgrade selector
Embedded from `src/core/src/upgrade/select.rs` (`Selector<A, B>`). -/

namespace Upgrade

/-- Placeholder for `TransportError` (its structure is irrelevant to the
selector logic). -/
inductive TransportError where
  | internalErr
deriving DecidableEq

/-- The `UpgradeInfo`/`Upgrader` trait surface of one upgrader: its
protocol ids and its two upgrade methods (async methods modelled as
functions to `Except`). -/
structure Upgrader (C I O : Type) where
  protocol_info : List I
  upgrade_inbound : C → I → Except TransportError O
  upgrade_outbound : C → I → Except TransportError O

/-- `EitherName<A, B>`: a protocol id tagged with the child it came from. -/
inductive EitherName (A B : Type) where
  | A (a : A)
  | B (b : B)
deriving DecidableEq

/-- `EitherOutput<A, B>`: the output tagged with the child that produced
it. -/
inductive EitherOutput (A B : Type) where
  | A (a : A)
  | B (b : B)
deriving DecidableEq

/-- `Selector::protocol_info`: the ids of the first child tagged `A`,
followed by the ids of the second child tagged `B`. -/
def selector_protocol_info {C I1 I2 O1 O2 : Type}
    (a : Upgrader C I1 O1) (b : Upgrader C I2 O2) : List (EitherName I1 I2) :=
  a.protocol_info.map EitherName.A ++ b.protocol_info.map EitherName.B

/-- `Selector::upgrade_inbound`: dispatch on the tag of the negotiated
protocol id. -/
def selector_upgrade_inbound {C I1 I2 O1 O2 : Type}
    (a : Upgrader C I1 O1) (b : Upgrader C I2 O2) (socket : C)
    (info : EitherName I1 I2) : Except TransportError (EitherOutput O1 O2) :=
  match info with
  | EitherName.A i => (a.upgrade_inbound socket i).map EitherOutput.A
  | EitherName.B i => (b.upgrade_inbound socket i).map EitherOutput.B

/-- `Selector::upgrade_outbound`: the source ignores its `_info` argument,
rebuilds `info` as `EitherName::A` of the first child's first protocol id
(`.next().unwrap()`, a panic — modelled as `none` — when the first child
has no protocol ids) and therefore always dispatches to the first
child. -/
def selector_upgrade_outbound {C I1 I2 O1 O2 : Type}
    (a : Upgrader C I1 O1) (b : Upgrader C I2 O2) (socket : C)
    (_info : EitherName I1 I2) : Option (Except TransportError (EitherOutput O1 O2)) :=
  match a.protocol_info with
  | [] => none
  | ia :: _ => some ((a.upgrade_outbound socket ia).map EitherOutput.A)

/-- A first child for the C7 counterexample: ids `[10, 11]`, outbound
result `100 + id`. -/
def exUpgraderA : Upgrader Nat Nat Nat :=
  { protocol_info := [10, 11]
    upgrade_inbound := fun _ i => Except.ok i
    upgrade_outbound := fun _ i => Except.ok (100 + i) }

/-- A second child for the C7 counterexample: ids `[20]`, outbound result
`200 + id`. -/
def exUpgraderB : Upgrader Nat Nat Nat :=
  { protocol_info := [20]
    upgrade_inbound := fun _ i => Except.ok i
    upgrade_outbound := fun _ i => Except.ok (200 + i) }

end Upgrade

/-! ### Claim C7 -/

/-- C7 counterexample: given the B-tagged negotiated id `20`,
`upgrade_outbound` still runs the first child (producing the A-tagged
output `100 + 10` from the first child's first protocol id) instead of
the second child's output `200 + 20`, refuting the claim that
`upgrade_outbound` dispatches on the id it is given. -/
theorem C7_counterexample :
    Upgrade.selector_upgrade_outbound Upgrade.exUpgraderA Upgrade.exUpgraderB 0
      (Upgrade.EitherName.B 20) =
      some (Except.ok (Upgrade.EitherOutput.A 110)) ∧
    (Upgrade.EitherOutput.A 110 : Upgrade.EitherOutput Nat Nat) ≠
      Upgrade.EitherOutput.B 220 := by
  exact ⟨rfl, by decide⟩

/-- C7 (amended): `Selector(a, b).protocol_info()` is the concatenation of
`a`'s protocol ids tagged `A` followed by `b`'s tagged `B`, and
`upgrade_inbound` dispatches to the child identified by the tag of the
id it is given; `upgrade_outbound`, however, ignores the id it is given —
its result is the same for any two ids — and always runs the first child
on the first child's first protocol id, panicking (modelled as `none`)
when the first child has no ids. -/
theorem C7_selector_dispatch {C I1 I2 O1 O2 : Type}
    (a : Upgrade.Upgrader C I1 O1) (b : Upgrade.Upgrader C I2 O2) (socket : C) :
    (Upgrade.selector_protocol_info a b =
      a.protocol_info.map Upgrade.EitherName.A ++
        b.protocol_info.map Upgrade.EitherName.B) ∧
    (∀ i, Upgrade.selector_upgrade_inbound a b socket (Upgrade.EitherName.A i) =
      (a.upgrade_inbound socket i).map Upgrade.EitherOutput.A) ∧
    (∀ i, Upgrade.selector_upgrade_inbound a b socket (Upgrade.EitherName.B i) =
      (b.upgrade_inbound socket i).map Upgrade.EitherOutput.B) ∧
    (∀ info1 info2,
      Upgrade.selector_upgrade_outbound a b socket info1 =
        Upgrade.selector_upgrade_outbound a b socket info2) ∧
    (∀ ia rest, a.protocol_info = ia :: rest →
      ∀ info, Upgrade.selector_upgrade_outbound a b socket info =
        some ((a.upgrade_outbound socket ia).map Upgrade.EitherOutput.A)) ∧
    (a.protocol_info = [] →
      ∀ info, Upgrade.selector_upgrade_outbound a b socket info = none) := by
  refine ⟨rfl, fun i => rfl, fun i => rfl, ?_, ?_, ?_⟩
  · intro info1 info2
    unfold Upgrade.selector_upgrade_outbound
    rfl
  · intro ia rest h info
    unfold Upgrade.selector_upgrade_outbound
    rw [h]
  · intro h info
    unfold Upgrade.selector_upgrade_outbound
    rw [h]

/-- Witness for C7 at the concrete example upgraders. -/
theorem C7_selector_dispatch_witness :
    Upgrade.selector_upgrade_outbound Upgrade.exUpgraderA Upgrade.exUpgraderB 0
      (Upgrade.EitherName.A 11) =
      some (Except.ok (Upgrade.EitherOutput.A 110)) := by
  exact (C7_selector_dispatch Upgrade.exUpgraderA Upgrade.exUpgraderB 0).2.2.2.2.1
    10 [11] rfl (Upgrade.EitherName.A 11)

/-! ## Peerstore address book
Embedded from `src/core/src/peerstore.rs` (`AddrBook`). The
`HashMap<PeerId, SmallVec<Multiaddr>>` is modelled as an association
list with at most one entry per key (the map invariant); peer ids and
multiaddresses are abstract types with decidable equality. -/

namespace Peerstore

variable {P A : Type} [DecidableEq P] [DecidableEq A]

/-- `AddrBook::get_addr`: look up a peer's address list. -/
def get_addr (book : List (P × List A)) (p : P) : Option (List A) :=
  (book.find? (fun e => decide (e.1 = p))).map (fun e => e.2)

/-- `AddrBook::add_addr`: if the peer has an entry, push the address onto
it unless it is already contained (`entry.contains`); otherwise insert a
fresh singleton entry. The `_ttl` argument is unused, exactly as in the
source. -/
def add_addr (book : List (P × List A)) (p : P) (addr : A) (_ttl : Nat) :
    List (P × List A) :=
  if (book.find? (fun e => decide (e.1 = p))).isSome then
    book.map (fun e =>
      if e.1 = p then (e.1, if addr ∈ e.2 then e.2 else e.2 ++ [addr]) else e)
  else book ++ [(p, [addr])]

/-- `AddrBook::del_peer`: remove the peer's entry. Under the map invariant
(at most one entry per key) removing every entry with this key equals
removing the single one. -/
def del_peer (book : List (P × List A)) (p : P) : List (P × List A) :=
  book.filter (fun e => decide (e.1 ≠ p))

/-- One address-book operation. -/
inductive Op (P A : Type) where
  | add (p : P) (addr : A) (ttl : Nat)
  | del (p : P)

/-- Apply one operation to the book. -/
def applyOp (book : List (P × List A)) : Op P A → List (P × List A)
  | Op.add p addr ttl => add_addr book p addr ttl
  | Op.del p => del_peer book p

/-- Apply a sequence of operations to the book, oldest first. -/
def applyOps (book : List (P × List A)) (ops : List (Op P A)) : List (P × List A) :=
  ops.foldl applyOp book

/-- The address-book invariant: keys are unique (the `HashMap` shape) and
no per-peer address list contains a duplicate. -/
def BookInv (book : List (P × List A)) : Prop :=
  (book.map Prod.fst).Nodup ∧ ∀ e ∈ book, e.2.Nodup

theorem bookInv_nil : BookInv ([] : List (P × List A)) := by
  constructor
  · exact List.nodup_nil
  · intro e he
    exact absurd he (List.not_mem_nil e)

theorem bookInv_add (book : List (P × List A)) (p : P) (addr : A) (ttl : Nat)
    (h : BookInv book) : BookInv (add_addr book p addr ttl) := by
  obtain ⟨hkeys, haddrs⟩ := h
  unfold add_addr
  by_cases hf : (book.find? (fun e => decide (e.1 = p))).isSome
  · rw [if_pos hf]
    constructor
    · have : (book.map (fun e =>
          if e.1 = p then (e.1, if addr ∈ e.2 then e.2 else e.2 ++ [addr]) else e)).map
            Prod.fst = book.map Prod.fst := by
        rw [List.map_map]
        apply List.map_congr_left
        intro e _
        by_cases hep : e.1 = p <;> simp [hep]
      rw [this]
      exact hkeys
    · intro e he
      rw [List.mem_map] at he
      obtain ⟨e0, he0, rfl⟩ := he
      by_cases hep : e0.1 = p
      · rw [if_pos hep]
        by_cases hmem : addr ∈ e0.2
        · simpa [hmem] using haddrs e0 he0
        · simp only [hmem, if_neg, if_false]
          rw [List.nodup_append]
          refine ⟨haddrs e0 he0, List.nodup_singleton addr, ?_⟩
          intro x hx
          simp only [List.mem_singleton]
          intro hxa
          subst hxa
          exact hmem hx
      · rw [if_neg hep]
        exact haddrs e0 he0
  · rw [if_neg hf]
    constructor
    · rw [List.map_append]
      rw [List.nodup_append]
      refine ⟨hkeys, by simp, ?_⟩
      intro x hx
      simp only [List.map_cons, List.map_nil, List.mem_singleton]
      intro hxp
      rw [List.mem_map] at hx
      obtain ⟨e0, he0, hfst⟩ := hx
      have hnone : book.find? (fun e => decide (e.1 = p)) = none :=
        Option.not_isSome_iff_eq_none.mp hf
      have hno := List.find?_eq_none.mp hnone e0 he0
      rw [hfst, hxp] at hno
      simp at hno
    · intro e he
      rw [List.mem_append] at he
      rcases he with he | he
      · exact haddrs e he
      · simp only [List.mem_singleton] at he
        subst he
        exact List.nodup_singleton addr

theorem bookInv_del (book : List (P × List A)) (p : P)
    (h : BookInv book) : BookInv (del_peer book p) := by
  obtain ⟨hkeys, haddrs⟩ := h
  constructor
  · exact hkeys.sublist ((List.filter_sublist book).map Prod.fst)
  · intro e he
    exact haddrs e (List.mem_of_mem_filter he)

theorem bookInv_applyOps (ops : List (Op P A)) (book : List (P × List A))
    (h : BookInv book) : BookInv (applyOps book ops) := by
  induction ops generalizing book with
  | nil => exact h
  | cons op rest ih =>
    cases op with
    | add p addr ttl => exact ih _ (bookInv_add book p addr ttl h)
    | del p => exact ih _ (bookInv_del book p h)

/-- Under the invariant, adding an address already present for a peer
leaves the book unchanged. -/
theorem add_addr_mem_eq (book : List (P × List A)) (p : P) (addr : A) (ttl : Nat)
    (hinv : BookInv book) (l : List A)
    (hget : get_addr book p = some l) (hmem : addr ∈ l) :
    add_addr book p addr ttl = book := by
  obtain ⟨hkeys, _⟩ := hinv
  unfold get_addr at hget
  obtain ⟨e0, hfind⟩ : ∃ e0, book.find? (fun e => decide (e.1 = p)) = some e0 := by
    cases hcase : book.find? (fun e => decide (e.1 = p)) with
    | none => rw [hcase] at hget; simp at hget
    | some e0 => exact ⟨e0, rfl⟩
  rw [hfind] at hget
  have hget2 : e0.2 = l := by simpa using hget
  have he0p : e0.1 = p := by
    have h1 := List.find?_some hfind
    simp only [decide_eq_true_eq] at h1
    exact h1
  have he0mem : e0 ∈ book := List.mem_of_find?_eq_some hfind
  unfold add_addr
  rw [hfind]
  simp only [Option.isSome_some, if_true]
  have hmapid : ∀ e ∈ book,
      (if e.1 = p then (e.1, if addr ∈ e.2 then e.2 else e.2 ++ [addr]) else e) = e := by
    intro e he
    by_cases hep : e.1 = p
    · have heq : e = e0 :=
        List.inj_on_of_nodup_map hkeys he he0mem (by rw [hep, he0p])
      subst heq
      rw [if_pos hep, hget2, if_pos hmem, ← hget2]
    · rw [if_neg hep]
  rw [List.map_congr_left hmapid]
  simp

end Peerstore

/-! ### Claim C9 -/

/-- C9: the address book never holds duplicate multiaddresses: in every
book reachable from the empty book by `add_addr` / `del_peer` operations,
every stored address list is duplicate-free, and `add_addr` of an address
already present for a peer leaves the book unchanged. -/
theorem C9_addrbook_nodup {P A : Type} [DecidableEq P] [DecidableEq A] :
    (∀ ops : List (Peerstore.Op P A), ∀ p l,
      Peerstore.get_addr (Peerstore.applyOps [] ops) p = some l → l.Nodup) ∧
    (∀ ops : List (Peerstore.Op P A), ∀ p addr ttl l,
      Peerstore.get_addr (Peerstore.applyOps [] ops) p = some l → addr ∈ l →
      Peerstore.add_addr (Peerstore.applyOps [] ops) p addr ttl =
        Peerstore.applyOps [] ops) := by
  constructor
  · intro ops p l hget
    have hinv := Peerstore.bookInv_applyOps ops [] Peerstore.bookInv_nil
    unfold Peerstore.get_addr at hget
    cases hfind : (Peerstore.applyOps [] ops).find? (fun e => decide (e.1 = p)) with
    | none =>
      rw [hfind] at hget
      simp at hget
    | some e0 =>
      rw [hfind] at hget
      have he0 := List.mem_of_find?_eq_some hfind
      have hl : e0.2 = l := by simpa using hget
      rw [← hl]
      exact hinv.2 e0 he0
  · intro ops p addr ttl l hget hmem
    exact Peerstore.add_addr_mem_eq _ p addr ttl
      (Peerstore.bookInv_applyOps ops [] Peerstore.bookInv_nil) l hget hmem

/-- Witness for C9: a concrete operation sequence that re-adds an existing
address; the stored list is duplicate-free and the duplicating `add_addr`
is a no-op. -/
theorem C9_addrbook_nodup_witness :
    (∃ l, Peerstore.get_addr
        (Peerstore.applyOps ([] : List (Nat × List Nat))
          [Peerstore.Op.add 1 5 9, Peerstore.Op.add 1 6 9, Peerstore.Op.add 1 5 7]) 1 =
        some l ∧ l.Nodup) ∧
    Peerstore.add_addr
        (Peerstore.applyOps ([] : List (Nat × List Nat))
          [Peerstore.Op.add 1 5 9, Peerstore.Op.add 1 6 9]) 1 5 3 =
      Peerstore.applyOps ([] : List (Nat × List Nat))
        [Peerstore.Op.add 1 5 9, Peerstore.Op.add 1 6 9] := by
  constructor
  · refine ⟨[5, 6], by decide, ?_⟩
    exact (C9_addrbook_nodup (P := Nat) (A := Nat)).1
      [Peerstore.Op.add 1 5 9, Peerstore.Op.add 1 6 9, Peerstore.Op.add 1 5 7] 1 [5, 6]
      (by decide)
  · exact (C9_addrbook_nodup (P := Nat) (A := Nat)).2
      [Peerstore.Op.add 1 5 9, Peerstore.Op.add 1 6 9] 1 5 3 [5, 6] (by decide) (by decide)

/-! ### Claim C10 -/

namespace Peerstore

/-- Looking up a key untouched by `filter`-removal of another key. -/
theorem find?_filter_ne {P A : Type} [DecidableEq P]
    (book : List (P × List A)) (p q : P) (hpq : q ≠ p) :
    (book.filter (fun e => decide (e.1 ≠ q))).find? (fun e => decide (e.1 = p)) =
      book.find? (fun e => decide (e.1 = p)) := by
  induction book with
  | nil => rfl
  | cons e rest ih =>
    by_cases heq : e.1 = q
    · have h1 : (decide (e.1 ≠ q)) = false := by simp [heq]
      have h2 : (decide (e.1 = p)) = false := by
        simp only [decide_eq_false_iff_not]
        rw [heq]
        exact hpq
      simp only [List.filter_cons, h1, if_neg, List.find?_cons, h2]
      simp only [Bool.false_eq_true, if_false]
      exact ih
    · have h1 : (decide (e.1 ≠ q)) = true := by simp [heq]
      simp only [List.filter_cons, h1, if_true, List.find?_cons]
      cases hp : decide (e.1 = p) with
      | true => rfl
      | false => exact ih

end Peerstore

/-- C10: `add_addr` is insensitive to its `ttl` argument — for any two
durations the resulting books are identical — and no expiry is recorded:
an address visible through `get_addr` remains visible after any further
`add_addr`, and after `del_peer` of any other peer; only `del_peer` of
the owning peer removes it (it removes the whole entry). -/
theorem C10_ttl_ignored {P A : Type} [DecidableEq P] [DecidableEq A] :
    (∀ book : List (P × List A), ∀ p addr t1 t2,
      Peerstore.add_addr book p addr t1 = Peerstore.add_addr book p addr t2) ∧
    (∀ book : List (P × List A), ∀ p q addr addr2 t l,
      Peerstore.get_addr book p = some l → addr ∈ l →
      ∃ l2, Peerstore.get_addr (Peerstore.add_addr book q addr2 t) p = some l2 ∧
        addr ∈ l2) ∧
    (∀ book : List (P × List A), ∀ p q l, q ≠ p →
      Peerstore.get_addr book p = some l →
      Peerstore.get_addr (Peerstore.del_peer book q) p = some l) ∧
    (∀ book : List (P × List A), ∀ p,
      Peerstore.get_addr (Peerstore.del_peer book p) p = none) := by
  refine ⟨fun book p addr t1 t2 => rfl, ?_, ?_, ?_⟩
  · intro book p q addr addr2 t l hget hmem
    unfold Peerstore.get_addr at hget
    obtain ⟨e0, hfind⟩ : ∃ e0, book.find? (fun e => decide (e.1 = p)) = some e0 := by
      cases hcase : book.find? (fun e => decide (e.1 = p)) with
      | none => rw [hcase] at hget; simp at hget
      | some e0 => exact ⟨e0, rfl⟩
    rw [hfind] at hget
    have hl : e0.2 = l := by simpa using hget
    unfold Peerstore.add_addr
    by_cases hf : (book.find? (fun e => decide (e.1 = q))).isSome
    · rw [if_pos hf]
      unfold Peerstore.get_addr
      rw [List.find?_map]
      have hpred : ((fun e : P × List A => decide (e.1 = p)) ∘
          (fun e => if e.1 = q then (e.1, if addr2 ∈ e.2 then e.2 else e.2 ++ [addr2])
                    else e)) = (fun e : P × List A => decide (e.1 = p)) := by
        funext e
        by_cases heq : e.1 = q <;> simp [heq]
      rw [hpred, hfind]
      by_cases heq : e0.1 = q
      · by_cases hmem2 : addr2 ∈ e0.2
        · refine ⟨e0.2, ?_, hl ▸ hmem⟩
          simp [heq, hmem2]
        · refine ⟨e0.2 ++ [addr2], ?_, ?_⟩
          · simp [heq, hmem2]
          · rw [List.mem_append]
            exact Or.inl (hl ▸ hmem)
      · refine ⟨e0.2, ?_, hl ▸ hmem⟩
        simp [heq]
    · rw [if_neg hf]
      unfold Peerstore.get_addr
      rw [List.find?_append, hfind]
      exact ⟨e0.2, rfl, hl ▸ hmem⟩
  · intro book p q l hqp hget
    unfold Peerstore.get_addr Peerstore.del_peer at *
    rw [Peerstore.find?_filter_ne book p q hqp]
    exact hget
  · intro book p
    unfold Peerstore.get_addr Peerstore.del_peer
    cases hcase : (book.filter (fun e => decide (e.1 ≠ p))).find?
        (fun e => decide (e.1 = p)) with
    | none => simp
    | some e0 =>
      have he0 := List.mem_of_find?_eq_some hcase
      have hp : e0.1 = p := by
        have h1 := List.find?_some hcase
        simpa using h1
      have hne := List.of_mem_filter he0
      simp [hp] at hne

/-- Witness for C10 at a concrete book. -/
theorem C10_ttl_ignored_witness :
    (∃ l2, Peerstore.get_addr
        (Peerstore.add_addr [(1, [5])] 2 7 99) 1 = some l2 ∧ 5 ∈ l2) ∧
    Peerstore.get_addr (Peerstore.del_peer [(1, [5]), (2, [7])] 2) 1 = some [5] ∧
    Peerstore.get_addr (Peerstore.del_peer [(1, [5]), (2, [7])] 1) 1 = none := by
  refine ⟨?_, ?_, ?_⟩
  · exact (C10_ttl_ignored (P := Nat) (A := Nat)).2.1 [(1, [5])] 1 2 5 7 99 [5]
      (by decide) (by decide)
  · exact (C10_ttl_ignored (P := Nat) (A := Nat)).2.2.1 [(1, [5]), (2, [7])] 1 2 [5]
      (by decide) (by decide)
  · exact (C10_ttl_ignored (P := Nat) (A := Nat)).2.2.2 [(1, [5]), (2, [7])] 1

/-! ## Private-network pre-shared key
Embedded from `src/protocols/pnet/src/lib.rs` (`PreSharedKey::fingerprint`,
`impl FromStr for PreSharedKey`, `parse_hex_key`, `to_hex`). The Salsa20
cipher and the Shake128 extendable-output hash are external crates
(`salsa20`, `sha3`); they are modelled byte-for-byte from their published
specifications (Bernstein's Salsa20/20 and FIPS 202), with bytes as `Nat`
values below 256 and machine words reduced modulo `2^32` / `2^64`. -/

namespace Pnet

/-- Rotate a 32-bit word left by `n` (for `x < 2^32`, `0 < n < 32`). -/
def rotl32 (x n : Nat) : Nat :=
  ((x <<< n) % 2 ^ 32) ||| (x >>> (32 - n))

/-- Rotate a 64-bit word left by `n` (for `x < 2^64`, `0 < n < 64`). -/
def rotl64 (x n : Nat) : Nat :=
  ((x <<< n) % 2 ^ 64) ||| (x >>> (64 - n))

/-- Little-endian 32-bit word from (up to) four bytes. -/
def leWord32 (b : List Nat) : Nat :=
  b.getD 0 0 + (b.getD 1 0) * 256 + (b.getD 2 0) * 65536 + (b.getD 3 0) * 16777216

/-- Little-endian bytes of a 32-bit word. -/
def word32Bytes (w : Nat) : List Nat :=
  [w % 256, w / 256 % 256, w / 65536 % 256, w / 16777216 % 256]

/-- Little-endian 64-bit word from (up to) eight bytes. -/
def leWord64 (b : List Nat) : Nat :=
  (List.range 8).foldr (fun i acc => acc * 256 + b.getD i 0) 0

/-- Little-endian bytes of a 64-bit word. -/
def word64Bytes (w : Nat) : List Nat :=
  (List.range 8).map (fun i => w / 256 ^ i % 256)

/-- The Salsa20 quarter-round applied to state indices `ia ib ic id`. -/
def quarterround (y : List Nat) (ia ib ic id : Nat) : List Nat :=
  let a := y.getD ia 0
  let b := y.getD ib 0
  let c := y.getD ic 0
  let d := y.getD id 0
  let b1 := b ^^^ rotl32 ((a + d) % 2 ^ 32) 7
  let c1 := c ^^^ rotl32 ((b1 + a) % 2 ^ 32) 9
  let d1 := d ^^^ rotl32 ((c1 + b1) % 2 ^ 32) 13
  let a1 := a ^^^ rotl32 ((d1 + c1) % 2 ^ 32) 18
  (((y.set ia a1).set ib b1).set ic c1).set id d1

/-- The Salsa20 column round. -/
def columnround (y : List Nat) : List Nat :=
  quarterround (quarterround (quarterround (quarterround y 0 4 8 12) 5 9 13 1) 10 14 2 6) 15 3 7 11

/-- The Salsa20 row round. -/
def rowround (y : List Nat) : List Nat :=
  quarterround (quarterround (quarterround (quarterround y 0 1 2 3) 5 6 7 4) 10 11 8 9) 15 12 13 14

/-- One Salsa20 double round. -/
def doubleround (y : List Nat) : List Nat :=
  rowround (columnround y)

/-- The initial Salsa20 state for a 32-byte key, 8-byte nonce and 64-bit
block counter (the `"expand 32-byte k"` constants at indices
0, 5, 10, 15). -/
def salsa20_init (key nonce : List Nat) (ctr : Nat) : List Nat :=
  [0x61707865,
   leWord32 (key.take 4), leWord32 ((key.drop 4).take 4),
   leWord32 ((key.drop 8).take 4), leWord32 ((key.drop 12).take 4),
   0x3320646e,
   leWord32 (nonce.take 4), leWord32 ((nonce.drop 4).take 4),
   ctr % 2 ^ 32, ctr / 2 ^ 32 % 2 ^ 32,
   0x79622d32,
   leWord32 ((key.drop 16).take 4), leWord32 ((key.drop 20).take 4),
   leWord32 ((key.drop 24).take 4), leWord32 ((key.drop 28).take 4),
   0x6b206574]

/-- One 64-byte Salsa20/20 keystream block: 10 double rounds, then the
feed-forward addition, serialized little-endian. -/
def salsa20_block (key nonce : List Nat) (ctr : Nat) : List Nat :=
  let st := salsa20_init key nonce ctr
  let z := doubleround^[10] st
  ((List.range 16).map (fun i => (z.getD i 0 + st.getD i 0) % 2 ^ 32)).flatMap word32Bytes

/-- Keccak ρ rotation offsets, indexed by lane `x + 5 * y` (one row of the
state per line). -/
def rhoOffsets : List Nat :=
  [0, 1, 62, 28, 27] ++
  [36, 44, 6, 55, 20] ++
  [3, 10, 43, 25, 39] ++
  [41, 45, 15, 21, 8] ++
  [18, 2, 61, 56, 14]

/-- Keccak round constants (decimal values of the 24 ι constants). -/
def keccakRC : List Nat :=
  [1, 32898, 9223372036854808714,
   9223372039002292224, 32907, 2147483649,
   9223372039002292353, 9223372036854808585, 138,
   136, 2147516425, 2147483658,
   2147516555, 9223372036854775947, 9223372036854808713,
   9223372036854808579, 9223372036854808578, 9223372036854775936,
   32778, 9223372039002259466, 9223372039002292353,
   9223372036854808704, 2147483649, 9223372039002292232]

/-- Keccak θ step on a 25-lane state (lane `x + 5 * y`). -/
def keccakTheta (A : List Nat) : List Nat :=
  let C := (List.range 5).map (fun x =>
    A.getD x 0 ^^^ A.getD (x + 5) 0 ^^^ A.getD (x + 10) 0 ^^^
      A.getD (x + 15) 0 ^^^ A.getD (x + 20) 0)
  let D := (List.range 5).map (fun x =>
    C.getD ((x + 4) % 5) 0 ^^^ rotl64 (C.getD ((x + 1) % 5) 0) 1)
  (List.range 25).map (fun i => A.getD i 0 ^^^ D.getD (i % 5) 0)

/-- Keccak ρ and π steps combined: destination `(x', y')` takes lane
`((x' + 3y') mod 5, x')` rotated by its ρ offset. -/
def keccakRhoPi (A : List Nat) : List Nat :=
  (List.range 25).map (fun j =>
    let xp := j % 5
    let yp := j / 5
    let src := (xp + 3 * yp) % 5 + 5 * xp
    rotl64 (A.getD src 0) (rhoOffsets.getD src 0))

/-- Keccak χ step. -/
def keccakChi (B : List Nat) : List Nat :=
  (List.range 25).map (fun j =>
    let x := j % 5
    let y := j / 5
    B.getD j 0 ^^^ (((2 ^ 64 - 1) ^^^ B.getD ((x + 1) % 5 + 5 * y) 0) &&&
      B.getD ((x + 2) % 5 + 5 * y) 0))

/-- One Keccak round (θ, ρ, π, χ, ι). -/
def keccakRound (A : List Nat) (rc : Nat) : List Nat :=
  let B := keccakChi (keccakRhoPi (keccakTheta A))
  B.set 0 (B.getD 0 0 ^^^ rc)

/-- The Keccak-f[1600] permutation (24 rounds). -/
def keccakF (A : List Nat) : List Nat :=
  keccakRC.foldl keccakRound A

/-- Shake128 restricted to messages short enough for a single rate block
(≤ 166 bytes), squeezing 16 output bytes: pad with `0x1F … 0x80` to the
168-byte rate, absorb into the zero state, permute once, and read the
first 16 bytes. -/
def shake128_16 (msg : List Nat) : List Nat :=
  let padded := msg ++ [0x1F] ++ List.replicate (168 - msg.length - 2) 0 ++ [0x80]
  let lanes := (List.range 21).map (fun i => leWord64 ((padded.drop (8 * i)).take 8))
  let st := keccakF (lanes ++ List.replicate 4 0)
  word64Bytes (st.getD 0 0) ++ word64Bytes (st.getD 1 0)

/-- `PreSharedKey::fingerprint`: encrypt 64 zero bytes with Salsa20 under
the key and the fixed nonce `"finprint"`, then take 16 bytes of Shake128
output of the ciphertext. -/
def fingerprint (key : List Nat) : List Nat :=
  let nonce := [102, 105, 110, 112, 114, 105, 110, 116]
  let enc := (List.replicate 64 0).zipWith (fun a b => a ^^^ b) (salsa20_block key nonce 0)
  shake128_16 enc

/-- Lowercase hex digit of a value below 16 (the `{:02x}` digits). -/
def hexDigitChar (n : Nat) : Char :=
  if n < 10 then Char.ofNat (48 + n) else Char.ofNat (87 + n)

/-- `to_hex`: each byte as two lowercase hex characters. -/
def to_hex (bytes : List Nat) : List Char :=
  bytes.flatMap (fun b => [hexDigitChar (b / 16), hexDigitChar (b % 16)])

/-- Value of a hex digit character, either case (`u8::from_str_radix`
digits). -/
def hexDigitVal (c : Char) : Option Nat :=
  if 48 ≤ c.toNat ∧ c.toNat ≤ 57 then some (c.toNat - 48)
  else if 97 ≤ c.toNat ∧ c.toNat ≤ 102 then some (c.toNat - 87)
  else if 65 ≤ c.toNat ∧ c.toNat ≤ 70 then some (c.toNat - 55)
  else none

/-- `u8::from_str_radix(s, 16)` on a two-character slice: two hex digits,
or a leading `+` sign followed by one digit. -/
def parseHexPair (c1 c2 : Char) : Option Nat :=
  if c1 = '+' then hexDigitVal c2
  else
    match hexDigitVal c1, hexDigitVal c2 with
    | some a, some b => some (a * 16 + b)
    | _, _ => none

/-- Errors of `impl FromStr for PreSharedKey` (`KeyParseError`). -/
inductive KeyParseError where
  | InvalidKeyFile
  | InvalidKeyType
  | InvalidKeyEncoding
  | InvalidKeyLength
  | InvalidKeyChar
deriving DecidableEq

/-- Parse consecutive two-character hex pairs into bytes. -/
def parseHexPairs : List Char → Except KeyParseError (List Nat)
  | [] => Except.ok []
  | c1 :: c2 :: rest =>
    match parseHexPair c1 c2 with
    | some b => (parseHexPairs rest).map (fun l => b :: l)
    | none => Except.error KeyParseError.InvalidKeyChar
  | _ => Except.error KeyParseError.InvalidKeyChar

/-- `parse_hex_key`: exactly 64 hex characters, decoded pairwise. -/
def parse_hex_key (s : List Char) : Except KeyParseError (List Nat) :=
  if s.length = 32 * 2 then parseHexPairs s
  else Except.error KeyParseError.InvalidKeyLength

/-- Split at `'\n'`, keeping empty segments (the final segment carries no
terminator). -/
def splitNewline : List Char → List (List Char)
  | [] => [[]]
  | c :: rest =>
    let r := splitNewline rest
    if c = '\n' then [] :: r
    else (c :: r.headD []) :: r.tail

/-- Strip one trailing `'\r'` (part of a `"\r\n"` terminator). -/
def stripCr (l : List Char) : List Char :=
  if l.getLast? = some '\r' then l.dropLast else l

/-- `str::lines`: split at `'\n'` / `"\r\n"`; a final line terminator
yields no extra empty line. -/
def linesOf (s : List Char) : List (List Char) :=
  let parts := splitNewline s
  let parts := if parts.getLast? = some [] then parts.dropLast else parts
  parts.map stripCr

/-- `str::trim_end` restricted to ASCII whitespace. -/
def trimEnd (l : List Char) : List Char :=
  (l.reverse.dropWhile (fun c =>
    c = ' ' ∨ c = '\t' ∨ c = '\n' ∨ c = '\r' ∨ c.toNat = 11 ∨ c.toNat = 12)).reverse

/-- `impl FromStr for PreSharedKey`: the first three lines must be the key
type `"/key/swarm/psk/1.0.0/"`, the encoding `"/base16/"`, and the
base16-encoded key (with trailing whitespace trimmed). -/
def from_str (s : List Char) : Except KeyParseError (List Nat) :=
  match (linesOf s).take 3 with
  | [keytype, encoding, key] =>
    if keytype ≠ "/key/swarm/psk/1.0.0/".data then Except.error KeyParseError.InvalidKeyType
    else if encoding ≠ "/base16/".data then Except.error KeyParseError.InvalidKeyEncoding
    else parse_hex_key (trimEnd key)
  | _ => Except.error KeyParseError.InvalidKeyFile

/-- The pre-shared key of the specification's test vector. -/
def exKey : List Nat :=
  [0x61, 0x89, 0xc5, 0xcf, 0x0b, 0x87, 0xfb, 0x80, 0x0c, 0x1a, 0x9f, 0xee,
   0xda, 0x73, 0xc6, 0xab, 0x5e, 0x99, 0x8d, 0xb4, 0x8f, 0xb9, 0xe6, 0xa9,
   0x78, 0x57, 0x5c, 0x77, 0x0c, 0xee, 0xf6, 0x83]

end Pnet

/-! ### Claim C8 -/

/-- C8: parsing the three-line key file succeeds and yields the 32-byte
key whose fingerprint (Salsa20 keystream over 64 zero bytes under the
fixed nonce `"finprint"`, then 16 bytes of Shake128 output) renders in
hex as exactly `45fc986bbc9388a11d939df26f730f0c`. -/
theorem C8_psk_fingerprint :
    Pnet.from_str
        ("/key/swarm/psk/1.0.0/\n/base16/\n6189c5cf0b87fb800c1a9feeda73c6ab5e998db48fb9e6a978575c770ceef683").data =
      Except.ok Pnet.exKey ∧
    Pnet.to_hex (Pnet.fingerprint Pnet.exKey) =
      "45fc986bbc9388a11d939df26f730f0c".data := by
  constructor
  · decide
  · decide

/-! ## Multiaddress protocols
Embedded from `src/multiaddr/src/protocol.rs`. Bytes are `Nat` values
below 256; Rust `&str` values are `List Char`. The number/address
formatting and parsing routines of the Rust standard library and the
`unsigned-varint`, `data-encoding` (base32), `bs58`, `percent-encoding`
and `multihash` crates are external dependencies; they are modelled from
their published formats. -/

namespace Multiaddr

/-- ASCII digit character of a value below 10. -/
def digitChar (d : Nat) : Char := Char.ofNat (48 + d)

/-- Lowercase hex digit character of a value below 16 (`{:x}`). -/
def hexChar (d : Nat) : Char :=
  if d < 10 then Char.ofNat (48 + d) else Char.ofNat (87 + d)

/-- Decimal rendering of a `Nat` (Rust `{}` for unsigned integers). -/
def natToChars (n : Nat) : List Char :=
  if n = 0 then ['0'] else ((Nat.digits 10 n).reverse).map digitChar

/-- Lowercase hex rendering of a `Nat` (Rust `{:x}`). -/
def natToHexChars (n : Nat) : List Char :=
  if n = 0 then ['0'] else ((Nat.digits 16 n).reverse).map hexChar

/-- Value of a decimal digit character. -/
def digitVal (c : Char) : Option Nat :=
  if 48 ≤ c.toNat ∧ c.toNat ≤ 57 then some (c.toNat - 48) else none

/-- Value of a hex digit character, either case. -/
def hexVal (c : Char) : Option Nat :=
  if 48 ≤ c.toNat ∧ c.toNat ≤ 57 then some (c.toNat - 48)
  else if 97 ≤ c.toNat ∧ c.toNat ≤ 102 then some (c.toNat - 87)
  else if 65 ≤ c.toNat ∧ c.toNat ≤ 70 then some (c.toNat - 55)
  else none

/-- Accumulate digit characters in the given base. -/
def parseDigitsGo (base : Nat) (dv : Char → Option Nat) (acc : Nat) :
    List Char → Option Nat
  | [] => some acc
  | c :: rest =>
    match dv c with
    | some d => parseDigitsGo base dv (acc * base + d) rest
    | none => none

/-- Parse a non-empty all-digit string in the given base. -/
def parseDigits (base : Nat) (dv : Char → Option Nat) (l : List Char) : Option Nat :=
  if l.isEmpty then none else parseDigitsGo base dv 0 l

/-- Rust `str::parse::<uN>()`: an optional leading `+`, then at least one
decimal digit, rejecting values at or above `2^width`. -/
def parseUint (width : Nat) (l : List Char) : Option Nat :=
  let l2 := if l.head? = some '+' then l.tail else l
  match parseDigits 10 digitVal l2 with
  | some v => if v < 2 ^ width then some v else none
  | none => none

theorem digitVal_digitChar (d : Nat) (h : d < 10) : digitVal (digitChar d) = some d := by
  interval_cases d <;> decide

theorem hexVal_hexChar (d : Nat) (h : d < 16) : hexVal (hexChar d) = some d := by
  interval_cases d <;> decide

theorem parseDigitsGo_digits (base : Nat) (dv : Char → Option Nat)
    (dchar : Nat → Char) (hdv : ∀ d, d < base → dv (dchar d) = some d)
    (ds : List Nat) (hd : ∀ d ∈ ds, d < base) (acc : Nat) :
    parseDigitsGo base dv acc (ds.map dchar) =
      some (Nat.ofDigits base ds.reverse + acc * base ^ ds.length) := by
  induction ds generalizing acc with
  | nil => simp [parseDigitsGo, Nat.ofDigits]
  | cons d rest ih =>
    have hdlt : d < base := hd d (List.mem_cons_self d rest)
    simp only [List.map_cons, parseDigitsGo, hdv d hdlt]
    rw [ih (fun x hx => hd x (List.mem_cons_of_mem d hx)) (acc * base + d)]
    congr 1
    rw [List.reverse_cons, Nat.ofDigits_append]
    simp [Nat.ofDigits]
    ring

/-- Parsing the decimal rendering recovers the value. -/
theorem parseDigits_natToChars (n : Nat) :
    parseDigits 10 digitVal (natToChars n) = some n := by
  by_cases h0 : n = 0
  · subst h0
    decide
  · unfold natToChars parseDigits
    rw [if_neg h0]
    have hne : (Nat.digits 10 n).reverse.map digitChar ≠ [] := by
      simp [Nat.digits_ne_nil_iff_ne_zero.mpr h0]
    rw [if_neg (by simpa [List.isEmpty_iff] using hne)]
    rw [parseDigitsGo_digits 10 digitVal digitChar
      (fun d hd => digitVal_digitChar d hd) (Nat.digits 10 n).reverse
      (fun d hd => Nat.digits_lt_base (by norm_num) (List.mem_reverse.mp hd)) 0]
    rw [List.reverse_reverse, Nat.ofDigits_digits]
    simp

/-- Parsing the hex rendering recovers the value. -/
theorem parseDigits_natToHexChars (n : Nat) :
    parseDigits 16 hexVal (natToHexChars n) = some n := by
  by_cases h0 : n = 0
  · subst h0
    decide
  · unfold natToHexChars parseDigits
    rw [if_neg h0]
    have hne : (Nat.digits 16 n).reverse.map hexChar ≠ [] := by
      simp [Nat.digits_ne_nil_iff_ne_zero.mpr h0]
    rw [if_neg (by simpa [List.isEmpty_iff] using hne)]
    rw [parseDigitsGo_digits 16 hexVal hexChar
      (fun d hd => hexVal_hexChar d hd) (Nat.digits 16 n).reverse
      (fun d hd => Nat.digits_lt_base (by norm_num) (List.mem_reverse.mp hd)) 0]
    rw [List.reverse_reverse, Nat.ofDigits_digits]
    simp

/-- Every character of a decimal rendering is a decimal digit. -/
theorem natToChars_all_digits (n : Nat) :
    ∀ c ∈ natToChars n, 48 ≤ c.toNat ∧ c.toNat ≤ 57 := by
  intro c hc
  unfold natToChars at hc
  by_cases h0 : n = 0
  · rw [h0] at hc
    simp at hc
    subst hc
    decide
  · rw [if_neg h0] at hc
    rw [List.mem_map] at hc
    obtain ⟨d, hd, rfl⟩ := hc
    have hdlt : d < 10 :=
      Nat.digits_lt_base (by norm_num) (List.mem_reverse.mp hd)
    interval_cases d <;> simp [digitChar] <;> decide

/-- `parseUint` inverts the decimal rendering for in-range values. -/
theorem parseUint_natToChars (width n : Nat) (h : n < 2 ^ width) :
    parseUint width (natToChars n) = some n := by
  unfold parseUint
  have hhead : (natToChars n).head? ≠ some '+' := by
    cases hc : (natToChars n).head? with
    | none => simp
    | some c =>
      have hmem : c ∈ natToChars n := by
        cases hl : natToChars n with
        | nil => rw [hl] at hc; simp at hc
        | cons a rest =>
          rw [hl] at hc
          simp only [List.head?_cons, Option.some_inj] at hc
          rw [← hc]
          exact List.mem_cons_self a rest
      have := natToChars_all_digits n c hmem
      simp only [ne_eq, Option.some_inj]
      intro hplus
      subst hplus
      revert this
      decide
  rw [if_neg hhead]
  simp only [parseDigits_natToChars n]
  simp [h]

/-- LEB128 unsigned-varint encoding (`unsigned_varint::encode`). -/
def varintEnc (n : Nat) : List Nat :=
  if h : n < 128 then [n] else (n % 128 + 128) :: varintEnc (n / 128)
termination_by n
decreasing_by
  exact Nat.div_lt_self (by omega) (by omega)

/-- The decode loop of `unsigned_varint::decode` for a `width`-bit integer
with at most `maxIdx + 1` bytes: each byte's low seven bits are shifted
into place (truncated at the width, as the Rust shift-or does) and
accumulated; `|=` on the disjoint bit ranges maintained by the loop is
addition. Returns `none` on insufficient input or overflow. -/
def varintDecGo (maxIdx width : Nat) : List Nat → Nat → Nat → Option (Nat × List Nat)
  | [], _, _ => none
  | b :: rest, i, acc =>
    let acc2 := acc + (b % 128) * 2 ^ (7 * i) % 2 ^ width
    if b < 128 then some (acc2, rest)
    else if i = maxIdx then none
    else varintDecGo maxIdx width rest (i + 1) acc2

/-- `unsigned_varint::decode::u32`. -/
def varintDec32 (input : List Nat) : Option (Nat × List Nat) :=
  varintDecGo 4 32 input 0 0

/-- `unsigned_varint::decode::u64` (also `usize` on 64-bit platforms). -/
def varintDec64 (input : List Nat) : Option (Nat × List Nat) :=
  varintDecGo 9 64 input 0 0

theorem varintEnc_length_le (k : Nat) :
    ∀ n, n < 2 ^ (7 * k) → 1 ≤ k → (varintEnc n).length ≤ k := by
  induction k with
  | zero => intro n _ h1; omega
  | succ k ih =>
    intro n hn _
    unfold varintEnc
    by_cases h : n < 128
    · simp [h]
    · rw [dif_neg h]
      simp only [List.length_cons]
      have hk1 : 1 ≤ k := by
        by_contra hk0
        have : k = 0 := by omega
        subst this
        simp at hn
        omega
      have : n / 128 < 2 ^ (7 * k) := by
        have h128 : (128 : Nat) = 2 ^ 7 := by norm_num
        rw [Nat.div_lt_iff_lt_mul (by norm_num)]
        calc n < 2 ^ (7 * (k + 1)) := hn
        _ = 2 ^ (7 * k) * 2 ^ 7 := by ring
        _ = 2 ^ (7 * k) * 128 := by norm_num
      have := ih (n / 128) this hk1
      omega

theorem varintDecGo_enc (width maxIdx : Nat) :
    ∀ n rest i acc, n < 2 ^ (width - 7 * i) → 7 * i < width →
    i + (varintEnc n).length ≤ maxIdx + 1 →
    varintDecGo maxIdx width (varintEnc n ++ rest) i acc =
      some (acc + n * 2 ^ (7 * i), rest) := by
  intro n
  induction n using Nat.strong_induction_on with
  | h n ih =>
    intro rest i acc hn hwi hfit
    unfold varintEnc
    by_cases h : n < 128
    · rw [dif_pos h]
      show varintDecGo maxIdx width (n :: rest) i acc = _
      have hmod : n % 128 = n := Nat.mod_eq_of_lt h
      have htrunc : n * 2 ^ (7 * i) % 2 ^ width = n * 2 ^ (7 * i) := by
        apply Nat.mod_eq_of_lt
        calc n * 2 ^ (7 * i) < 2 ^ (width - 7 * i) * 2 ^ (7 * i) :=
          mul_lt_mul_of_pos_right hn (by positivity)
        _ = 2 ^ width := by
          rw [← pow_add]
          congr 1
          omega
      simp only [varintDecGo, hmod, htrunc, if_pos h]
    · rw [dif_neg h]
      show varintDecGo maxIdx width ((n % 128 + 128) :: (varintEnc (n / 128) ++ rest))
        i acc = _
      have hb : ¬(n % 128 + 128 < 128) := by omega
      have hlen : 2 ≤ (varintEnc n).length := by
        unfold varintEnc
        rw [dif_neg h]
        simp only [List.length_cons]
        have h1 : (varintEnc (n / 128)).length ≥ 1 := by
          unfold varintEnc
          by_cases h2 : n / 128 < 128 <;> simp [h2]
        omega
      have himax : i ≠ maxIdx := by omega
      have hmod : (n % 128 + 128) % 128 = n % 128 := by omega
      have hwidth7 : 7 * i + 7 < width := by
        by_contra hcon
        have hle : width - 7 * i ≤ 7 := by omega
        have h2 : (2 : Nat) ^ (width - 7 * i) ≤ 2 ^ 7 :=
          Nat.pow_le_pow_right (by norm_num) hle
        have h3 : n < 128 := by
          calc n < 2 ^ (width - 7 * i) := hn
          _ ≤ 2 ^ 7 := h2
          _ = 128 := by norm_num
        omega
      have htrunc : n % 128 * 2 ^ (7 * i) % 2 ^ width = n % 128 * 2 ^ (7 * i) := by
        apply Nat.mod_eq_of_lt
        calc n % 128 * 2 ^ (7 * i) < 128 * 2 ^ (7 * i) :=
          mul_lt_mul_of_pos_right (Nat.mod_lt _ (by norm_num)) (by positivity)
        _ = 2 ^ (7 * i + 7) := by
          rw [pow_add]
          ring
        _ ≤ 2 ^ width := Nat.pow_le_pow_right (by norm_num) (le_of_lt hwidth7)
      simp only [varintDecGo, hmod, htrunc, if_neg hb, if_neg himax]
      have hrec := ih (n / 128) (Nat.div_lt_self (by omega) (by omega)) rest (i + 1)
        (acc + n % 128 * 2 ^ (7 * i))
        (by
          have h128 : (128 : Nat) = 2 ^ 7 := by norm_num
          rw [h128, Nat.div_lt_iff_lt_mul (by positivity), ← pow_add]
          have hexp2 : width - 7 * (i + 1) + 7 = width - 7 * i := by omega
          rw [hexp2]
          exact hn)
        (by omega)
        (by
          unfold varintEnc at hfit
          rw [dif_neg h] at hfit
          simp only [List.length_cons] at hfit
          omega)
      rw [hrec]
      have hexp : (2 : Nat) ^ (7 * (i + 1)) = 2 ^ (7 * i) * 128 := by
        rw [show 7 * (i + 1) = 7 * i + 7 by ring, pow_add]
        norm_num
      have hdm : 128 * (n / 128) + n % 128 = n := Nat.div_add_mod n 128
      have hval : acc + n % 128 * 2 ^ (7 * i) + n / 128 * 2 ^ (7 * (i + 1)) =
          acc + n * 2 ^ (7 * i) := by
        rw [hexp]
        calc acc + n % 128 * 2 ^ (7 * i) + n / 128 * (2 ^ (7 * i) * 128)
            = acc + (128 * (n / 128) + n % 128) * 2 ^ (7 * i) := by ring
          _ = acc + n * 2 ^ (7 * i) := by rw [hdm]
      rw [hval]

/-- `u32` varint decode inverts the encoding. -/
theorem varintDec32_enc (n : Nat) (rest : List Nat) (h : n < 2 ^ 32) :
    varintDec32 (varintEnc n ++ rest) = some (n, rest) := by
  unfold varintDec32
  rw [varintDecGo_enc 32 4 n rest 0 0 (by simpa using h) (by norm_num)
    (by
      have := varintEnc_length_le 5 n (by
        calc n < 2 ^ 32 := h
        _ ≤ 2 ^ (7 * 5) := by norm_num) (by norm_num)
      omega)]
  simp

/-- `u64` varint decode inverts the encoding. -/
theorem varintDec64_enc (n : Nat) (rest : List Nat) (h : n < 2 ^ 64) :
    varintDec64 (varintEnc n ++ rest) = some (n, rest) := by
  unfold varintDec64
  rw [varintDecGo_enc 64 9 n rest 0 0 (by simpa using h) (by norm_num)
    (by
      have := varintEnc_length_le 10 n (by
        calc n < 2 ^ 64 := h
        _ ≤ 2 ^ (7 * 10) := by norm_num) (by norm_num)
      omega)]
  simp

/-- Big-endian `u16` bytes (`byteorder::BigEndian` `write_u16`). -/
def u16BE (n : Nat) : List Nat := [n / 256 % 256, n % 256]

/-- Big-endian `u16` from two bytes (`read_u16`). -/
def readU16BE (b0 b1 : Nat) : Nat := b0 * 256 + b1

/-- Big-endian `u64` bytes (`write_u64`). -/
def u64BE (n : Nat) : List Nat :=
  [n / 256 ^ 7 % 256, n / 256 ^ 6 % 256, n / 256 ^ 5 % 256, n / 256 ^ 4 % 256,
   n / 256 ^ 3 % 256, n / 256 ^ 2 % 256, n / 256 % 256, n % 256]

theorem readU16BE_u16BE (n : Nat) (h : n < 65536) :
    readU16BE (n / 256 % 256) (n % 256) = n := by
  unfold readU16BE
  omega

/-- Split a character list at a separator, keeping empty segments. -/
def splitOn (sep : Char) : List Char → List (List Char)
  | [] => [[]]
  | c :: rest =>
    let r := splitOn sep rest
    if c = sep then [] :: r
    else (c :: r.headD []) :: r.tail

theorem splitOn_ne_nil (sep : Char) (l : List Char) : splitOn sep l ≠ [] := by
  cases l with
  | nil => simp [splitOn]
  | cons c rest =>
    unfold splitOn
    by_cases h : c = sep <;> simp [h]

/-- A separator-free list is a single segment. -/
theorem splitOn_no_sep (sep : Char) (l : List Char) (h : sep ∉ l) :
    splitOn sep l = [l] := by
  induction l with
  | nil => rfl
  | cons c rest ih =>
    unfold splitOn
    have hc : c ≠ sep := fun hcc => h (hcc ▸ List.mem_cons_self c rest)
    rw [if_neg hc]
    rw [ih (fun hm => h (List.mem_cons_of_mem c hm))]
    simp

/-- The one-step equation of `splitOn` on a cons cell. -/
theorem splitOn_cons (sep c : Char) (rest : List Char) :
    splitOn sep (c :: rest) =
      if c = sep then [] :: splitOn sep rest
      else (c :: (splitOn sep rest).headD []) :: (splitOn sep rest).tail := rfl

/-- Splitting after a separator-free prefix and one separator. -/
theorem splitOn_append_sep (sep : Char) (a b : List Char) (h : sep ∉ a) :
    splitOn sep (a ++ sep :: b) = a :: splitOn sep b := by
  induction a with
  | nil =>
    simp only [List.nil_append]
    rw [splitOn_cons]
    simp
  | cons c rest ih =>
    have hc : c ≠ sep := fun hcc => h (hcc ▸ List.mem_cons_self c rest)
    simp only [List.cons_append]
    rw [splitOn_cons, if_neg hc, ih (fun hm => h (List.mem_cons_of_mem c hm))]
    simp

/-- UTF-8 encoding of one character (`str::as_bytes`). -/
def utf8Char (c : Char) : List Nat :=
  let n := c.toNat
  if n < 128 then [n]
  else if n < 2048 then [192 + n / 64, 128 + n % 64]
  else if n < 65536 then [224 + n / 4096, 128 + n / 64 % 64, 128 + n % 64]
  else [240 + n / 262144, 128 + n / 4096 % 64, 128 + n / 64 % 64, 128 + n % 64]

/-- UTF-8 encoding of a string (`str::as_bytes`). -/
def utf8Encode (s : List Char) : List Nat :=
  s.flatMap utf8Char

/-- Is this byte a UTF-8 continuation byte? -/
def isCont (b : Nat) : Bool :=
  128 ≤ b && b < 192

/-- Decode one UTF-8 scalar from the front, rejecting bad leading bytes,
truncated or malformed sequences, overlong encodings, surrogates and
values beyond `0x10FFFF`. -/
def utf8DecodeOne : List Nat → Option (Char × List Nat)
  | [] => none
  | b :: rest =>
    if b < 128 then some (Char.ofNat b, rest)
    else if b < 192 then none
    else if b < 224 then
      match rest with
      | b1 :: rest2 =>
        if isCont b1 then
          let n := (b - 192) * 64 + (b1 - 128)
          if 128 ≤ n then some (Char.ofNat n, rest2) else none
        else none
      | [] => none
    else if b < 240 then
      match rest with
      | b1 :: b2 :: rest2 =>
        if isCont b1 && isCont b2 then
          let n := (b - 224) * 4096 + (b1 - 128) * 64 + (b2 - 128)
          if 2048 ≤ n ∧ ¬(55296 ≤ n ∧ n < 57344) then some (Char.ofNat n, rest2)
          else none
        else none
      | _ => none
    else if b < 248 then
      match rest with
      | b1 :: b2 :: b3 :: rest2 =>
        if isCont b1 && isCont b2 && isCont b3 then
          let n := (b - 240) * 262144 + (b1 - 128) * 4096 + (b2 - 128) * 64 + (b3 - 128)
          if 65536 ≤ n ∧ n < 1114112 then some (Char.ofNat n, rest2)
          else none
        else none
      | _ => none
    else none

theorem utf8DecodeOne_shorter :
    ∀ l c rest2, utf8DecodeOne l = some (c, rest2) → rest2.length < l.length := by
  intro l c rest2 h
  unfold utf8DecodeOne at h
  cases l with
  | nil => simp at h
  | cons b rest =>
    simp only at h
    split at h
    · simp only [Option.some_inj, Prod.mk.injEq] at h
      rw [← h.2]
      simp
    · split at h
      · simp at h
      · split at h
        · cases rest with
          | nil => simp at h
          | cons b1 rest2a =>
            simp only at h
            split at h
            · split at h
              · simp only [Option.some_inj, Prod.mk.injEq] at h
                rw [← h.2]
                simp
                omega
              · simp at h
            · simp at h
        · split at h
          · cases rest with
            | nil => simp at h
            | cons b1 restb =>
              cases restb with
              | nil => simp at h
              | cons b2 rest2a =>
                simp only at h
                split at h
                · split at h
                  · simp only [Option.some_inj, Prod.mk.injEq] at h
                    rw [← h.2]
                    simp
                    omega
                  · simp at h
                · simp at h
          · split at h
            · cases rest with
              | nil => simp at h
              | cons b1 restb =>
                cases restb with
                | nil => simp at h
                | cons b2 restc =>
                  cases restc with
                  | nil => simp at h
                  | cons b3 rest2a =>
                    simp only at h
                    split at h
                    · split at h
                      · simp only [Option.some_inj, Prod.mk.injEq] at h
                        rw [← h.2]
                        simp
                        omega
                      · simp at h
                    · simp at h
            · simp at h

/-- `str::from_utf8`: decode scalars until the input is exhausted. -/
def utf8Decode (l : List Nat) : Option (List Char) :=
  match hl : l with
  | [] => some []
  | _ :: _ =>
    match h : utf8DecodeOne l with
    | some (c, rest2) => (utf8Decode rest2).map (fun cs => c :: cs)
    | none => none
termination_by l.length
decreasing_by
  have h2 := utf8DecodeOne_shorter l c rest2 h
  rw [hl] at h2
  exact h2

theorem char_toNat_lt (c : Char) : c.toNat < 1114112 := by
  have h := c.valid
  cases h with
  | inl h1 =>
    have : c.toNat < 55296 := h1
    omega
  | inr h2 => exact h2.2

theorem char_toNat_not_surrogate (c : Char) :
    ¬(55296 ≤ c.toNat ∧ c.toNat < 57344) := by
  have h := c.valid
  cases h with
  | inl h1 =>
    intro hcon
    have : c.toNat < 55296 := h1
    omega
  | inr h2 =>
    intro hcon
    have : 57344 ≤ c.toNat := h2.1
    omega

/-- Decoding one scalar after an encoded character peels off exactly that
character. -/
theorem utf8DecodeOne_char (c : Char) (rest : List Nat) :
    utf8DecodeOne (utf8Char c ++ rest) = some (c, rest) := by
  have hlt := char_toNat_lt c
  have hsur := char_toNat_not_surrogate c
  unfold utf8Char
  by_cases h1 : c.toNat < 128
  · rw [if_pos h1]
    show utf8DecodeOne (c.toNat :: rest) = _
    simp only [utf8DecodeOne]
    rw [if_pos h1, Char.ofNat_toNat c]
  · rw [if_neg h1]
    by_cases h2 : c.toNat < 2048
    · rw [if_pos h2]
      show utf8DecodeOne ((192 + c.toNat / 64) :: (128 + c.toNat % 64) :: rest) = _
      simp only [utf8DecodeOne]
      rw [if_neg (by omega), if_neg (by omega), if_pos (by omega)]
      have hcont : isCont (128 + c.toNat % 64) = true := by
        unfold isCont
        simp only [Bool.and_eq_true, decide_eq_true_eq]
        omega
      rw [hcont]
      simp only [if_true]
      have hval : (192 + c.toNat / 64 - 192) * 64 + (128 + c.toNat % 64 - 128) =
          c.toNat := by omega
      rw [hval, if_pos (by omega), Char.ofNat_toNat c]
    · rw [if_neg h2]
      by_cases h3 : c.toNat < 65536
      · rw [if_pos h3]
        show utf8DecodeOne ((224 + c.toNat / 4096) :: (128 + c.toNat / 64 % 64) ::
          (128 + c.toNat % 64) :: rest) = _
        simp only [utf8DecodeOne]
        rw [if_neg (by omega), if_neg (by omega), if_neg (by omega), if_pos (by omega)]
        have hcont1 : isCont (128 + c.toNat / 64 % 64) = true := by
          unfold isCont
          simp only [Bool.and_eq_true, decide_eq_true_eq]
          omega
        have hcont2 : isCont (128 + c.toNat % 64) = true := by
          unfold isCont
          simp only [Bool.and_eq_true, decide_eq_true_eq]
          omega
        rw [hcont1, hcont2]
        simp only [Bool.and_self, if_true]
        have hval : (224 + c.toNat / 4096 - 224) * 4096 +
            (128 + c.toNat / 64 % 64 - 128) * 64 + (128 + c.toNat % 64 - 128) =
            c.toNat := by omega
        rw [hval, if_pos (by exact ⟨by omega, hsur⟩), Char.ofNat_toNat c]
      · rw [if_neg h3]
        show utf8DecodeOne ((240 + c.toNat / 262144) :: (128 + c.toNat / 4096 % 64) ::
          (128 + c.toNat / 64 % 64) :: (128 + c.toNat % 64) :: rest) = _
        simp only [utf8DecodeOne]
        rw [if_neg (by omega), if_neg (by omega), if_neg (by omega), if_neg (by omega),
          if_pos (by omega)]
        have hcont1 : isCont (128 + c.toNat / 4096 % 64) = true := by
          unfold isCont
          simp only [Bool.and_eq_true, decide_eq_true_eq]
          omega
        have hcont2 : isCont (128 + c.toNat / 64 % 64) = true := by
          unfold isCont
          simp only [Bool.and_eq_true, decide_eq_true_eq]
          omega
        have hcont3 : isCont (128 + c.toNat % 64) = true := by
          unfold isCont
          simp only [Bool.and_eq_true, decide_eq_true_eq]
          omega
        rw [hcont1, hcont2, hcont3]
        simp only [Bool.and_self, if_true]
        have hval : (240 + c.toNat / 262144 - 240) * 262144 +
            (128 + c.toNat / 4096 % 64 - 128) * 4096 +
            (128 + c.toNat / 64 % 64 - 128) * 64 + (128 + c.toNat % 64 - 128) =
            c.toNat := by omega
        rw [hval, if_pos (by exact ⟨by omega, by omega⟩), Char.ofNat_toNat c]

theorem utf8Char_ne_nil (c : Char) : utf8Char c ≠ [] := by
  unfold utf8Char
  by_cases h1 : c.toNat < 128
  · simp [h1]
  · by_cases h2 : c.toNat < 2048
    · simp [h1, h2]
    · by_cases h3 : c.toNat < 65536 <;> simp [h1, h2, h3]

/-- `str::from_utf8` inverts `str::as_bytes`. -/
theorem utf8Decode_encode (s : List Char) :
    utf8Decode (utf8Encode s) = some s := by
  induction s with
  | nil =>
    show utf8Decode [] = some []
    rw [utf8Decode.eq_def]
  | cons c rest ih =>
    unfold utf8Encode at *
    simp only [List.flatMap_cons]
    have hne : utf8Char c ++ rest.flatMap utf8Char ≠ [] := by
      intro hcon
      exact utf8Char_ne_nil c (List.append_eq_nil.mp hcon).1
    rw [utf8Decode.eq_def]
    split
    · rename_i heq
      exact absurd heq hne
    · split
      · rename_i cx rest2 heq
        rw [utf8DecodeOne_char c] at heq
        have hc : cx = c := by
          have := congrArg (fun o => o.map Prod.fst) heq
          simpa using this.symm
        have hr : rest2 = rest.flatMap utf8Char := by
          have := congrArg (fun o => o.map Prod.snd) heq
          simpa using this.symm
        subst hc
        subst hr
        rw [ih]
        rfl
      · rename_i heq
        rw [utf8DecodeOne_char c] at heq
        simp at heq

theorem natToChars_not_mem (n : Nat) (c : Char)
    (h : ¬(48 ≤ c.toNat ∧ c.toNat ≤ 57)) : c ∉ natToChars n := by
  intro hmem
  exact h (natToChars_all_digits n c hmem)

/-- Canonical IPv4 text (`Ipv4Addr`'s `Display`): four decimal octets
joined by dots. -/
def ipv4Chars (a b c d : Nat) : List Char :=
  natToChars a ++ '.' :: (natToChars b ++ '.' :: (natToChars c ++ '.' :: natToChars d))

/-- One octet of an IPv4 dotted quad: decimal digits below 256. -/
def parseIpv4Part (l : List Char) : Option Nat :=
  match parseDigits 10 digitVal l with
  | some v => if v < 256 then some v else none
  | none => none

/-- `Ipv4Addr::from_str`: four dot-separated decimal octets. -/
def parseIpv4 (l : List Char) : Option (Nat × Nat × Nat × Nat) :=
  match splitOn '.' l with
  | [pa, pb, pc, pd] =>
    match parseIpv4Part pa, parseIpv4Part pb, parseIpv4Part pc, parseIpv4Part pd with
    | some a, some b, some c, some d => some (a, b, c, d)
    | _, _, _, _ => none
  | _ => none

theorem parseIpv4Part_natToChars (n : Nat) (h : n < 256) :
    parseIpv4Part (natToChars n) = some n := by
  unfold parseIpv4Part
  rw [parseDigits_natToChars n]
  simp [h]

/-- IPv4 text parsing inverts the canonical rendering. -/
theorem parseIpv4_ipv4Chars (a b c d : Nat)
    (ha : a < 256) (hb : b < 256) (hc : c < 256) (hd : d < 256) :
    parseIpv4 (ipv4Chars a b c d) = some (a, b, c, d) := by
  unfold parseIpv4 ipv4Chars
  have hdot : ∀ n : Nat, '.' ∉ natToChars n := fun n =>
    natToChars_not_mem n '.' (by decide)
  rw [splitOn_append_sep '.' _ _ (hdot a),
      splitOn_append_sep '.' _ _ (hdot b),
      splitOn_append_sep '.' _ _ (hdot c),
      splitOn_no_sep '.' _ (hdot d)]
  simp only [parseIpv4Part_natToChars a ha, parseIpv4Part_natToChars b hb,
    parseIpv4Part_natToChars c hc, parseIpv4Part_natToChars d hd]

/-- Map characters through a digit valuation, failing on the first invalid
character. -/
def charVals (f : Char → Option Nat) : List Char → Option (List Nat)
  | [] => some []
  | c :: rest =>
    match f c, charVals f rest with
    | some v, some vs => some (v :: vs)
    | _, _ => none

theorem charVals_map (f : Char → Option Nat) (g : Nat → Char) (ds : List Nat)
    (h : ∀ d ∈ ds, f (g d) = some d) :
    charVals f (ds.map g) = some ds := by
  induction ds with
  | nil => rfl
  | cons d rest ih =>
    simp only [List.map_cons, charVals]
    rw [h d (List.mem_cons_self d rest), ih (fun x hx => h x (List.mem_cons_of_mem d hx))]

theorem charVals_append (f : Char → Option Nat) (l1 l2 : List Char)
    (v1 v2 : List Nat) (h1 : charVals f l1 = some v1) (h2 : charVals f l2 = some v2) :
    charVals f (l1 ++ l2) = some (v1 ++ v2) := by
  induction l1 generalizing v1 with
  | nil =>
    simp only [charVals] at h1
    simp only [Option.some_inj] at h1
    subst h1
    simpa using h2
  | cons c rest ih =>
    simp only [charVals] at h1 ⊢
    cases hfc : f c with
    | none => rw [hfc] at h1; simp at h1
    | some v =>
      rw [hfc] at h1
      cases hrest : charVals f rest with
      | none => rw [hrest] at h1; simp at h1
      | some vs =>
        rw [hrest] at h1
        simp only [Option.some_inj] at h1
        subst h1
        simp only [List.cons_append]
        have hr2 := ih vs hrest
        rw [show rest.append l2 = rest ++ l2 from rfl, hr2]

/-- One 5-byte base32 block as eight 5-bit values (RFC 4648). -/
def b32Chunk (b0 b1 b2 b3 b4 : Nat) : List Nat :=
  let n := b0 * 2 ^ 32 + b1 * 2 ^ 24 + b2 * 2 ^ 16 + b3 * 2 ^ 8 + b4
  [n / 2 ^ 35 % 32, n / 2 ^ 30 % 32, n / 2 ^ 25 % 32, n / 2 ^ 20 % 32,
   n / 2 ^ 15 % 32, n / 2 ^ 10 % 32, n / 2 ^ 5 % 32, n % 32]

/-- Base32 5-bit values of a byte string whose length is a multiple of
five (the only shapes onion addresses use, so no padding arises). -/
def b32Vals : List Nat → List Nat
  | b0 :: b1 :: b2 :: b3 :: b4 :: rest => b32Chunk b0 b1 b2 b3 b4 ++ b32Vals rest
  | _ => []

/-- Eight 5-bit values back to five bytes. -/
def b32Unchunk (d0 d1 d2 d3 d4 d5 d6 d7 : Nat) : List Nat :=
  let m := d0 * 2 ^ 35 + d1 * 2 ^ 30 + d2 * 2 ^ 25 + d3 * 2 ^ 20 +
    d4 * 2 ^ 15 + d5 * 2 ^ 10 + d6 * 2 ^ 5 + d7
  [m / 2 ^ 32 % 256, m / 2 ^ 24 % 256, m / 2 ^ 16 % 256, m / 2 ^ 8 % 256, m % 256]

/-- Bytes from base32 5-bit values (length a multiple of eight). -/
def b32Bytes : List Nat → List Nat
  | d0 :: d1 :: d2 :: d3 :: d4 :: d5 :: d6 :: d7 :: rest =>
    b32Unchunk d0 d1 d2 d3 d4 d5 d6 d7 ++ b32Bytes rest
  | _ => []

/-- The RFC 4648 base32 alphabet character of a 5-bit value
(`A`–`Z`, `2`–`7`). -/
def b32Char (d : Nat) : Char :=
  if d < 26 then Char.ofNat (65 + d) else Char.ofNat (24 + d)

/-- Value of an uppercase RFC 4648 base32 character. -/
def b32CharVal (c : Char) : Option Nat :=
  if 65 ≤ c.toNat ∧ c.toNat ≤ 90 then some (c.toNat - 65)
  else if 50 ≤ c.toNat ∧ c.toNat ≤ 55 then some (c.toNat - 24)
  else none

/-- ASCII lowercasing (`str::to_lowercase` on the base32 alphabet). -/
def toLowerChar (c : Char) : Char :=
  if 65 ≤ c.toNat ∧ c.toNat ≤ 90 then Char.ofNat (c.toNat + 32) else c

/-- ASCII uppercasing (`str::to_uppercase` on the base32 alphabet). -/
def toUpperChar (c : Char) : Char :=
  if 97 ≤ c.toNat ∧ c.toNat ≤ 122 then Char.ofNat (c.toNat - 32) else c

/-- `data_encoding::BASE32.encode`: uppercase base32 characters of the
input bytes. -/
def b32Encode (bytes : List Nat) : List Char :=
  (b32Vals bytes).map b32Char

/-- `data_encoding::BASE32.decode_mut` (after the caller's length checks):
all characters must be uppercase alphabet characters. -/
def b32Decode (l : List Char) : Option (List Nat) :=
  (charVals b32CharVal l).map b32Bytes

theorem b32_char_roundtrip (d : Nat) (h : d < 32) :
    b32CharVal (toUpperChar (toLowerChar (b32Char d))) = some d := by
  interval_cases d <;> decide

theorem b32Bytes_chunk (b0 b1 b2 b3 b4 : Nat) (rest : List Nat)
    (h0 : b0 < 256) (h1 : b1 < 256) (h2 : b2 < 256) (h3 : b3 < 256) (h4 : b4 < 256) :
    b32Bytes (b32Chunk b0 b1 b2 b3 b4 ++ rest) =
      b0 :: b1 :: b2 :: b3 :: b4 :: b32Bytes rest := by
  unfold b32Chunk
  set n := b0 * 2 ^ 32 + b1 * 2 ^ 24 + b2 * 2 ^ 16 + b3 * 2 ^ 8 + b4 with hn
  simp only [List.cons_append, List.nil_append]
  rw [b32Bytes]
  unfold b32Unchunk
  have hm : n / 2 ^ 35 % 32 * 2 ^ 35 + n / 2 ^ 30 % 32 * 2 ^ 30 +
      n / 2 ^ 25 % 32 * 2 ^ 25 + n / 2 ^ 20 % 32 * 2 ^ 20 +
      n / 2 ^ 15 % 32 * 2 ^ 15 + n / 2 ^ 10 % 32 * 2 ^ 10 +
      n / 2 ^ 5 % 32 * 2 ^ 5 + n % 32 = n := by
    have hlt : n < 2 ^ 40 := by omega
    omega
  simp only
  rw [hm]
  simp only [List.cons_append, List.nil_append, List.cons.injEq, and_true]
  omega


theorem b32Bytes_vals (bytes : List Nat) (h5 : bytes.length % 5 = 0)
    (hb : ∀ b ∈ bytes, b < 256) : b32Bytes (b32Vals bytes) = bytes := by
  induction bytes using b32Vals.induct with
  | case1 b0 b1 b2 b3 b4 rest ih =>
    simp only [b32Vals]
    rw [b32Bytes_chunk b0 b1 b2 b3 b4 (b32Vals rest)
      (hb b0 (by simp)) (hb b1 (by simp)) (hb b2 (by simp))
      (hb b3 (by simp)) (hb b4 (by simp))]
    simp only [List.length_cons] at h5
    rw [ih (by omega) (fun b hbm => hb b (by simp [hbm]))]
  | case2 l hne =>
    cases l with
    | nil => rfl
    | cons a r1 =>
      cases r1 with
      | nil => simp only [List.length_cons, List.length_nil] at h5; omega
      | cons b r2 =>
        cases r2 with
        | nil => simp only [List.length_cons, List.length_nil] at h5; omega
        | cons c r3 =>
          cases r3 with
          | nil => simp only [List.length_cons, List.length_nil] at h5; omega
          | cons d r4 =>
            cases r4 with
            | nil => simp only [List.length_cons, List.length_nil] at h5; omega
            | cons e rest => exact (hne a b c d e rest rfl).elim

theorem b32Vals_lt (bytes : List Nat) : ∀ v ∈ b32Vals bytes, v < 32 := by
  induction bytes using b32Vals.induct with
  | case1 b0 b1 b2 b3 b4 rest ih =>
    intro v hv
    simp only [b32Vals, b32Chunk, List.mem_append] at hv
    rcases hv with hv | hv
    · simp only [List.mem_cons, List.not_mem_nil, or_false] at hv
      rcases hv with rfl | rfl | rfl | rfl | rfl | rfl | rfl | rfl <;>
        exact Nat.mod_lt _ (by norm_num)
    · exact ih v hv
  | case2 l hne =>
    intro v hv
    cases l with
    | nil => simp [b32Vals] at hv
    | cons a r1 =>
      cases r1 with
      | nil => simp [b32Vals] at hv
      | cons b r2 =>
        cases r2 with
        | nil => simp [b32Vals] at hv
        | cons c r3 =>
          cases r3 with
          | nil => simp [b32Vals] at hv
          | cons d r4 =>
            cases r4 with
            | nil => simp [b32Vals] at hv
            | cons e rest => exact (hne a b c d e rest rfl).elim

theorem b32Vals_length (bytes : List Nat) (h5 : bytes.length % 5 = 0) :
    (b32Vals bytes).length = bytes.length / 5 * 8 := by
  induction bytes using b32Vals.induct with
  | case1 b0 b1 b2 b3 b4 rest ih =>
    simp only [b32Vals, List.length_append, List.length_cons] at *
    have h8 : (b32Chunk b0 b1 b2 b3 b4).length = 8 := by
      simp [b32Chunk]
    rw [h8, ih (by omega)]
    omega
  | case2 l hne =>
    cases l with
    | nil => simp [b32Vals]
    | cons a r1 =>
      cases r1 with
      | nil => simp only [List.length_cons, List.length_nil] at h5; omega
      | cons b r2 =>
        cases r2 with
        | nil => simp only [List.length_cons, List.length_nil] at h5; omega
        | cons c r3 =>
          cases r3 with
          | nil => simp only [List.length_cons, List.length_nil] at h5; omega
          | cons d r4 =>
            cases r4 with
            | nil => simp only [List.length_cons, List.length_nil] at h5; omega
            | cons e rest => exact (hne a b c d e rest rfl).elim

/-- Base32 decode (after uppercasing) inverts the lowercased encoding. -/
theorem b32_roundtrip (bytes : List Nat) (h5 : bytes.length % 5 = 0)
    (hb : ∀ b ∈ bytes, b < 256) :
    b32Decode (((b32Encode bytes).map toLowerChar).map toUpperChar) = some bytes := by
  unfold b32Encode b32Decode
  rw [List.map_map, List.map_map]
  rw [charVals_map b32CharVal ((toUpperChar ∘ toLowerChar) ∘ b32Char) (b32Vals bytes)
    (fun d hd => b32_char_roundtrip d (b32Vals_lt bytes d hd))]
  rw [Option.map_some', b32Bytes_vals bytes h5 hb]

/-- Big-endian value of a byte string. -/
def bytesVal (base : Nat) (l : List Nat) : Nat :=
  l.foldl (fun acc b => acc * base + b) 0

theorem foldl_base (base : Nat) (l : List Nat) (acc : Nat) :
    l.foldl (fun a b => a * base + b) acc =
      Nat.ofDigits base l.reverse + acc * base ^ l.length := by
  induction l generalizing acc with
  | nil => simp [Nat.ofDigits]
  | cons b rest ih =>
    simp only [List.foldl_cons, List.reverse_cons, List.length_cons]
    rw [ih (acc * base + b), Nat.ofDigits_append]
    simp [Nat.ofDigits]
    ring

theorem bytesVal_eq_ofDigits (base : Nat) (l : List Nat) :
    bytesVal base l = Nat.ofDigits base l.reverse := by
  unfold bytesVal
  rw [foldl_base]
  simp

/-- Minimal big-endian byte representation of a value. -/
def natToBytesBE (base n : Nat) : List Nat :=
  (Nat.digits base n).reverse

/-- The minimal big-endian representation inverts the value of a
leading-zero-free byte string. -/
theorem natToBytesBE_bytesVal (base : Nat) (hbase : 2 ≤ base) (l : List Nat)
    (hl : ∀ b ∈ l, b < base) (hhead : l.head? ≠ some 0) :
    natToBytesBE base (bytesVal base l) = l := by
  unfold natToBytesBE
  rw [bytesVal_eq_ofDigits]
  cases l with
  | nil => simp
  | cons b rest =>
    have hb0 : b ≠ 0 := by
      intro hcon
      rw [hcon] at hhead
      simp at hhead
    rw [Nat.digits_ofDigits base (by omega) ((b :: rest).reverse)
      (fun d hd => hl d (List.mem_reverse.mp hd))
      (by
        intro hne
        rw [List.getLast_reverse]
        simpa using hb0)]
    simp

/-- The bs58 alphabet. -/
def b58Alphabet : List Char :=
  "123456789ABCDEFGHJKLMNPQRSTUVWXYZabcdefghijkmnopqrstuvwxyz".data

/-- The bs58 alphabet character of a value below 58. -/
def b58Char (d : Nat) : Char :=
  b58Alphabet.getD d '1'

/-- The value of a bs58 alphabet character. -/
def b58Val (c : Char) : Option Nat :=
  b58Alphabet.findIdx? (fun x => x == c)

/-- `bs58::encode`: one `1` per leading zero byte, then the base-58 digits
of the big-endian value. -/
def b58Encode (bytes : List Nat) : List Char :=
  List.replicate (bytes.takeWhile (fun b => b == 0)).length '1' ++
    (Nat.digits 58 (bytesVal 256 bytes)).reverse.map b58Char

/-- `bs58::decode`: all characters must be alphabet characters; one zero
byte per leading `1`, then the minimal big-endian bytes of the base-58
value. -/
def b58Decode (l : List Char) : Option (List Nat) :=
  match charVals b58Val l with
  | some vs =>
    some (List.replicate (l.takeWhile (fun c => c == '1')).length 0 ++
      natToBytesBE 256 (bytesVal 58 vs))
  | none => none

theorem b58Val_b58Char (d : Nat) (h : d < 58) : b58Val (b58Char d) = some d := by
  interval_cases d <;> decide

theorem b58Char_ne_one (d : Nat) (h1 : 1 ≤ d) (h2 : d < 58) : b58Char d ≠ '1' := by
  interval_cases d <;> decide

theorem bytesVal_replicate_zero_append (base : Nat) (z : Nat) (l : List Nat) :
    bytesVal base (List.replicate z 0 ++ l) = bytesVal base l := by
  unfold bytesVal
  rw [List.foldl_append]
  congr 1
  induction z with
  | zero => rfl
  | succ k ih => simpa [List.replicate_succ] using ih

theorem dropWhile_head_not {α : Type} (p : α → Bool) (l : List α) :
    ∀ b, (l.dropWhile p).head? = some b → p b = false := by
  induction l with
  | nil => intro b h; simp [List.dropWhile] at h
  | cons a rest ih =>
    intro b h
    rw [List.dropWhile_cons] at h
    by_cases hpa : p a = true
    · rw [if_pos hpa] at h
      exact ih b h
    · rw [if_neg hpa] at h
      simp only [List.head?_cons, Option.some_inj] at h
      subst h
      simpa using hpa

theorem takeWhile_replicate_append_length {α : Type} (p : α → Bool) (a : α)
    (z : Nat) (B : List α) (hpa : p a = true)
    (hB : ∀ b, B.head? = some b → p b = false) :
    ((List.replicate z a ++ B).takeWhile p).length = z := by
  induction z with
  | zero =>
    simp only [List.replicate_zero, List.nil_append]
    cases B with
    | nil => simp
    | cons b rest =>
      rw [List.takeWhile_cons, if_neg (by simp [hB b rfl])]
      simp
  | succ k ih =>
    rw [List.replicate_succ]
    simp only [List.cons_append]
    rw [List.takeWhile_cons, if_pos hpa]
    simp [ih]

/-- bs58 decode inverts bs58 encode. -/
theorem b58_roundtrip (bytes : List Nat) (hb : ∀ b ∈ bytes, b < 256) :
    b58Decode (b58Encode bytes) = some bytes := by
  set z := (bytes.takeWhile (fun b => b == 0)).length with hz
  set rest := bytes.dropWhile (fun b => b == 0) with hrest
  have hsplit : List.replicate z 0 ++ rest = bytes := by
    rw [hz, hrest]
    have htw : bytes.takeWhile (fun b => b == 0) =
        List.replicate (bytes.takeWhile (fun b => b == 0)).length 0 := by
      apply List.eq_replicate_of_mem
      intro b hbm
      have := List.mem_takeWhile_imp hbm
      simpa using this
    conv_rhs => rw [← List.takeWhile_append_dropWhile (p := fun b => b == 0) (l := bytes)]
    rw [← htw]
  have hresthead : rest.head? ≠ some 0 := by
    intro hcon
    have := dropWhile_head_not (fun b => b == 0) bytes 0 (hrest ▸ hcon)
    simp at this
  have hrestlt : ∀ b ∈ rest, b < 256 := by
    intro b hbm
    exact hb b (by rw [← hsplit]; exact List.mem_append_right _ hbm)
  set n := bytesVal 256 bytes with hn
  have hdigits_lt : ∀ d ∈ (Nat.digits 58 n).reverse, d < 58 := by
    intro d hd
    exact Nat.digits_lt_base (by norm_num) (List.mem_reverse.mp hd)
  have hvals : charVals b58Val
      (List.replicate z '1' ++ (Nat.digits 58 n).reverse.map b58Char) =
      some (List.replicate z 0 ++ (Nat.digits 58 n).reverse) := by
    apply charVals_append
    · rw [show List.replicate z '1' = (List.replicate z 0).map b58Char from by
        rw [List.map_replicate]
        rfl]
      apply charVals_map
      intro d hd
      have hd0 : d = 0 := List.eq_of_mem_replicate hd
      subst hd0
      decide
    · apply charVals_map
      intro d hd
      exact b58Val_b58Char d (hdigits_lt d hd)
  have htake : ((List.replicate z '1' ++
      (Nat.digits 58 n).reverse.map b58Char).takeWhile
        (fun c => c == '1')).length = z := by
    apply takeWhile_replicate_append_length
    · decide
    · intro c hc
      cases hdig : (Nat.digits 58 n).reverse with
      | nil => rw [hdig] at hc; simp at hc
      | cons d ds =>
        rw [hdig] at hc
        simp only [List.map_cons, List.head?_cons, Option.some_inj] at hc
        have hdnn : Nat.digits 58 n ≠ [] := by
          intro hcon
          rw [hcon] at hdig
          simp at hdig
        have hn0 : n ≠ 0 := Nat.digits_ne_nil_iff_ne_zero.mp hdnn
        have hgl : (Nat.digits 58 n).getLast? = some d := by
          rw [← List.head?_reverse, hdig]
          rfl
        have hglv : (Nat.digits 58 n).getLast hdnn = d := by
          rw [List.getLast?_eq_getLast _ hdnn] at hgl
          exact Option.some_inj.mp hgl
        have hd0 : d ≠ 0 := by
          rw [← hglv]
          exact Nat.getLast_digit_ne_zero 58 hn0
        have hd58 : d < 58 :=
          hdigits_lt d (by rw [hdig]; exact List.mem_cons_self d ds)
        rw [← hc]
        simp only [beq_eq_false_iff_ne, ne_eq]
        exact b58Char_ne_one d (by omega) hd58
  unfold b58Encode b58Decode
  rw [← hn, ← hz, hvals, htake]
  have hval58 : bytesVal 58 (List.replicate z 0 ++ (Nat.digits 58 n).reverse) = n := by
    rw [bytesVal_replicate_zero_append, bytesVal_eq_ofDigits, List.reverse_reverse,
      Nat.ofDigits_digits]
  show some (List.replicate z 0 ++
    natToBytesBE 256 (bytesVal 58 (List.replicate z 0 ++ (Nat.digits 58 n).reverse))) =
    some bytes
  rw [hval58]
  have hnrest : n = bytesVal 256 rest := by
    rw [hn, ← hsplit, bytesVal_replicate_zero_append]
  rw [hnrest, natToBytesBE_bytesVal 256 (by norm_num) rest hrestlt hresthead, hsplit]

/-- `PATH_SEGMENT_ENCODE_SET`: the C0 controls and DEL, plus
`% / ` ? { } space " # < >` (ASCII 0x25 0x2F 0x60 0x3F 0x7B 0x7D 0x20
0x22 0x23 0x3C 0x3E). -/
def inPathSegmentSet (b : Nat) : Bool :=
  b < 32 || b == 127 || b == 37 || b == 47 || b == 96 || b == 63 ||
    b == 123 || b == 125 || b == 32 || b == 34 || b == 35 || b == 60 || b == 62

/-- Uppercase hex digit character (`percent-encoding` uses uppercase). -/
def upperHexChar (d : Nat) : Char :=
  if d < 10 then Char.ofNat (48 + d) else Char.ofNat (55 + d)

/-- `percent_encoding::percent_encode`: bytes in the set, and all
non-ASCII bytes, become `%XX`; other bytes stay literal. -/
def pctEncode (bytes : List Nat) : List Char :=
  bytes.flatMap (fun b =>
    if 128 ≤ b || inPathSegmentSet b then ['%', upperHexChar (b / 16), upperHexChar (b % 16)]
    else [Char.ofNat b])

/-- `percent_encoding::percent_decode`: a `%` followed by two hex digits
becomes that byte; everything else passes through as its code point
(the inputs used here are pure ASCII). -/
def pctDecode : List Char → List Nat
  | [] => []
  | '%' :: c1 :: c2 :: rest =>
    match hexVal c1, hexVal c2 with
    | some a, some b => (a * 16 + b) :: pctDecode rest
    | _, _ => 37 :: pctDecode (c1 :: c2 :: rest)
  | c :: rest => c.toNat :: pctDecode rest

theorem hexVal_upperHexChar (d : Nat) (h : d < 16) :
    hexVal (upperHexChar d) = some d := by
  interval_cases d <;> decide

theorem char_toNat_ofNat (n : Nat) (h : n.isValidChar) : (Char.ofNat n).toNat = n := by
  unfold Char.ofNat Char.toNat
  rw [dif_pos h]
  simp [Char.ofNatAux, UInt32.toNat, BitVec.toNat_ofNatLt]

theorem pctDecode_pct (c1 c2 : Char) (rest : List Char) (a b : Nat)
    (h1 : hexVal c1 = some a) (h2 : hexVal c2 = some b) :
    pctDecode ('%' :: c1 :: c2 :: rest) = (a * 16 + b) :: pctDecode rest := by
  simp only [pctDecode, h1, h2]

theorem pctDecode_cons_lit (c : Char) (rest : List Char) (h : c ≠ '%') :
    pctDecode (c :: rest) = c.toNat :: pctDecode rest := by
  rw [pctDecode.eq_def]
  split
  · rename_i heq
    simp at heq
  · rename_i c1 c2 r2 heq
    exfalso
    apply h
    have h2 := congrArg (fun l => l.head?) heq
    simpa using h2
  · rename_i cx rx hne heq
    have hc : cx = c := by
      have h2 := congrArg (fun l => l.head?) heq
      simpa using h2.symm
    have hr : rx = rest := by
      have h2 := congrArg List.tail heq
      simpa using h2.symm
    rw [hc, hr]

theorem pctDecode_encode (bytes : List Nat) (hb : ∀ b ∈ bytes, b < 256) :
    pctDecode (pctEncode bytes) = bytes := by
  induction bytes with
  | nil => rfl
  | cons b rest ih =>
    have hblt : b < 256 := hb b (List.mem_cons_self b rest)
    have ih2 := ih (fun x hx => hb x (List.mem_cons_of_mem b hx))
    unfold pctEncode at *
    simp only [List.flatMap_cons]
    by_cases henc : (128 ≤ b || inPathSegmentSet b) = true
    · rw [if_pos henc]
      show pctDecode ('%' :: upperHexChar (b / 16) :: upperHexChar (b % 16) ::
        rest.flatMap _) = b :: rest
      rw [pctDecode_pct _ _ _ (b / 16) (b % 16)
        (hexVal_upperHexChar (b / 16) (by omega)) (hexVal_upperHexChar (b % 16) (by omega))]
      rw [ih2]
      congr 1
      omega
    · rw [if_neg henc]
      show pctDecode (Char.ofNat b :: rest.flatMap _) = b :: rest
      have hascii : b < 128 := by
        by_contra hge
        simp only [Bool.or_eq_true, decide_eq_true_eq] at henc
        push_neg at henc
        omega
      have hvalid : b.isValidChar := Or.inl (by omega)
      have hnotpct : Char.ofNat b ≠ '%' := by
        intro hcon
        have hb37 : b = 37 := by
          have h2 := congrArg Char.toNat hcon
          rwa [char_toNat_ofNat b hvalid] at h2
        rw [hb37] at henc
        simp [inPathSegmentSet] at henc
      rw [pctDecode_cons_lit _ _ hnotpct, char_toNat_ofNat b hvalid, ih2]

/-- No character of a percent-encoded string is a slash. -/
theorem pctEncode_no_slash (bytes : List Nat) (hb : ∀ b ∈ bytes, b < 256) :
    '/' ∉ pctEncode bytes := by
  intro hmem
  unfold pctEncode at hmem
  rw [List.mem_flatMap] at hmem
  obtain ⟨b, hbm, hcm⟩ := hmem
  have hblt : b < 256 := hb b hbm
  by_cases henc : (128 ≤ b || inPathSegmentSet b) = true
  · rw [if_pos henc] at hcm
    simp only [List.mem_cons, List.not_mem_nil, or_false] at hcm
    rcases hcm with hcm | hcm | hcm
    · exact absurd hcm.symm (by decide)
    · have h16 : b / 16 < 16 := by omega
      revert hcm
      interval_cases h : (b / 16) <;> decide
    · have h16 : b % 16 < 16 := by omega
      revert hcm
      interval_cases h : (b % 16) <;> decide
  · rw [if_neg henc] at hcm
    simp only [List.mem_singleton] at hcm
    have hascii : b < 128 := by
      by_contra hge
      simp only [Bool.or_eq_true, decide_eq_true_eq] at henc
      push_neg at henc
      omega
    have hvalid : b.isValidChar := Or.inl (by omega)
    have hb47 : b = 47 := by
      have h2 := congrArg Char.toNat hcm.symm
      rwa [char_toNat_ofNat b hvalid] at h2
    rw [hb47] at henc
    simp [inPathSegmentSet] at henc

/-- Hex groups joined with `:` separators. -/
def hexGroupsJoin : List Nat → List Char
  | [] => []
  | [s] => natToHexChars s
  | s :: rest => natToHexChars s ++ ':' :: hexGroupsJoin rest

/-- The zero-run scan of `Ipv6Addr`'s `Display` (2020-era Rust std): track
the current run of zero segments and the best-so-far, updating the best
whenever the current run grows past it. -/
def zeroRunGo : List Nat → Nat → Nat → Nat → Nat → Nat → Nat × Nat
  | [], _, _, _, bestAt, bestLen => (bestAt, bestLen)
  | seg :: rest, i, curAt, curLen, bestAt, bestLen =>
    if seg = 0 then
      let curAt2 := if curLen = 0 then i else curAt
      let curLen2 := curLen + 1
      if curLen2 > bestLen then zeroRunGo rest (i + 1) curAt2 curLen2 curAt2 curLen2
      else zeroRunGo rest (i + 1) curAt2 curLen2 bestAt bestLen
    else zeroRunGo rest (i + 1) 0 0 bestAt bestLen

/-- The longest zero-segment run (first on ties), as `(start, length)`. -/
def zeroRun (segs : List Nat) : Nat × Nat :=
  zeroRunGo segs 0 0 0 0 0

/-- `Ipv6Addr`'s `Display` (2020-era Rust std): special cases for the
unspecified and loopback addresses and for IPv4-compatible and IPv4-mapped
addresses, otherwise compression of the longest zero run when it spans
more than one group. -/
def displayIpv6 (s0 s1 s2 s3 s4 s5 s6 s7 : Nat) : List Char :=
  if s0 = 0 ∧ s1 = 0 ∧ s2 = 0 ∧ s3 = 0 ∧ s4 = 0 ∧ s5 = 0 ∧ s6 = 0 ∧ s7 = 0 then
    "::".data
  else if s0 = 0 ∧ s1 = 0 ∧ s2 = 0 ∧ s3 = 0 ∧ s4 = 0 ∧ s5 = 0 ∧ s6 = 0 ∧ s7 = 1 then
    "::1".data
  else if s0 = 0 ∧ s1 = 0 ∧ s2 = 0 ∧ s3 = 0 ∧ s4 = 0 ∧ s5 = 0 then
    "::".data ++ ipv4Chars (s6 / 256) (s6 % 256) (s7 / 256) (s7 % 256)
  else if s0 = 0 ∧ s1 = 0 ∧ s2 = 0 ∧ s3 = 0 ∧ s4 = 0 ∧ s5 = 65535 then
    "::ffff:".data ++ ipv4Chars (s6 / 256) (s6 % 256) (s7 / 256) (s7 % 256)
  else
    let segs := [s0, s1, s2, s3, s4, s5, s6, s7]
    let r := zeroRun segs
    if r.2 > 1 then
      hexGroupsJoin (segs.take r.1) ++ ':' :: ':' :: hexGroupsJoin (segs.drop (r.1 + r.2))
    else
      hexGroupsJoin segs

/-- One hex group of an IPv6 address: one to four hex digits. -/
def parseHexGroup (l : List Char) : Option Nat :=
  if l.length ≤ 4 then parseDigits 16 hexVal l else none

/-- Parse `:`-separated hex groups. -/
def hexGroupsParse : List (List Char) → Option (List Nat)
  | [] => some []
  | p :: rest =>
    match parseHexGroup p, hexGroupsParse rest with
    | some v, some vs => some (v :: vs)
    | _, _ => none

/-- Parse tail groups, where a final dotted-quad stands for the last two
groups (the trailing embedded IPv4 form). -/
def tailGroupsParse (parts : List (List Char)) : Option (List Nat) :=
  match parts.getLast? with
  | none => some []
  | some last =>
    if last.contains '.' then
      match hexGroupsParse parts.dropLast, parseIpv4 last with
      | some vs, some (a, b, c, d) => some (vs ++ [a * 256 + b, c * 256 + d])
      | _, _ => none
    else hexGroupsParse parts

/-- Split at the first `::`, if any. -/
def splitDC : List Char → Option (List Char × List Char)
  | ':' :: ':' :: rest => some ([], rest)
  | c :: rest => (splitDC rest).map (fun p => (c :: p.1, p.2))
  | [] => none

/-- `Ipv6Addr::from_str` (2020-era Rust std, as a grammar): either eight
`:`-separated groups (a trailing dotted quad standing for two), or head
groups, `::`, and tail groups with at most seven groups in total, the
`::` standing for the missing zero groups. An IPv4 tail is not allowed
before the `::`. -/
def parseIpv6 (l : List Char) : Option (List Nat) :=
  match splitDC l with
  | some (h, t) =>
    match (if h.isEmpty then some [] else hexGroupsParse (splitOn ':' h)),
          (if t.isEmpty then some [] else tailGroupsParse (splitOn ':' t)) with
    | some hs, some ts =>
      if hs.length + ts.length ≤ 7 then
        some (hs ++ List.replicate (8 - hs.length - ts.length) 0 ++ ts)
      else none
    | _, _ => none
  | none =>
    match tailGroupsParse (splitOn ':' l) with
    | some gs => if gs.length = 8 then some gs else none
    | none => none

theorem natToHexChars_classes (n : Nat) :
    ∀ c ∈ natToHexChars n,
      (48 ≤ c.toNat ∧ c.toNat ≤ 57) ∨ (97 ≤ c.toNat ∧ c.toNat ≤ 102) := by
  intro c hc
  unfold natToHexChars at hc
  by_cases h0 : n = 0
  · rw [h0] at hc
    simp at hc
    subst hc
    left
    decide
  · rw [if_neg h0] at hc
    rw [List.mem_map] at hc
    obtain ⟨d, hd, rfl⟩ := hc
    have hdlt : d < 16 :=
      Nat.digits_lt_base (by norm_num) (List.mem_reverse.mp hd)
    interval_cases d <;> simp [hexChar] <;> decide

theorem natToHexChars_ne_nil (n : Nat) : natToHexChars n ≠ [] := by
  unfold natToHexChars
  by_cases h0 : n = 0
  · simp [h0]
  · rw [if_neg h0]
    simp [Nat.digits_ne_nil_iff_ne_zero.mpr h0]

theorem colon_not_mem_natToHexChars (n : Nat) : ':' ∉ natToHexChars n := by
  intro hmem
  have := natToHexChars_classes n ':' hmem
  revert this
  decide

theorem dot_not_mem_natToHexChars (n : Nat) : '.' ∉ natToHexChars n := by
  intro hmem
  have := natToHexChars_classes n '.' hmem
  revert this
  decide

/-- Splitting the joined groups recovers the rendered groups. -/
theorem splitOn_hexGroupsJoin (segs : List Nat) (hne : segs ≠ []) :
    splitOn ':' (hexGroupsJoin segs) = segs.map natToHexChars := by
  induction segs with
  | nil => exact absurd rfl hne
  | cons s rest ih =>
    cases rest with
    | nil =>
      show splitOn ':' (natToHexChars s) = [natToHexChars s]
      exact splitOn_no_sep ':' _ (colon_not_mem_natToHexChars s)
    | cons s2 rest2 =>
      show splitOn ':' (natToHexChars s ++ ':' :: hexGroupsJoin (s2 :: rest2)) = _
      rw [splitOn_append_sep ':' _ _ (colon_not_mem_natToHexChars s)]
      rw [ih (by simp)]
      rfl

theorem parseHexGroup_natToHexChars (n : Nat) (h : n < 65536) :
    parseHexGroup (natToHexChars n) = some n := by
  unfold parseHexGroup
  have hlen : (natToHexChars n).length ≤ 4 := by
    unfold natToHexChars
    by_cases h0 : n = 0
    · simp [h0]
    · rw [if_neg h0]
      simp only [List.length_map, List.length_reverse]
      rw [Nat.digits_len 16 n (by norm_num) h0]
      have hlog := (Nat.lt_pow_iff_log_lt (b := 16) (by norm_num) h0).mp
        (show n < 16 ^ 4 by omega)
      omega
  rw [if_pos hlen]
  exact parseDigits_natToHexChars n

theorem hexGroupsParse_map (segs : List Nat) (h : ∀ s ∈ segs, s < 65536) :
    hexGroupsParse (segs.map natToHexChars) = some segs := by
  induction segs with
  | nil => rfl
  | cons s rest ih =>
    simp only [List.map_cons, hexGroupsParse]
    rw [parseHexGroup_natToHexChars s (h s (List.mem_cons_self s rest)),
      ih (fun x hx => h x (List.mem_cons_of_mem s hx))]

theorem tailGroupsParse_map (segs : List Nat) (hne : segs ≠ [])
    (h : ∀ s ∈ segs, s < 65536) :
    tailGroupsParse (segs.map natToHexChars) = some segs := by
  have hmapne : segs.map natToHexChars ≠ [] := by
    simpa using hne
  obtain ⟨last, hlast⟩ : ∃ last, (segs.map natToHexChars).getLast? = some last := by
    cases hcase : (segs.map natToHexChars).getLast? with
    | none => exact absurd (List.getLast?_eq_none_iff.mp hcase) hmapne
    | some x => exact ⟨x, rfl⟩
  have hlastmem : last ∈ segs.map natToHexChars := by
    have hgl := List.getLast?_eq_getLast _ hmapne
    rw [hgl] at hlast
    have heq := Option.some_inj.mp hlast
    rw [← heq]
    exact List.getLast_mem hmapne
  rw [List.mem_map] at hlastmem
  obtain ⟨sx, _, hseq⟩ := hlastmem
  have hnodot : last.contains '.' = false := by
    rw [← hseq]
    rw [List.contains_eq_any_beq]
    simp only [List.any_eq_false]
    intro c hc hbeq
    have hcd : ('.' : Char) = c := by simpa using hbeq
    exact dot_not_mem_natToHexChars sx (hcd ▸ hc)
  simp only [tailGroupsParse, hlast, hnodot, Bool.false_eq_true, if_false]
  exact hexGroupsParse_map segs h

theorem splitDC_cons_ne (c : Char) (rest : List Char) (h : c ≠ ':') :
    splitDC (c :: rest) = (splitDC rest).map (fun p => (c :: p.1, p.2)) := by
  rw [splitDC.eq_def]
  split
  · rename_i heq
    exfalso
    apply h
    have h2 := congrArg (fun l => l.head?) heq
    simpa using h2
  · rename_i cx rx hne heq
    have hc : cx = c := by
      have h2 := congrArg (fun l => l.head?) heq
      simpa using h2.symm
    have hr : rx = rest := by
      have h2 := congrArg List.tail heq
      simpa using h2.symm
    rw [hc, hr]
  · rename_i heq
    simp at heq

theorem splitDC_colon_ne (d : Char) (rest : List Char) (h : d ≠ ':') :
    splitDC (':' :: d :: rest) =
      (splitDC (d :: rest)).map (fun p => (':' :: p.1, p.2)) := by
  rw [splitDC.eq_def]
  split
  · rename_i heq
    exfalso
    apply h
    have h2 := congrArg (fun l => l.tail.head?) heq
    simpa using h2
  · rename_i cx rx hne heq
    have hc : cx = ':' := by
      have h2 := congrArg (fun l => l.head?) heq
      simpa using h2.symm
    have hr : rx = d :: rest := by
      have h2 := congrArg List.tail heq
      simpa using h2.symm
    rw [hc, hr]
  · rename_i heq
    simp at heq

theorem splitDC_nocolon_append (A : List Char) (hA : ':' ∉ A) (t : List Char) :
    splitDC (A ++ t) = (splitDC t).map (fun p => (A ++ p.1, p.2)) := by
  induction A with
  | nil =>
    simp only [List.nil_append]
    cases splitDC t with
    | none => rfl
    | some p => rfl
  | cons c A2 ih =>
    have hc : c ≠ ':' := fun hcc => hA (hcc ▸ List.mem_cons_self c A2)
    simp only [List.cons_append]
    rw [splitDC_cons_ne c _ hc, ih (fun hm => hA (List.mem_cons_of_mem c hm))]
    cases splitDC t with
    | none => rfl
    | some p => rfl

theorem hexGroupsJoin_head_ne_colon (segs : List Nat) (hne : segs ≠ []) :
    ∃ d tl, hexGroupsJoin segs = d :: tl ∧ d ≠ ':' := by
  cases segs with
  | nil => exact absurd rfl hne
  | cons s rest =>
    have hjoin : ∃ tl2, hexGroupsJoin (s :: rest) = natToHexChars s ++ tl2 := by
      cases rest with
      | nil => exact ⟨[], by simp [hexGroupsJoin]⟩
      | cons s2 r2 => exact ⟨':' :: hexGroupsJoin (s2 :: r2), rfl⟩
    obtain ⟨tl2, hj⟩ := hjoin
    cases hh : natToHexChars s with
    | nil => exact absurd hh (natToHexChars_ne_nil s)
    | cons d tl =>
      refine ⟨d, tl ++ tl2, ?_, ?_⟩
      · rw [hj, hh]
        simp
      · intro hcon
        apply colon_not_mem_natToHexChars s
        rw [hh, hcon]
        exact List.mem_cons_self ':' tl

/-- Splitting at `::` after joined head groups finds exactly the marker. -/
theorem splitDC_join_append (segs : List Nat) (B : List Char) :
    splitDC (hexGroupsJoin segs ++ ':' :: ':' :: B) =
      some (hexGroupsJoin segs, B) := by
  induction segs with
  | nil =>
    show splitDC (':' :: ':' :: B) = some ([], B)
    rfl
  | cons s rest ih =>
    cases rest with
    | nil =>
      show splitDC (natToHexChars s ++ ':' :: ':' :: B) = some (natToHexChars s, B)
      rw [splitDC_nocolon_append _ (colon_not_mem_natToHexChars s)]
      show (some (([] : List Char), B)).map _ = _
      simp
    | cons s2 rest2 =>
      show splitDC (natToHexChars s ++ ':' :: hexGroupsJoin (s2 :: rest2) ++
        ':' :: ':' :: B) = _
      rw [show natToHexChars s ++ ':' :: hexGroupsJoin (s2 :: rest2) ++ ':' :: ':' :: B =
          natToHexChars s ++ (':' :: (hexGroupsJoin (s2 :: rest2) ++ ':' :: ':' :: B))
        from by simp]
      rw [splitDC_nocolon_append _ (colon_not_mem_natToHexChars s)]
      obtain ⟨d, tl, hdt, hd⟩ := hexGroupsJoin_head_ne_colon (s2 :: rest2) (by simp)
      rw [show hexGroupsJoin (s2 :: rest2) ++ ':' :: ':' :: B =
          d :: (tl ++ ':' :: ':' :: B) from by rw [hdt]; simp]
      rw [splitDC_colon_ne d _ hd]
      rw [show d :: (tl ++ ':' :: ':' :: B) = hexGroupsJoin (s2 :: rest2) ++
        ':' :: ':' :: B from by rw [hdt]; simp]
      rw [ih]
      rfl

/-- Joined groups contain no `::` marker. -/
theorem splitDC_join_none (segs : List Nat) :
    splitDC (hexGroupsJoin segs) = none := by
  induction segs with
  | nil => rfl
  | cons s rest ih =>
    cases rest with
    | nil =>
      show splitDC (natToHexChars s) = none
      rw [show natToHexChars s = natToHexChars s ++ [] from by simp]
      rw [splitDC_nocolon_append _ (colon_not_mem_natToHexChars s)]
      rfl
    | cons s2 rest2 =>
      show splitDC (natToHexChars s ++ ':' :: hexGroupsJoin (s2 :: rest2)) = none
      rw [splitDC_nocolon_append _ (colon_not_mem_natToHexChars s)]
      obtain ⟨d, tl, hdt, hd⟩ := hexGroupsJoin_head_ne_colon (s2 :: rest2) (by simp)
      rw [hdt]
      rw [splitDC_colon_ne d _ hd]
      rw [← hdt, ih]
      rfl

theorem drop_take_append_of_le {α : Type} (pre l : List α) (a n : Nat)
    (h : a + n ≤ pre.length) :
    ((pre ++ l).drop a).take n = (pre.drop a).take n := by
  rw [List.drop_append_of_le_length (by omega)]
  rw [List.take_append_of_le_length (by simp [List.length_drop]; omega)]

/-- The zero-run scan returns a region of zero segments within bounds. -/
theorem zeroRunGo_spec (l : List Nat) :
    ∀ (pre : List Nat) (curAt curLen bestAt bestLen : Nat),
    (curLen = 0 ∨ (curAt + curLen = pre.length ∧
      pre.drop curAt = List.replicate curLen 0)) →
    bestAt + bestLen ≤ pre.length →
    ((pre.drop bestAt).take bestLen = List.replicate bestLen 0) →
    (zeroRunGo l pre.length curAt curLen bestAt bestLen).1 +
      (zeroRunGo l pre.length curAt curLen bestAt bestLen).2 ≤ (pre ++ l).length ∧
    (((pre ++ l).drop (zeroRunGo l pre.length curAt curLen bestAt bestLen).1).take
      (zeroRunGo l pre.length curAt curLen bestAt bestLen).2 =
      List.replicate (zeroRunGo l pre.length curAt curLen bestAt bestLen).2 0) := by
  induction l with
  | nil =>
    intro pre curAt curLen bestAt bestLen hcur hbb hbz
    simp only [zeroRunGo, List.append_nil]
    exact ⟨hbb, hbz⟩
  | cons seg rest ih =>
    intro pre curAt curLen bestAt bestLen hcur hbb hbz
    by_cases hz : seg = 0
    · subst hz
      simp only [zeroRunGo, if_pos rfl]
      set curAt2 := if curLen = 0 then pre.length else curAt with hca2
      have hcur2 : curAt2 + (curLen + 1) = (pre ++ [0]).length ∧
          (pre ++ [0]).drop curAt2 = List.replicate (curLen + 1) 0 := by
        by_cases hc0 : curLen = 0
        · subst hc0
          rw [hca2, if_pos rfl]
          refine ⟨by simp, ?_⟩
          rw [List.drop_append_of_le_length (le_refl pre.length)]
          simp
        · rw [hca2, if_neg hc0]
          rcases hcur with hcur | hcur
          · exact absurd hcur hc0
          · have h1 := hcur.1
            refine ⟨by simp only [List.length_append, List.length_cons,
              List.length_nil]; omega, ?_⟩
            rw [List.drop_append_of_le_length (by omega)]
            rw [hcur.2, List.replicate_succ']
      by_cases hgt : curLen + 1 > bestLen
      · rw [if_pos hgt]
        have hstep := ih (pre ++ [0]) curAt2 (curLen + 1) curAt2 (curLen + 1)
          (Or.inr hcur2) (le_of_eq hcur2.1)
          (by
            rw [hcur2.2]
            simp)
        simp only [List.length_append, List.length_cons, List.length_nil,
          Nat.add_zero, Nat.zero_add, List.append_assoc, List.cons_append,
          List.nil_append] at hstep ⊢
        exact hstep
      · rw [if_neg hgt]
        have hstep := ih (pre ++ [0]) curAt2 (curLen + 1) bestAt bestLen
          (Or.inr hcur2)
          (by simp only [List.length_append, List.length_cons, List.length_nil]; omega)
          (by
            rw [drop_take_append_of_le pre [0] bestAt bestLen hbb]
            exact hbz)
        simp only [List.length_append, List.length_cons, List.length_nil,
          Nat.add_zero, Nat.zero_add, List.append_assoc, List.cons_append,
          List.nil_append] at hstep ⊢
        exact hstep
    · simp only [zeroRunGo, if_neg hz]
      have hstep := ih (pre ++ [seg]) 0 0 bestAt bestLen (Or.inl rfl)
        (by simp only [List.length_append, List.length_cons, List.length_nil]; omega)
        (by
          rw [drop_take_append_of_le pre [seg] bestAt bestLen hbb]
          exact hbz)
      simp only [List.length_append, List.length_cons, List.length_nil,
        Nat.add_zero, Nat.zero_add, List.append_assoc, List.cons_append,
        List.nil_append] at hstep ⊢
      exact hstep

/-- The zero run of a segment list is a zero region within bounds. -/
theorem zeroRun_spec (segs : List Nat) :
    (zeroRun segs).1 + (zeroRun segs).2 ≤ segs.length ∧
    ((segs.drop (zeroRun segs).1).take (zeroRun segs).2 =
      List.replicate (zeroRun segs).2 0) := by
  have h := zeroRunGo_spec segs [] 0 0 0 0 (Or.inl rfl) (by simp) (by simp)
  simpa [zeroRun] using h

theorem natToChars_ne_nil (n : Nat) : natToChars n ≠ [] := by
  unfold natToChars
  by_cases h0 : n = 0
  · simp [h0]
  · rw [if_neg h0]
    simp [Nat.digits_ne_nil_iff_ne_zero.mpr h0]

theorem colon_not_mem_ipv4Chars (a b c d : Nat) :
    ':' ∉ ipv4Chars a b c d := by
  intro hmem
  unfold ipv4Chars at hmem
  simp only [List.mem_append, List.mem_cons] at hmem
  rcases hmem with h | h | h | h | h | h | h <;>
    first
    | exact natToChars_not_mem _ ':' (by decide) h
    | exact absurd h (by decide)

theorem ipv4Chars_ne_nil (a b c d : Nat) : ipv4Chars a b c d ≠ [] := by
  unfold ipv4Chars
  intro hcon
  exact natToChars_ne_nil a (List.append_eq_nil.mp hcon).1

theorem ipv4Chars_contains_dot (a b c d : Nat) :
    (ipv4Chars a b c d).contains '.' = true := by
  rw [List.contains_eq_any_beq]
  rw [List.any_eq_true]
  refine ⟨'.', ?_, by decide⟩
  unfold ipv4Chars
  rw [List.mem_append]
  right
  exact List.mem_cons_self _ _

/-- Parse of a lone dotted quad as IPv6 tail groups. -/
theorem tailGroupsParse_ipv4 (g h : Nat) (hg : g < 65536) (hh : h < 65536) :
    tailGroupsParse [ipv4Chars (g / 256) (g % 256) (h / 256) (h % 256)] =
      some [g, h] := by
  unfold tailGroupsParse
  simp only [List.getLast?_singleton]
  rw [ipv4Chars_contains_dot]
  simp only [if_true]
  rw [show ([ipv4Chars (g / 256) (g % 256) (h / 256) (h % 256)]).dropLast = [] from rfl]
  rw [parseIpv4_ipv4Chars _ _ _ _ (by omega) (by omega) (by omega) (by omega)]
  show some ([] ++ [g / 256 * 256 + g % 256, h / 256 * 256 + h % 256]) = some [g, h]
  simp only [List.nil_append, Option.some_inj, List.cons.injEq, and_true]
  omega

theorem isEmpty_false_of_ne_nil {α : Type} {l : List α} (h : l ≠ []) :
    l.isEmpty = false := by
  cases l with
  | nil => exact absurd rfl h
  | cons a t => rfl

/-- Parse of `ffff` followed by a dotted quad as IPv6 tail groups. -/
theorem tailGroupsParse_ffff_ipv4 (g h : Nat) (hg : g < 65536) (hh : h < 65536) :
    tailGroupsParse
      ["ffff".data, ipv4Chars (g / 256) (g % 256) (h / 256) (h % 256)] =
      some [65535, g, h] := by
  unfold tailGroupsParse
  simp only [show (["ffff".data,
    ipv4Chars (g / 256) (g % 256) (h / 256) (h % 256)]).getLast? =
    some (ipv4Chars (g / 256) (g % 256) (h / 256) (h % 256)) from rfl]
  rw [ipv4Chars_contains_dot]
  simp only [if_true]
  rw [show (["ffff".data, ipv4Chars (g / 256) (g % 256) (h / 256) (h % 256)]).dropLast =
    ["ffff".data] from rfl]
  rw [show hexGroupsParse ["ffff".data] = some [65535] from rfl]
  rw [parseIpv4_ipv4Chars _ _ _ _ (by omega) (by omega) (by omega) (by omega)]
  show some ([65535] ++ [g / 256 * 256 + g % 256, h / 256 * 256 + h % 256]) =
    some [65535, g, h]
  simp only [List.cons_append, List.nil_append, Option.some_inj, List.cons.injEq,
    true_and, and_true]
  omega

/-- Parsing the plain (uncompressed) rendering of eight groups. -/
theorem parseIpv6_nocompress (segs : List Nat) (hlen : segs.length = 8)
    (hseg : ∀ s ∈ segs, s < 65536) :
    parseIpv6 (hexGroupsJoin segs) = some segs := by
  have hne : segs ≠ [] := by
    intro h
    rw [h] at hlen
    simp at hlen
  simp only [parseIpv6, splitDC_join_none]
  rw [splitOn_hexGroupsJoin segs hne, tailGroupsParse_map segs hne hseg]
  simp [hlen]

/-- Parsing the compressed rendering: head groups, `::` standing for a zero
run of length at least two, then tail groups. -/
theorem parseIpv6_compress (segs : List Nat) (hlen : segs.length = 8)
    (hseg : ∀ s ∈ segs, s < 65536) (a n : Nat) (hn : 1 < n) (han : a + n ≤ 8)
    (hz : (segs.drop a).take n = List.replicate n 0) :
    parseIpv6 (hexGroupsJoin (segs.take a) ++ ':' :: ':' ::
      hexGroupsJoin (segs.drop (a + n))) = some segs := by
  have hsne : segs ≠ [] := by
    intro h
    rw [h] at hlen
    simp at hlen
  have hhead : (if (hexGroupsJoin (segs.take a)).isEmpty = true then
      some ([] : List Nat)
      else hexGroupsParse (splitOn ':' (hexGroupsJoin (segs.take a)))) =
      some (segs.take a) := by
    by_cases ha : a = 0
    · subst ha
      simp [hexGroupsJoin]
    · have htne : segs.take a ≠ [] := by
        intro h
        have hl := congrArg List.length h
        simp only [List.length_take, hlen, List.length_nil] at hl
        omega
      have hjne : hexGroupsJoin (segs.take a) ≠ [] := by
        obtain ⟨d, tl, hdt, _⟩ := hexGroupsJoin_head_ne_colon _ htne
        rw [hdt]
        simp
      rw [isEmpty_false_of_ne_nil hjne]
      simp only [Bool.false_eq_true, if_false]
      rw [splitOn_hexGroupsJoin _ htne]
      exact hexGroupsParse_map _ (fun s hs => hseg s (List.mem_of_mem_take hs))
  have htail : (if (hexGroupsJoin (segs.drop (a + n))).isEmpty = true then
      some ([] : List Nat)
      else tailGroupsParse (splitOn ':' (hexGroupsJoin (segs.drop (a + n))))) =
      some (segs.drop (a + n)) := by
    by_cases hd : segs.drop (a + n) = []
    · rw [hd]
      simp [hexGroupsJoin]
    · have hjne : hexGroupsJoin (segs.drop (a + n)) ≠ [] := by
        obtain ⟨d, tl, hdt, _⟩ := hexGroupsJoin_head_ne_colon _ hd
        rw [hdt]
        simp
      rw [isEmpty_false_of_ne_nil hjne]
      simp only [Bool.false_eq_true, if_false]
      rw [splitOn_hexGroupsJoin _ hd]
      exact tailGroupsParse_map _ hd (fun s hs => hseg s (List.mem_of_mem_drop hs))
  simp only [parseIpv6, splitDC_join_append, hhead, htail]
  have hlt : (segs.take a).length = a := by
    rw [List.length_take, hlen, Nat.min_eq_left (by omega)]
  have hld : (segs.drop (a + n)).length = 8 - (a + n) := by
    rw [List.length_drop, hlen]
  rw [hlt, hld]
  rw [if_pos (by omega)]
  have hcount : 8 - a - (8 - (a + n)) = n := by omega
  rw [hcount]
  have hdecomp : segs.take a ++ List.replicate n 0 ++ segs.drop (a + n) = segs := by
    rw [← hz]
    rw [show segs.drop (a + n) = (segs.drop a).drop n from by
      rw [List.drop_drop]]
    rw [List.append_assoc, List.take_append_drop, List.take_append_drop]
  rw [hdecomp]

/-- Rendering eight groups with `Ipv6Addr`'s `Display` and parsing the
result with `Ipv6Addr::from_str` recovers the groups. -/
theorem parseIpv6_displayIpv6 (s0 s1 s2 s3 s4 s5 s6 s7 : Nat)
    (h0 : s0 < 65536) (h1 : s1 < 65536) (h2 : s2 < 65536) (h3 : s3 < 65536)
    (h4 : s4 < 65536) (h5 : s5 < 65536) (h6 : s6 < 65536) (h7 : s7 < 65536) :
    parseIpv6 (displayIpv6 s0 s1 s2 s3 s4 s5 s6 s7) =
      some [s0, s1, s2, s3, s4, s5, s6, s7] := by
  rw [displayIpv6]
  by_cases hb1 : s0 = 0 ∧ s1 = 0 ∧ s2 = 0 ∧ s3 = 0 ∧ s4 = 0 ∧ s5 = 0 ∧
      s6 = 0 ∧ s7 = 0
  · rw [if_pos hb1]
    obtain ⟨rfl, rfl, rfl, rfl, rfl, rfl, rfl, rfl⟩ := hb1
    decide
  rw [if_neg hb1]
  by_cases hb2 : s0 = 0 ∧ s1 = 0 ∧ s2 = 0 ∧ s3 = 0 ∧ s4 = 0 ∧ s5 = 0 ∧
      s6 = 0 ∧ s7 = 1
  · rw [if_pos hb2]
    obtain ⟨rfl, rfl, rfl, rfl, rfl, rfl, rfl, rfl⟩ := hb2
    decide
  rw [if_neg hb2]
  by_cases hb3 : s0 = 0 ∧ s1 = 0 ∧ s2 = 0 ∧ s3 = 0 ∧ s4 = 0 ∧ s5 = 0
  · rw [if_pos hb3]
    obtain ⟨rfl, rfl, rfl, rfl, rfl, rfl⟩ := hb3
    have hsplit : splitDC ("::".data ++
        ipv4Chars (s6 / 256) (s6 % 256) (s7 / 256) (s7 % 256)) =
        some ([], ipv4Chars (s6 / 256) (s6 % 256) (s7 / 256) (s7 % 256)) := rfl
    simp only [parseIpv6, hsplit, List.isEmpty_nil, if_true,
      isEmpty_false_of_ne_nil
        (ipv4Chars_ne_nil (s6 / 256) (s6 % 256) (s7 / 256) (s7 % 256)),
      Bool.false_eq_true, if_false]
    rw [splitOn_no_sep ':' _ (colon_not_mem_ipv4Chars _ _ _ _)]
    simp only [tailGroupsParse_ipv4 s6 s7 h6 h7]
    rfl
  rw [if_neg hb3]
  by_cases hb4 : s0 = 0 ∧ s1 = 0 ∧ s2 = 0 ∧ s3 = 0 ∧ s4 = 0 ∧ s5 = 65535
  · rw [if_pos hb4]
    obtain ⟨rfl, rfl, rfl, rfl, rfl, rfl⟩ := hb4
    have hsplit : splitDC ("::ffff:".data ++
        ipv4Chars (s6 / 256) (s6 % 256) (s7 / 256) (s7 % 256)) =
        some ([], "ffff:".data ++
          ipv4Chars (s6 / 256) (s6 % 256) (s7 / 256) (s7 % 256)) := rfl
    have hie : ("ffff:".data ++
        ipv4Chars (s6 / 256) (s6 % 256) (s7 / 256) (s7 % 256)).isEmpty =
        false := rfl
    simp only [parseIpv6, hsplit, List.isEmpty_nil, if_true, hie,
      Bool.false_eq_true, if_false]
    rw [show "ffff:".data ++
        ipv4Chars (s6 / 256) (s6 % 256) (s7 / 256) (s7 % 256) =
        "ffff".data ++ ':' ::
          ipv4Chars (s6 / 256) (s6 % 256) (s7 / 256) (s7 % 256) from rfl]
    rw [splitOn_append_sep ':' _ _ (by decide)]
    rw [splitOn_no_sep ':' _ (colon_not_mem_ipv4Chars _ _ _ _)]
    simp only [tailGroupsParse_ffff_ipv4 s6 s7 h6 h7]
    rfl
  rw [if_neg hb4]
  simp only []
  have hseg : ∀ s ∈ [s0, s1, s2, s3, s4, s5, s6, s7], s < 65536 := by
    intro s hs
    simp only [List.mem_cons, List.not_mem_nil, or_false] at hs
    rcases hs with rfl | rfl | rfl | rfl | rfl | rfl | rfl | rfl <;> assumption
  have hzr := zeroRun_spec [s0, s1, s2, s3, s4, s5, s6, s7]
  by_cases hr : (zeroRun [s0, s1, s2, s3, s4, s5, s6, s7]).2 > 1
  · rw [if_pos hr]
    exact parseIpv6_compress [s0, s1, s2, s3, s4, s5, s6, s7] rfl hseg _ _ hr
      hzr.1 hzr.2
  · rw [if_neg hr]
    exact parseIpv6_nocompress [s0, s1, s2, s3, s4, s5, s6, s7] rfl hseg

/-- The multiaddr crate's `Error` values reachable from the functions
modelled here (value-parse failures of the payload types are folded into
`ParsingError`, as the crate folds them via `From` impls). -/
inductive MError where
  | DataLessThanLen
  | InvalidMultiaddr
  | InvalidProtocolString
  | ParsingError
  | UnknownProtocolId (id : Nat)
  | UnknownProtocolString
deriving DecidableEq

/-- A multihash (the `multihash` crate): a code and a digest, serialized as
varint code, varint digest length, digest bytes. -/
structure Multihash where
  code : Nat
  digest : List Nat
deriving DecidableEq

def Multihash.as_bytes (m : Multihash) : List Nat :=
  varintEnc m.code ++ varintEnc m.digest.length ++ m.digest

/-- `Multihash::from_bytes`: parse the code and digest length and check the
digest is exactly that long. -/
def Multihash.from_bytes (l : List Nat) : Except MError Multihash :=
  match varintDec64 l with
  | none => .error .ParsingError
  | some (code, rest) =>
    match varintDec64 rest with
    | none => .error .ParsingError
    | some (size, digest) =>
      if digest.length = size then .ok ⟨code, digest⟩ else .error .ParsingError

theorem Multihash.from_bytes_as_bytes (m : Multihash) (hc : m.code < 2 ^ 64)
    (hl : m.digest.length < 2 ^ 64) :
    Multihash.from_bytes m.as_bytes = .ok m := by
  unfold Multihash.as_bytes Multihash.from_bytes
  rw [List.append_assoc]
  simp only [varintDec64_enc m.code _ hc, varintDec64_enc m.digest.length _ hl]
  simp

/-- The `Protocol` enum. `Ipv4Addr` is its four octets, `Ipv6Addr` its
eight 16-bit segments, `Cow<str>` a character list, the onion address
arrays byte lists, and `Onion3Addr` its hash bytes and port. -/
inductive Protocol where
  | Dccp (port : Nat)
  | Dns (s : List Char)
  | Dns4 (s : List Char)
  | Dns6 (s : List Char)
  | Dnsaddr (s : List Char)
  | Http
  | Https
  | Ip4 (a b c d : Nat)
  | Ip6 (s0 s1 s2 s3 s4 s5 s6 s7 : Nat)
  | P2pWebRtcDirect
  | P2pWebRtcStar
  | P2pWebSocketStar
  | Memory (port : Nat)
  | Onion (addr : List Nat) (port : Nat)
  | Onion3 (addr : List Nat) (port : Nat)
  | P2p (h : Multihash)
  | P2pCircuit
  | Quic
  | Sctp (port : Nat)
  | Tcp (port : Nat)
  | Udp (port : Nat)
  | Udt
  | Unix (s : List Char)
  | Utp
  | Ws (s : List Char)
  | Wss (s : List Char)
deriving DecidableEq

/-- Representation invariant of the Rust value: machine-integer fields are
in range and the fixed-size byte arrays have their stated length. -/
def Protocol.reprOk : Protocol → Bool
  | .Dccp port | .Sctp port | .Tcp port | .Udp port => port < 65536
  | .Ip4 a b c d => a < 256 && b < 256 && c < 256 && d < 256
  | .Ip6 s0 s1 s2 s3 s4 s5 s6 s7 =>
    s0 < 65536 && s1 < 65536 && s2 < 65536 && s3 < 65536 &&
    s4 < 65536 && s5 < 65536 && s6 < 65536 && s7 < 65536
  | .Memory port => port < 2 ^ 64
  | .Onion addr port => addr.length = 10 && addr.all (· < 256) && port < 65536
  | .Onion3 addr port => addr.length = 35 && addr.all (· < 256) && port < 65536
  | .P2p m => m.code < 2 ^ 64 && m.digest.length < 2 ^ 64 &&
      m.digest.all (· < 256) && m.as_bytes.length < 2 ^ 64
  | .Dns s | .Dns4 s | .Dns6 s | .Dnsaddr s | .Unix s | .Ws s | .Wss s =>
    (utf8Encode s).length < 2 ^ 64
  | _ => true

/-- Extra conditions under which the text rendering is parseable back to
the same value: onion ports must be nonzero (`read_onion` rejects zero)
and raw string payloads must not contain the `/` separator. -/
def Protocol.textOk : Protocol → Bool
  | .Dns s | .Dns4 s | .Dns6 s | .Dnsaddr s | .Unix s => !s.contains '/'
  | .Onion _ port | .Onion3 _ port => port ≠ 0
  | _ => true

/-- The `Display` impl for `Protocol` (as a character list). -/
def Protocol.display : Protocol → List Char
  | .Dccp port => "/dccp/".data ++ natToChars port
  | .Dns s => "/dns/".data ++ s
  | .Dns4 s => "/dns4/".data ++ s
  | .Dns6 s => "/dns6/".data ++ s
  | .Dnsaddr s => "/dnsaddr/".data ++ s
  | .Http => "/http".data
  | .Https => "/https".data
  | .Ip4 a b c d => "/ip4/".data ++ ipv4Chars a b c d
  | .Ip6 s0 s1 s2 s3 s4 s5 s6 s7 =>
    "/ip6/".data ++ displayIpv6 s0 s1 s2 s3 s4 s5 s6 s7
  | .P2pWebRtcDirect => "/p2p-webrtc-direct".data
  | .P2pWebRtcStar => "/p2p-webrtc-star".data
  | .P2pWebSocketStar => "/p2p-websocket-star".data
  | .Memory port => "/memory/".data ++ natToChars port
  | .Onion addr port =>
    "/onion/".data ++ (b32Encode addr).map toLowerChar ++ ':' :: natToChars port
  | .Onion3 addr port =>
    "/onion3/".data ++ (b32Encode addr).map toLowerChar ++ ':' :: natToChars port
  | .P2p m => "/p2p/".data ++ b58Encode m.as_bytes
  | .P2pCircuit => "/p2p-circuit".data
  | .Quic => "/quic".data
  | .Sctp port => "/sctp/".data ++ natToChars port
  | .Tcp port => "/tcp/".data ++ natToChars port
  | .Udp port => "/udp/".data ++ natToChars port
  | .Udt => "/udt".data
  | .Unix s => "/unix/".data ++ s
  | .Utp => "/utp".data
  | .Ws s =>
    if s = ['/'] then "/ws".data
    else "/x-parity-ws/".data ++ pctEncode (utf8Encode s)
  | .Wss s =>
    if s = ['/'] then "/wss".data
    else "/x-parity-wss/".data ++ pctEncode (utf8Encode s)

/-- The slash-separated parts of the rendering, as consumed by
`Protocol::from_str_parts` (the leading empty part before the first `/`
is skipped, as `Multiaddr::from_str` does). -/
def Protocol.textParts (p : Protocol) : List (List Char) :=
  (splitOn '/' p.display).drop 1

/-- `read_onion` / `read_onion3` (via `read_onion_impl!`): split the part
at `:`, check the base-32 length, parse a nonzero port, forbid further
`:` parts, and base-32 decode. -/
def read_onion_gen (len elen : Nat) (s : List Char) :
    Except MError (List Nat × Nat) :=
  match splitOn ':' s with
  | [] => .error .InvalidMultiaddr
  | [_] => .error .InvalidMultiaddr
  | b32 :: p :: rest =>
    if b32.length ≠ elen then .error .InvalidMultiaddr
    else match parseUint 16 p with
      | none => .error .ParsingError
      | some port =>
        if port = 0 then .error .InvalidMultiaddr
        else if rest ≠ [] then .error .InvalidMultiaddr
        else if len ≠ elen * 5 / 8 then .error .InvalidMultiaddr
        else match b32Decode b32 with
          | some bytes => .ok (bytes, port)
          | none => .error .InvalidMultiaddr

/-- `Protocol::from_str_parts` over the list of slash-separated parts,
returning the parsed protocol and the unconsumed parts. -/
def Protocol.from_str_parts :
    List (List Char) → Except MError (Protocol × List (List Char))
  | [] => .error .InvalidProtocolString
  | tok :: iter =>
    if tok = "ip4".data then
      match iter with
      | [] => .error .InvalidProtocolString
      | s :: iter =>
        match parseIpv4 s with
        | some (a, b, c, d) => .ok (.Ip4 a b c d, iter)
        | none => .error .ParsingError
    else if tok = "tcp".data then
      match iter with
      | [] => .error .InvalidProtocolString
      | s :: iter =>
        match parseUint 16 s with
        | some v => .ok (.Tcp v, iter)
        | none => .error .ParsingError
    else if tok = "udp".data then
      match iter with
      | [] => .error .InvalidProtocolString
      | s :: iter =>
        match parseUint 16 s with
        | some v => .ok (.Udp v, iter)
        | none => .error .ParsingError
    else if tok = "dccp".data then
      match iter with
      | [] => .error .InvalidProtocolString
      | s :: iter =>
        match parseUint 16 s with
        | some v => .ok (.Dccp v, iter)
        | none => .error .ParsingError
    else if tok = "ip6".data then
      match iter with
      | [] => .error .InvalidProtocolString
      | s :: iter =>
        match parseIpv6 s with
        | some [s0, s1, s2, s3, s4, s5, s6, s7] =>
          .ok (.Ip6 s0 s1 s2 s3 s4 s5 s6 s7, iter)
        | _ => .error .ParsingError
    else if tok = "dns".data then
      match iter with
      | [] => .error .InvalidProtocolString
      | s :: iter => .ok (.Dns s, iter)
    else if tok = "dns4".data then
      match iter with
      | [] => .error .InvalidProtocolString
      | s :: iter => .ok (.Dns4 s, iter)
    else if tok = "dns6".data then
      match iter with
      | [] => .error .InvalidProtocolString
      | s :: iter => .ok (.Dns6 s, iter)
    else if tok = "dnsaddr".data then
      match iter with
      | [] => .error .InvalidProtocolString
      | s :: iter => .ok (.Dnsaddr s, iter)
    else if tok = "sctp".data then
      match iter with
      | [] => .error .InvalidProtocolString
      | s :: iter =>
        match parseUint 16 s with
        | some v => .ok (.Sctp v, iter)
        | none => .error .ParsingError
    else if tok = "udt".data then .ok (.Udt, iter)
    else if tok = "utp".data then .ok (.Utp, iter)
    else if tok = "unix".data then
      match iter with
      | [] => .error .InvalidProtocolString
      | s :: iter => .ok (.Unix s, iter)
    else if tok = "p2p".data then
      match iter with
      | [] => .error .InvalidProtocolString
      | s :: iter =>
        match b58Decode s with
        | none => .error .ParsingError
        | some decoded =>
          match Multihash.from_bytes decoded with
          | .error e => .error e
          | .ok m => .ok (.P2p m, iter)
    else if tok = "http".data then .ok (.Http, iter)
    else if tok = "https".data then .ok (.Https, iter)
    else if tok = "onion".data then
      match iter with
      | [] => .error .InvalidProtocolString
      | s :: iter =>
        match read_onion_gen 10 16 (s.map toUpperChar) with
        | .ok (a, p) => .ok (.Onion a p, iter)
        | .error e => .error e
    else if tok = "onion3".data then
      match iter with
      | [] => .error .InvalidProtocolString
      | s :: iter =>
        match read_onion_gen 35 56 (s.map toUpperChar) with
        | .ok (a, p) => .ok (.Onion3 a p, iter)
        | .error e => .error e
    else if tok = "quic".data then .ok (.Quic, iter)
    else if tok = "ws".data then .ok (.Ws ['/'], iter)
    else if tok = "wss".data then .ok (.Wss ['/'], iter)
    else if tok = "x-parity-ws".data then
      match iter with
      | [] => .error .InvalidProtocolString
      | s :: iter =>
        match utf8Decode (pctDecode s) with
        | some decoded => .ok (.Ws decoded, iter)
        | none => .error .ParsingError
    else if tok = "x-parity-wss".data then
      match iter with
      | [] => .error .InvalidProtocolString
      | s :: iter =>
        match utf8Decode (pctDecode s) with
        | some decoded => .ok (.Wss decoded, iter)
        | none => .error .ParsingError
    else if tok = "p2p-websocket-star".data then .ok (.P2pWebSocketStar, iter)
    else if tok = "p2p-webrtc-star".data then .ok (.P2pWebRtcStar, iter)
    else if tok = "p2p-webrtc-direct".data then .ok (.P2pWebRtcDirect, iter)
    else if tok = "p2p-circuit".data then .ok (.P2pCircuit, iter)
    else if tok = "memory".data then
      match iter with
      | [] => .error .InvalidProtocolString
      | s :: iter =>
        match parseUint 64 s with
        | some v => .ok (.Memory v, iter)
        | none => .error .ParsingError
    else .error .UnknownProtocolString

/-- Big-endian `u64` from eight bytes (`read_u64`). -/
def readU64BE (b0 b1 b2 b3 b4 b5 b6 b7 : Nat) : Nat :=
  b0 * 256 ^ 7 + b1 * 256 ^ 6 + b2 * 256 ^ 5 + b3 * 256 ^ 4 +
    b4 * 256 ^ 3 + b5 * 256 ^ 2 + b6 * 256 + b7

/-- `Protocol::write_bytes`: varint code, then the value layout. -/
def Protocol.write_bytes : Protocol → List Nat
  | .Ip4 a b c d => varintEnc 4 ++ [a, b, c, d]
  | .Ip6 s0 s1 s2 s3 s4 s5 s6 s7 =>
    varintEnc 41 ++ u16BE s0 ++ u16BE s1 ++ u16BE s2 ++ u16BE s3 ++
      u16BE s4 ++ u16BE s5 ++ u16BE s6 ++ u16BE s7
  | .Tcp port => varintEnc 6 ++ u16BE port
  | .Udp port => varintEnc 273 ++ u16BE port
  | .Dccp port => varintEnc 33 ++ u16BE port
  | .Sctp port => varintEnc 132 ++ u16BE port
  | .Dns s => varintEnc 53 ++ varintEnc (utf8Encode s).length ++ utf8Encode s
  | .Dns4 s => varintEnc 54 ++ varintEnc (utf8Encode s).length ++ utf8Encode s
  | .Dns6 s => varintEnc 55 ++ varintEnc (utf8Encode s).length ++ utf8Encode s
  | .Dnsaddr s =>
    varintEnc 56 ++ varintEnc (utf8Encode s).length ++ utf8Encode s
  | .Unix s => varintEnc 400 ++ varintEnc (utf8Encode s).length ++ utf8Encode s
  | .P2p m =>
    varintEnc 421 ++ varintEnc m.as_bytes.length ++ m.as_bytes
  | .Onion addr port => varintEnc 444 ++ addr ++ u16BE port
  | .Onion3 addr port => varintEnc 445 ++ addr ++ u16BE port
  | .Quic => varintEnc 460
  | .Utp => varintEnc 302
  | .Udt => varintEnc 301
  | .Http => varintEnc 480
  | .Https => varintEnc 443
  | .Ws s =>
    if s = ['/'] then varintEnc 477
    else varintEnc 4770 ++ varintEnc (utf8Encode s).length ++ utf8Encode s
  | .Wss s =>
    if s = ['/'] then varintEnc 478
    else varintEnc 4780 ++ varintEnc (utf8Encode s).length ++ utf8Encode s
  | .P2pWebSocketStar => varintEnc 479
  | .P2pWebRtcStar => varintEnc 275
  | .P2pWebRtcDirect => varintEnc 276
  | .P2pCircuit => varintEnc 290
  | .Memory port => varintEnc 777 ++ u64BE port

/-- The local `split_at` helper of `Protocol::from_bytes`. -/
def split_at (n : Nat) (input : List Nat) :
    Except MError (List Nat × List Nat) :=
  if input.length < n then .error .DataLessThanLen
  else .ok (input.take n, input.drop n)

/-- A varint-length-prefixed byte string (the `DNS`-style branches of
`Protocol::from_bytes`): decode the length, take that many bytes. -/
def lenPrefixed (input : List Nat) :
    Except MError (List Nat × List Nat) :=
  match varintDec64 input with
  | none => .error .ParsingError
  | some (n, input) => split_at n input

/-- `Protocol::from_bytes`: decode the varint code, then the value layout,
returning the protocol and the remaining bytes. -/
def Protocol.from_bytes (input : List Nat) :
    Except MError (Protocol × List Nat) :=
  match varintDec32 input with
  | none => .error .ParsingError
  | some (id, input) =>
    if id = 33 then
      match split_at 2 input with
      | .error e => .error e
      | .ok (data, rest) =>
        match data with
        | [b0, b1] => .ok (.Dccp (readU16BE b0 b1), rest)
        | _ => .error .ParsingError
    else if id = 53 then
      match lenPrefixed input with
      | .error e => .error e
      | .ok (data, rest) =>
        match utf8Decode data with
        | some s => .ok (.Dns s, rest)
        | none => .error .ParsingError
    else if id = 54 then
      match lenPrefixed input with
      | .error e => .error e
      | .ok (data, rest) =>
        match utf8Decode data with
        | some s => .ok (.Dns4 s, rest)
        | none => .error .ParsingError
    else if id = 55 then
      match lenPrefixed input with
      | .error e => .error e
      | .ok (data, rest) =>
        match utf8Decode data with
        | some s => .ok (.Dns6 s, rest)
        | none => .error .ParsingError
    else if id = 56 then
      match lenPrefixed input with
      | .error e => .error e
      | .ok (data, rest) =>
        match utf8Decode data with
        | some s => .ok (.Dnsaddr s, rest)
        | none => .error .ParsingError
    else if id = 480 then .ok (.Http, input)
    else if id = 443 then .ok (.Https, input)
    else if id = 4 then
      match split_at 4 input with
      | .error e => .error e
      | .ok (data, rest) =>
        match data with
        | [a, b, c, d] => .ok (.Ip4 a b c d, rest)
        | _ => .error .ParsingError
    else if id = 41 then
      match split_at 16 input with
      | .error e => .error e
      | .ok (data, rest) =>
        match data with
        | [h0, l0, h1, l1, h2, l2, h3, l3, h4, l4, h5, l5, h6, l6, h7, l7] =>
          .ok (.Ip6 (readU16BE h0 l0) (readU16BE h1 l1) (readU16BE h2 l2)
            (readU16BE h3 l3) (readU16BE h4 l4) (readU16BE h5 l5)
            (readU16BE h6 l6) (readU16BE h7 l7), rest)
        | _ => .error .ParsingError
    else if id = 276 then .ok (.P2pWebRtcDirect, input)
    else if id = 275 then .ok (.P2pWebRtcStar, input)
    else if id = 479 then .ok (.P2pWebSocketStar, input)
    else if id = 777 then
      match split_at 8 input with
      | .error e => .error e
      | .ok (data, rest) =>
        match data with
        | [b0, b1, b2, b3, b4, b5, b6, b7] =>
          .ok (.Memory (readU64BE b0 b1 b2 b3 b4 b5 b6 b7), rest)
        | _ => .error .ParsingError
    else if id = 444 then
      match split_at 12 input with
      | .error e => .error e
      | .ok (data, rest) =>
        match data.drop 10 with
        | [b0, b1] => .ok (.Onion (data.take 10) (readU16BE b0 b1), rest)
        | _ => .error .ParsingError
    else if id = 445 then
      match split_at 37 input with
      | .error e => .error e
      | .ok (data, rest) =>
        match data.drop 35 with
        | [b0, b1] => .ok (.Onion3 (data.take 35) (readU16BE b0 b1), rest)
        | _ => .error .ParsingError
    else if id = 421 then
      match lenPrefixed input with
      | .error e => .error e
      | .ok (data, rest) =>
        match Multihash.from_bytes data with
        | .ok m => .ok (.P2p m, rest)
        | .error e => .error e
    else if id = 290 then .ok (.P2pCircuit, input)
    else if id = 460 then .ok (.Quic, input)
    else if id = 132 then
      match split_at 2 input with
      | .error e => .error e
      | .ok (data, rest) =>
        match data with
        | [b0, b1] => .ok (.Sctp (readU16BE b0 b1), rest)
        | _ => .error .ParsingError
    else if id = 6 then
      match split_at 2 input with
      | .error e => .error e
      | .ok (data, rest) =>
        match data with
        | [b0, b1] => .ok (.Tcp (readU16BE b0 b1), rest)
        | _ => .error .ParsingError
    else if id = 273 then
      match split_at 2 input with
      | .error e => .error e
      | .ok (data, rest) =>
        match data with
        | [b0, b1] => .ok (.Udp (readU16BE b0 b1), rest)
        | _ => .error .ParsingError
    else if id = 301 then .ok (.Udt, input)
    else if id = 400 then
      match lenPrefixed input with
      | .error e => .error e
      | .ok (data, rest) =>
        match utf8Decode data with
        | some s => .ok (.Unix s, rest)
        | none => .error .ParsingError
    else if id = 302 then .ok (.Utp, input)
    else if id = 477 then .ok (.Ws ['/'], input)
    else if id = 4770 then
      match lenPrefixed input with
      | .error e => .error e
      | .ok (data, rest) =>
        match utf8Decode data with
        | some s => .ok (.Ws s, rest)
        | none => .error .ParsingError
    else if id = 478 then .ok (.Wss ['/'], input)
    else if id = 4780 then
      match lenPrefixed input with
      | .error e => .error e
      | .ok (data, rest) =>
        match utf8Decode data with
        | some s => .ok (.Wss s, rest)
        | none => .error .ParsingError
    else .error (.UnknownProtocolId id)

theorem split_at_exact (n : Nat) (data rest : List Nat) (h : data.length = n) :
    split_at n (data ++ rest) = .ok (data, rest) := by
  unfold split_at
  rw [if_neg (by simp [h])]
  subst h
  rw [List.take_left, List.drop_left]

theorem lenPrefixed_exact (data rest : List Nat) (h : data.length < 2 ^ 64) :
    lenPrefixed (varintEnc data.length ++ (data ++ rest)) = .ok (data, rest) := by
  simp only [lenPrefixed, varintDec64_enc data.length (data ++ rest) h]
  exact split_at_exact _ _ _ rfl

theorem readU64BE_u64BE (n : Nat) (h : n < 2 ^ 64) :
    readU64BE (n / 256 ^ 7 % 256) (n / 256 ^ 6 % 256) (n / 256 ^ 5 % 256)
      (n / 256 ^ 4 % 256) (n / 256 ^ 3 % 256) (n / 256 ^ 2 % 256)
      (n / 256 % 256) (n % 256) = n := by
  unfold readU64BE
  have e2 : (256 : Nat) ^ 2 = 65536 := by norm_num
  have e3 : (256 : Nat) ^ 3 = 16777216 := by norm_num
  have e4 : (256 : Nat) ^ 4 = 4294967296 := by norm_num
  have e5 : (256 : Nat) ^ 5 = 1099511627776 := by norm_num
  have e6 : (256 : Nat) ^ 6 = 281474976710656 := by norm_num
  have e7 : (256 : Nat) ^ 7 = 72057594037927936 := by norm_num
  have e64 : (2 : Nat) ^ 64 = 18446744073709551616 := by norm_num
  rw [e2, e3, e4, e5, e6, e7] at *
  rw [e64] at h
  omega

theorem split_at_cons2 (x0 x1 : Nat) (rest : List Nat) :
    split_at 2 (x0 :: x1 :: rest) = .ok ([x0, x1], rest) := by
  unfold split_at
  rw [if_neg (by simp)]
  rfl

theorem split_at_cons4 (x0 x1 x2 x3 : Nat) (rest : List Nat) :
    split_at 4 (x0 :: x1 :: x2 :: x3 :: rest) = .ok ([x0, x1, x2, x3], rest) := by
  unfold split_at
  rw [if_neg (by simp)]
  rfl

theorem split_at_cons8 (x0 x1 x2 x3 x4 x5 x6 x7 : Nat) (rest : List Nat) :
    split_at 8 (x0 :: x1 :: x2 :: x3 :: x4 :: x5 :: x6 :: x7 :: rest) =
      .ok ([x0, x1, x2, x3, x4, x5, x6, x7], rest) := by
  unfold split_at
  rw [if_neg (by simp)]
  rfl

theorem split_at_cons16 (x0 x1 x2 x3 x4 x5 x6 x7 x8 x9 x10 x11 x12 x13 x14 x15 : Nat)
    (rest : List Nat) :
    split_at 16 (x0 :: x1 :: x2 :: x3 :: x4 :: x5 :: x6 :: x7 :: x8 :: x9 ::
        x10 :: x11 :: x12 :: x13 :: x14 :: x15 :: rest) =
      .ok ([x0, x1, x2, x3, x4, x5, x6, x7, x8, x9, x10, x11, x12, x13, x14, x15],
        rest) := by
  unfold split_at
  rw [if_neg (by simp)]
  rfl


/-- `from_bytes` inverts `write_bytes` on any representable value, returning
exactly the appended remainder. -/
theorem from_bytes_write_bytes (p : Protocol) (suffix : List Nat)
    (h : p.reprOk = true) :
    Protocol.from_bytes (p.write_bytes ++ suffix) = .ok (p, suffix) := by
  cases p with
  | Dccp port =>
    simp only [Protocol.reprOk, decide_eq_true_eq] at h
    have hdec := varintDec32_enc 33 (u16BE port ++ suffix) (by norm_num)
    simp only [u16BE, List.cons_append, List.nil_append] at hdec
    simp only [Protocol.write_bytes, Protocol.from_bytes, u16BE, List.cons_append,
      List.nil_append, List.append_assoc, hdec, split_at_cons2]
    simp only [readU16BE_u16BE port h]
    norm_num
  | Dns s =>
    simp only [Protocol.reprOk, decide_eq_true_eq] at h
    have hdec := varintDec32_enc 53
      (varintEnc (utf8Encode s).length ++ (utf8Encode s ++ suffix)) (by norm_num)
    simp only [Protocol.write_bytes, Protocol.from_bytes, List.append_assoc, hdec,
      lenPrefixed_exact (utf8Encode s) suffix h, utf8Decode_encode]
    norm_num
  | Dns4 s =>
    simp only [Protocol.reprOk, decide_eq_true_eq] at h
    have hdec := varintDec32_enc 54
      (varintEnc (utf8Encode s).length ++ (utf8Encode s ++ suffix)) (by norm_num)
    simp only [Protocol.write_bytes, Protocol.from_bytes, List.append_assoc, hdec,
      lenPrefixed_exact (utf8Encode s) suffix h, utf8Decode_encode]
    norm_num
  | Dns6 s =>
    simp only [Protocol.reprOk, decide_eq_true_eq] at h
    have hdec := varintDec32_enc 55
      (varintEnc (utf8Encode s).length ++ (utf8Encode s ++ suffix)) (by norm_num)
    simp only [Protocol.write_bytes, Protocol.from_bytes, List.append_assoc, hdec,
      lenPrefixed_exact (utf8Encode s) suffix h, utf8Decode_encode]
    norm_num
  | Dnsaddr s =>
    simp only [Protocol.reprOk, decide_eq_true_eq] at h
    have hdec := varintDec32_enc 56
      (varintEnc (utf8Encode s).length ++ (utf8Encode s ++ suffix)) (by norm_num)
    simp only [Protocol.write_bytes, Protocol.from_bytes, List.append_assoc, hdec,
      lenPrefixed_exact (utf8Encode s) suffix h, utf8Decode_encode]
    norm_num
  | Http =>
    have hdec := varintDec32_enc 480 suffix (by norm_num)
    simp only [Protocol.write_bytes, Protocol.from_bytes, hdec]
    norm_num
  | Https =>
    have hdec := varintDec32_enc 443 suffix (by norm_num)
    simp only [Protocol.write_bytes, Protocol.from_bytes, hdec]
    norm_num
  | Ip4 a b c d =>
    have hdec := varintDec32_enc 4 ([a, b, c, d] ++ suffix) (by norm_num)
    simp only [List.cons_append, List.nil_append] at hdec
    simp only [Protocol.write_bytes, Protocol.from_bytes, List.cons_append,
      List.nil_append, List.append_assoc, hdec, split_at_cons4]
    norm_num
  | Ip6 s0 s1 s2 s3 s4 s5 s6 s7 =>
    simp only [Protocol.reprOk, Bool.and_eq_true, decide_eq_true_eq] at h
    obtain ⟨⟨⟨⟨⟨⟨⟨h0, h1⟩, h2⟩, h3⟩, h4⟩, h5⟩, h6⟩, h7⟩ := h
    have hdec := varintDec32_enc 41 (u16BE s0 ++ u16BE s1 ++ u16BE s2 ++
      u16BE s3 ++ u16BE s4 ++ u16BE s5 ++ u16BE s6 ++ u16BE s7 ++ suffix)
      (by norm_num)
    simp only [u16BE, List.cons_append, List.nil_append, List.append_assoc] at hdec
    simp only [Protocol.write_bytes, Protocol.from_bytes, u16BE, List.cons_append,
      List.nil_append, List.append_assoc, hdec, split_at_cons16]
    simp only [readU16BE_u16BE s0 h0, readU16BE_u16BE s1 h1, readU16BE_u16BE s2 h2,
      readU16BE_u16BE s3 h3, readU16BE_u16BE s4 h4, readU16BE_u16BE s5 h5,
      readU16BE_u16BE s6 h6, readU16BE_u16BE s7 h7]
    norm_num
  | P2pWebRtcDirect =>
    have hdec := varintDec32_enc 276 suffix (by norm_num)
    simp only [Protocol.write_bytes, Protocol.from_bytes, hdec]
    norm_num
  | P2pWebRtcStar =>
    have hdec := varintDec32_enc 275 suffix (by norm_num)
    simp only [Protocol.write_bytes, Protocol.from_bytes, hdec]
    norm_num
  | P2pWebSocketStar =>
    have hdec := varintDec32_enc 479 suffix (by norm_num)
    simp only [Protocol.write_bytes, Protocol.from_bytes, hdec]
    norm_num
  | Memory port =>
    simp only [Protocol.reprOk, decide_eq_true_eq] at h
    have hdec := varintDec32_enc 777 (u64BE port ++ suffix) (by norm_num)
    simp only [u64BE, List.cons_append, List.nil_append] at hdec
    simp only [Protocol.write_bytes, Protocol.from_bytes, u64BE, List.cons_append,
      List.nil_append, List.append_assoc, hdec, split_at_cons8]
    simp only [readU64BE_u64BE port h]
    norm_num
  | Onion addr port =>
    simp only [Protocol.reprOk, Bool.and_eq_true, decide_eq_true_eq] at h
    obtain ⟨⟨hlen, hall⟩, hport⟩ := h
    have hassoc : Protocol.write_bytes (.Onion addr port) ++ suffix =
        varintEnc 444 ++ ((addr ++ u16BE port) ++ suffix) := by
      simp [Protocol.write_bytes]
    rw [hassoc]
    have hdrop : (addr ++ u16BE port).drop 10 =
        [port / 256 % 256, port % 256] := by
      rw [← hlen, List.drop_left]
      rfl
    have htake : (addr ++ u16BE port).take 10 = addr := by
      rw [← hlen, List.take_left]
    simp only [Protocol.from_bytes,
      varintDec32_enc 444 ((addr ++ u16BE port) ++ suffix) (by norm_num),
      split_at_exact 12 (addr ++ u16BE port) suffix (by simp [u16BE, hlen]),
      hdrop, htake, readU16BE_u16BE port hport]
    norm_num
  | Onion3 addr port =>
    simp only [Protocol.reprOk, Bool.and_eq_true, decide_eq_true_eq] at h
    obtain ⟨⟨hlen, hall⟩, hport⟩ := h
    have hassoc : Protocol.write_bytes (.Onion3 addr port) ++ suffix =
        varintEnc 445 ++ ((addr ++ u16BE port) ++ suffix) := by
      simp [Protocol.write_bytes]
    rw [hassoc]
    have hdrop : (addr ++ u16BE port).drop 35 =
        [port / 256 % 256, port % 256] := by
      rw [← hlen, List.drop_left]
      rfl
    have htake : (addr ++ u16BE port).take 35 = addr := by
      rw [← hlen, List.take_left]
    simp only [Protocol.from_bytes,
      varintDec32_enc 445 ((addr ++ u16BE port) ++ suffix) (by norm_num),
      split_at_exact 37 (addr ++ u16BE port) suffix (by simp [u16BE, hlen]),
      hdrop, htake, readU16BE_u16BE port hport]
    norm_num
  | P2p m =>
    simp only [Protocol.reprOk, Bool.and_eq_true, decide_eq_true_eq] at h
    obtain ⟨⟨⟨hc, hl⟩, hall⟩, hab⟩ := h
    have hdec := varintDec32_enc 421
      (varintEnc m.as_bytes.length ++ (m.as_bytes ++ suffix)) (by norm_num)
    simp only [Protocol.write_bytes, Protocol.from_bytes, List.append_assoc, hdec,
      lenPrefixed_exact m.as_bytes suffix hab,
      Multihash.from_bytes_as_bytes m hc hl]
    norm_num
  | P2pCircuit =>
    have hdec := varintDec32_enc 290 suffix (by norm_num)
    simp only [Protocol.write_bytes, Protocol.from_bytes, hdec]
    norm_num
  | Quic =>
    have hdec := varintDec32_enc 460 suffix (by norm_num)
    simp only [Protocol.write_bytes, Protocol.from_bytes, hdec]
    norm_num
  | Sctp port =>
    simp only [Protocol.reprOk, decide_eq_true_eq] at h
    have hdec := varintDec32_enc 132 (u16BE port ++ suffix) (by norm_num)
    simp only [u16BE, List.cons_append, List.nil_append] at hdec
    simp only [Protocol.write_bytes, Protocol.from_bytes, u16BE, List.cons_append,
      List.nil_append, List.append_assoc, hdec, split_at_cons2]
    simp only [readU16BE_u16BE port h]
    norm_num
  | Tcp port =>
    simp only [Protocol.reprOk, decide_eq_true_eq] at h
    have hdec := varintDec32_enc 6 (u16BE port ++ suffix) (by norm_num)
    simp only [u16BE, List.cons_append, List.nil_append] at hdec
    simp only [Protocol.write_bytes, Protocol.from_bytes, u16BE, List.cons_append,
      List.nil_append, List.append_assoc, hdec, split_at_cons2]
    simp only [readU16BE_u16BE port h]
    norm_num
  | Udp port =>
    simp only [Protocol.reprOk, decide_eq_true_eq] at h
    have hdec := varintDec32_enc 273 (u16BE port ++ suffix) (by norm_num)
    simp only [u16BE, List.cons_append, List.nil_append] at hdec
    simp only [Protocol.write_bytes, Protocol.from_bytes, u16BE, List.cons_append,
      List.nil_append, List.append_assoc, hdec, split_at_cons2]
    simp only [readU16BE_u16BE port h]
    norm_num
  | Udt =>
    have hdec := varintDec32_enc 301 suffix (by norm_num)
    simp only [Protocol.write_bytes, Protocol.from_bytes, hdec]
    norm_num
  | Unix s =>
    simp only [Protocol.reprOk, decide_eq_true_eq] at h
    have hdec := varintDec32_enc 400
      (varintEnc (utf8Encode s).length ++ (utf8Encode s ++ suffix)) (by norm_num)
    simp only [Protocol.write_bytes, Protocol.from_bytes, List.append_assoc, hdec,
      lenPrefixed_exact (utf8Encode s) suffix h, utf8Decode_encode]
    norm_num
  | Utp =>
    have hdec := varintDec32_enc 302 suffix (by norm_num)
    simp only [Protocol.write_bytes, Protocol.from_bytes, hdec]
    norm_num
  | Ws s =>
    simp only [Protocol.reprOk, decide_eq_true_eq] at h
    by_cases hs : s = ['/']
    · subst hs
      have hws : Protocol.write_bytes (.Ws ['/']) = varintEnc 477 := by
        simp [Protocol.write_bytes]
      rw [hws]
      have hdec := varintDec32_enc 477 suffix (by norm_num)
      simp only [Protocol.from_bytes, hdec]
      norm_num
    · have hdec := varintDec32_enc 4770
        (varintEnc (utf8Encode s).length ++ (utf8Encode s ++ suffix)) (by norm_num)
      simp only [Protocol.write_bytes, if_neg hs, Protocol.from_bytes,
        List.append_assoc, hdec, lenPrefixed_exact (utf8Encode s) suffix h,
        utf8Decode_encode]
      norm_num
  | Wss s =>
    simp only [Protocol.reprOk, decide_eq_true_eq] at h
    by_cases hs : s = ['/']
    · subst hs
      have hws : Protocol.write_bytes (.Wss ['/']) = varintEnc 478 := by
        simp [Protocol.write_bytes]
      rw [hws]
      have hdec := varintDec32_enc 478 suffix (by norm_num)
      simp only [Protocol.from_bytes, hdec]
      norm_num
    · have hdec := varintDec32_enc 4780
        (varintEnc (utf8Encode s).length ++ (utf8Encode s ++ suffix)) (by norm_num)
      simp only [Protocol.write_bytes, if_neg hs, Protocol.from_bytes,
        List.append_assoc, hdec, lenPrefixed_exact (utf8Encode s) suffix h,
        utf8Decode_encode]
      norm_num

theorem slash_not_mem_natToChars (n : Nat) : '/' ∉ natToChars n :=
  natToChars_not_mem n '/' (by decide)

theorem colon_not_mem_natToChars (n : Nat) : ':' ∉ natToChars n :=
  natToChars_not_mem n ':' (by decide)

theorem slash_not_mem_ipv4Chars (a b c d : Nat) :
    '/' ∉ ipv4Chars a b c d := by
  intro hmem
  unfold ipv4Chars at hmem
  simp only [List.mem_append, List.mem_cons] at hmem
  rcases hmem with h | h | h | h | h | h | h <;>
    first
    | exact natToChars_not_mem _ '/' (by decide) h
    | exact absurd h (by decide)

theorem slash_not_mem_hexGroupsJoin (segs : List Nat) :
    '/' ∉ hexGroupsJoin segs := by
  induction segs with
  | nil => simp [hexGroupsJoin]
  | cons s rest ih =>
    intro hmem
    cases rest with
    | nil =>
      have := natToHexChars_classes s '/' hmem
      revert this
      decide
    | cons s2 rest2 =>
      rw [show hexGroupsJoin (s :: s2 :: rest2) =
        natToHexChars s ++ ':' :: hexGroupsJoin (s2 :: rest2) from rfl] at hmem
      simp only [List.mem_append, List.mem_cons] at hmem
      rcases hmem with h | h | h
      · have := natToHexChars_classes s '/' h
        revert this
        decide
      · exact absurd h (by decide)
      · exact ih h

theorem slash_not_mem_displayIpv6 (s0 s1 s2 s3 s4 s5 s6 s7 : Nat) :
    '/' ∉ displayIpv6 s0 s1 s2 s3 s4 s5 s6 s7 := by
  intro hmem
  rw [displayIpv6] at hmem
  split at hmem
  · exact absurd hmem (by decide)
  · split at hmem
    · exact absurd hmem (by decide)
    · split at hmem
      · simp only [List.mem_append] at hmem
        rcases hmem with h | h
        · exact absurd h (by decide)
        · exact slash_not_mem_ipv4Chars _ _ _ _ h
      · split at hmem
        · simp only [List.mem_append] at hmem
          rcases hmem with h | h
          · exact absurd h (by decide)
          · exact slash_not_mem_ipv4Chars _ _ _ _ h
        · simp only [] at hmem
          split at hmem
          · simp only [List.mem_append, List.mem_cons] at hmem
            rcases hmem with h | h | h | h
            · exact slash_not_mem_hexGroupsJoin _ h
            · exact absurd h (by decide)
            · exact absurd h (by decide)
            · exact slash_not_mem_hexGroupsJoin _ h
          · exact slash_not_mem_hexGroupsJoin _ hmem

theorem b58Char_lt_vals (d : Nat) (h : d < 58) :
    b58Char d ≠ '/' ∧ b58Char d ≠ ':' := by
  interval_cases d <;> exact ⟨by decide, by decide⟩

theorem slash_not_mem_b58Encode (bytes : List Nat) :
    '/' ∉ b58Encode bytes := by
  intro hmem
  unfold b58Encode at hmem
  simp only [List.mem_append, List.mem_replicate, List.mem_map] at hmem
  rcases hmem with ⟨_, h⟩ | ⟨d, hd, hchar⟩
  · exact absurd h.symm (by decide)
  · have hdlt : d < 58 :=
      Nat.digits_lt_base (by norm_num) (List.mem_reverse.mp hd)
    exact (b58Char_lt_vals d hdlt).1 hchar

theorem b32Char_upper_lower (d : Nat) (h : d < 32) :
    toUpperChar (toLowerChar (b32Char d)) = b32Char d := by
  interval_cases d <;> decide

theorem b32Char_not_sep (d : Nat) (h : d < 32) :
    b32Char d ≠ ':' ∧ b32Char d ≠ '/' := by
  interval_cases d <;> exact ⟨by decide, by decide⟩

theorem toLowerChar_b32Char_ne (d : Nat) (h : d < 32) :
    toLowerChar (b32Char d) ≠ ':' ∧ toLowerChar (b32Char d) ≠ '/' := by
  interval_cases d <;> exact ⟨by decide, by decide⟩

theorem map_toUpperChar_digits (l : List Char)
    (h : ∀ c ∈ l, 48 ≤ c.toNat ∧ c.toNat ≤ 57) : l.map toUpperChar = l := by
  induction l with
  | nil => rfl
  | cons c rest ih =>
    simp only [List.map_cons]
    rw [ih (fun x hx => h x (List.mem_cons_of_mem c hx))]
    have hc := h c (List.mem_cons_self c rest)
    unfold toUpperChar
    rw [if_neg (by omega)]

theorem utf8Char_lt_256 (c : Char) : ∀ b ∈ utf8Char c, b < 256 := by
  intro b hb
  have hlt := char_toNat_lt c
  unfold utf8Char at hb
  by_cases h1 : c.toNat < 128
  · rw [if_pos h1] at hb
    simp only [List.mem_cons, List.not_mem_nil, or_false] at hb
    omega
  · rw [if_neg h1] at hb
    by_cases h2 : c.toNat < 2048
    · rw [if_pos h2] at hb
      simp only [List.mem_cons, List.not_mem_nil, or_false] at hb
      rcases hb with rfl | rfl <;> omega
    · rw [if_neg h2] at hb
      by_cases h3 : c.toNat < 65536
      · rw [if_pos h3] at hb
        simp only [List.mem_cons, List.not_mem_nil, or_false] at hb
        rcases hb with rfl | rfl | rfl <;> omega
      · rw [if_neg h3] at hb
        simp only [List.mem_cons, List.not_mem_nil, or_false] at hb
        rcases hb with rfl | rfl | rfl | rfl <;> omega

theorem utf8Encode_lt_256 (s : List Char) : ∀ b ∈ utf8Encode s, b < 256 := by
  intro b hb
  unfold utf8Encode at hb
  rw [List.mem_flatMap] at hb
  obtain ⟨c, _, hbc⟩ := hb
  exact utf8Char_lt_256 c b hbc

theorem varintEnc_lt_256 (n : Nat) : ∀ b ∈ varintEnc n, b < 256 := by
  induction n using varintEnc.induct with
  | case1 n h =>
    intro b hb
    rw [varintEnc, dif_pos h] at hb
    simp only [List.mem_cons, List.not_mem_nil, or_false] at hb
    omega
  | case2 n h ih =>
    intro b hb
    rw [varintEnc, dif_neg h] at hb
    simp only [List.mem_cons] at hb
    rcases hb with rfl | hb
    · have := Nat.mod_lt n (show 0 < 128 by norm_num)
      omega
    · exact ih b hb

theorem as_bytes_lt_256 (m : Multihash) (hd : ∀ b ∈ m.digest, b < 256) :
    ∀ b ∈ m.as_bytes, b < 256 := by
  intro b hb
  unfold Multihash.as_bytes at hb
  simp only [List.mem_append] at hb
  rcases hb with (hb | hb) | hb
  · exact varintEnc_lt_256 _ b hb
  · exact varintEnc_lt_256 _ b hb
  · exact hd b hb

theorem textParts_pair (p : Protocol) (name value : List Char)
    (hd : p.display = '/' :: (name ++ '/' :: value))
    (hn : '/' ∉ name) (hv : '/' ∉ value) :
    p.textParts = [name, value] := by
  unfold Protocol.textParts
  rw [hd, splitOn_cons, if_pos rfl, splitOn_append_sep '/' name _ hn,
    splitOn_no_sep '/' value hv]
  rfl

theorem slash_not_mem_onionValue (addr : List Nat) (port : Nat) :
    '/' ∉ (b32Encode addr).map toLowerChar ++ ':' :: natToChars port := by
  intro hmem
  simp only [List.mem_append, List.mem_cons, List.mem_map, b32Encode] at hmem
  rcases hmem with ⟨c2, ⟨d, hd, rfl⟩, hlow⟩ | h | h
  · exact (toLowerChar_b32Char_ne d (b32Vals_lt addr d hd)).2 hlow
  · exact absurd h (by decide)
  · exact slash_not_mem_natToChars port h

/-- `read_onion` / `read_onion3` invert the onion `Display` rendering for a
nonzero port. -/
theorem read_onion_roundtrip (addr : List Nat) (port len elen : Nat)
    (hlen : addr.length = len) (h5 : len % 5 = 0) (hok : len = elen * 5 / 8)
    (helen : elen = len / 5 * 8) (hall : ∀ b ∈ addr, b < 256)
    (hport : port < 65536) (hp0 : port ≠ 0) :
    read_onion_gen len elen
      (((b32Encode addr).map toLowerChar ++ ':' :: natToChars port).map
        toUpperChar) = .ok (addr, port) := by
  have hmap : ((b32Encode addr).map toLowerChar ++
      ':' :: natToChars port).map toUpperChar =
      ((b32Encode addr).map toLowerChar).map toUpperChar ++
        ':' :: natToChars port := by
    rw [List.map_append, List.map_cons]
    rw [map_toUpperChar_digits _ (natToChars_all_digits port)]
    rfl
  rw [hmap]
  have hcolon : ':' ∉ ((b32Encode addr).map toLowerChar).map toUpperChar := by
    intro hc
    simp only [b32Encode, List.mem_map] at hc
    obtain ⟨c2, ⟨c3, ⟨d, hdmem, rfl⟩, rfl⟩, hup⟩ := hc
    have hd32 := b32Vals_lt addr d hdmem
    rw [b32Char_upper_lower d hd32] at hup
    exact (b32Char_not_sep d hd32).1 hup
  have hlenB : (((b32Encode addr).map toLowerChar).map toUpperChar).length =
      elen := by
    simp only [List.length_map, b32Encode]
    rw [b32Vals_length addr (by rw [hlen]; exact h5), hlen]
    exact helen.symm
  have hsplit : splitOn ':'
      (((b32Encode addr).map toLowerChar).map toUpperChar ++
        ':' :: natToChars port) =
      [((b32Encode addr).map toLowerChar).map toUpperChar, natToChars port] := by
    rw [splitOn_append_sep ':' _ _ hcolon,
      splitOn_no_sep ':' _ (colon_not_mem_natToChars port)]
  simp only [read_onion_gen, hsplit]
  rw [if_neg (fun hne => hne hlenB)]
  simp only [parseUint_natToChars 16 port (by simpa using hport)]
  rw [if_neg hp0]
  rw [if_neg (fun hne : ([] : List (List Char)) ≠ [] => hne rfl)]
  rw [if_neg (fun hne => hne hok)]
  simp only [b32_roundtrip addr (by rw [hlen]; exact h5) hall]

theorem fsp_ip4 (s : List Char) (it : List (List Char)) :
    Protocol.from_str_parts ("ip4".data :: s :: it) =
      (match parseIpv4 s with
       | some (a, b, c, d) => .ok (.Ip4 a b c d, it)
       | none => .error .ParsingError) := rfl

theorem fsp_tcp (s : List Char) (it : List (List Char)) :
    Protocol.from_str_parts ("tcp".data :: s :: it) =
      (match parseUint 16 s with
       | some v => .ok (.Tcp v, it)
       | none => .error .ParsingError) := rfl

theorem fsp_udp (s : List Char) (it : List (List Char)) :
    Protocol.from_str_parts ("udp".data :: s :: it) =
      (match parseUint 16 s with
       | some v => .ok (.Udp v, it)
       | none => .error .ParsingError) := rfl

theorem fsp_dccp (s : List Char) (it : List (List Char)) :
    Protocol.from_str_parts ("dccp".data :: s :: it) =
      (match parseUint 16 s with
       | some v => .ok (.Dccp v, it)
       | none => .error .ParsingError) := rfl

theorem fsp_ip6 (s : List Char) (it : List (List Char)) :
    Protocol.from_str_parts ("ip6".data :: s :: it) =
      (match parseIpv6 s with
       | some [s0, s1, s2, s3, s4, s5, s6, s7] =>
         .ok (.Ip6 s0 s1 s2 s3 s4 s5 s6 s7, it)
       | _ => .error .ParsingError) := rfl

theorem fsp_sctp (s : List Char) (it : List (List Char)) :
    Protocol.from_str_parts ("sctp".data :: s :: it) =
      (match parseUint 16 s with
       | some v => .ok (.Sctp v, it)
       | none => .error .ParsingError) := rfl

theorem fsp_p2p (s : List Char) (it : List (List Char)) :
    Protocol.from_str_parts ("p2p".data :: s :: it) =
      (match b58Decode s with
       | none => .error .ParsingError
       | some decoded =>
         match Multihash.from_bytes decoded with
         | .error e => .error e
         | .ok m => .ok (.P2p m, it)) := rfl

theorem fsp_onion (s : List Char) (it : List (List Char)) :
    Protocol.from_str_parts ("onion".data :: s :: it) =
      (match read_onion_gen 10 16 (s.map toUpperChar) with
       | .ok (a, p) => .ok (.Onion a p, it)
       | .error e => .error e) := rfl

theorem fsp_onion3 (s : List Char) (it : List (List Char)) :
    Protocol.from_str_parts ("onion3".data :: s :: it) =
      (match read_onion_gen 35 56 (s.map toUpperChar) with
       | .ok (a, p) => .ok (.Onion3 a p, it)
       | .error e => .error e) := rfl

theorem fsp_xws (s : List Char) (it : List (List Char)) :
    Protocol.from_str_parts ("x-parity-ws".data :: s :: it) =
      (match utf8Decode (pctDecode s) with
       | some decoded => .ok (.Ws decoded, it)
       | none => .error .ParsingError) := rfl

theorem fsp_xwss (s : List Char) (it : List (List Char)) :
    Protocol.from_str_parts ("x-parity-wss".data :: s :: it) =
      (match utf8Decode (pctDecode s) with
       | some decoded => .ok (.Wss decoded, it)
       | none => .error .ParsingError) := rfl

theorem fsp_memory (s : List Char) (it : List (List Char)) :
    Protocol.from_str_parts ("memory".data :: s :: it) =
      (match parseUint 64 s with
       | some v => .ok (.Memory v, it)
       | none => .error .ParsingError) := rfl

/-- `from_str_parts` inverts `Display` on representable values whose text
form is parseable (nonzero onion ports, no `/` in raw string payloads),
consuming exactly the rendered parts. -/
theorem from_str_parts_display (p : Protocol) (h : p.reprOk = true)
    (ht : p.textOk = true) :
    Protocol.from_str_parts p.textParts = .ok (p, []) := by
  cases p with
  | Dccp port =>
    simp only [Protocol.reprOk, decide_eq_true_eq] at h
    rw [textParts_pair (.Dccp port) "dccp".data (natToChars port) rfl
      (by decide) (slash_not_mem_natToChars port)]
    rw [fsp_dccp, parseUint_natToChars 16 port (by simpa using h)]
  | Dns s =>
    simp only [Protocol.textOk, Bool.not_eq_true'] at ht
    have hv : '/' ∉ s := by
      rw [List.contains_eq_any_beq, List.any_eq_false] at ht
      intro hm
      have := ht '/' hm
      simp at this
    rw [textParts_pair (.Dns s) "dns".data s rfl (by decide) hv]
    rfl
  | Dns4 s =>
    simp only [Protocol.textOk, Bool.not_eq_true'] at ht
    have hv : '/' ∉ s := by
      rw [List.contains_eq_any_beq, List.any_eq_false] at ht
      intro hm
      have := ht '/' hm
      simp at this
    rw [textParts_pair (.Dns4 s) "dns4".data s rfl (by decide) hv]
    rfl
  | Dns6 s =>
    simp only [Protocol.textOk, Bool.not_eq_true'] at ht
    have hv : '/' ∉ s := by
      rw [List.contains_eq_any_beq, List.any_eq_false] at ht
      intro hm
      have := ht '/' hm
      simp at this
    rw [textParts_pair (.Dns6 s) "dns6".data s rfl (by decide) hv]
    rfl
  | Dnsaddr s =>
    simp only [Protocol.textOk, Bool.not_eq_true'] at ht
    have hv : '/' ∉ s := by
      rw [List.contains_eq_any_beq, List.any_eq_false] at ht
      intro hm
      have := ht '/' hm
      simp at this
    rw [textParts_pair (.Dnsaddr s) "dnsaddr".data s rfl (by decide) hv]
    rfl
  | Http => decide
  | Https => decide
  | Ip4 a b c d =>
    simp only [Protocol.reprOk, Bool.and_eq_true, decide_eq_true_eq] at h
    obtain ⟨⟨⟨ha, hb⟩, hc⟩, hd0⟩ := h
    rw [textParts_pair (.Ip4 a b c d) "ip4".data (ipv4Chars a b c d) rfl
      (by decide) (slash_not_mem_ipv4Chars a b c d)]
    rw [fsp_ip4, parseIpv4_ipv4Chars a b c d ha hb hc hd0]
  | Ip6 s0 s1 s2 s3 s4 s5 s6 s7 =>
    simp only [Protocol.reprOk, Bool.and_eq_true, decide_eq_true_eq] at h
    obtain ⟨⟨⟨⟨⟨⟨⟨h0, h1⟩, h2⟩, h3⟩, h4⟩, h5⟩, h6⟩, h7⟩ := h
    rw [textParts_pair (.Ip6 s0 s1 s2 s3 s4 s5 s6 s7) "ip6".data
      (displayIpv6 s0 s1 s2 s3 s4 s5 s6 s7) rfl (by decide)
      (slash_not_mem_displayIpv6 s0 s1 s2 s3 s4 s5 s6 s7)]
    rw [fsp_ip6,
      parseIpv6_displayIpv6 s0 s1 s2 s3 s4 s5 s6 s7 h0 h1 h2 h3 h4 h5 h6 h7]
  | P2pWebRtcDirect => decide
  | P2pWebRtcStar => decide
  | P2pWebSocketStar => decide
  | Memory port =>
    simp only [Protocol.reprOk, decide_eq_true_eq] at h
    rw [textParts_pair (.Memory port) "memory".data (natToChars port) rfl
      (by decide) (slash_not_mem_natToChars port)]
    rw [fsp_memory, parseUint_natToChars 64 port (by simpa using h)]
  | Onion addr port =>
    simp only [Protocol.reprOk, Bool.and_eq_true, decide_eq_true_eq] at h
    obtain ⟨⟨hlen, hall⟩, hport⟩ := h
    simp only [Protocol.textOk, decide_eq_true_eq] at ht
    have hall' : ∀ b ∈ addr, b < 256 := by
      intro b hb
      have := List.all_eq_true.mp hall b hb
      simpa using this
    rw [textParts_pair (.Onion addr port) "onion".data
      ((b32Encode addr).map toLowerChar ++ ':' :: natToChars port) rfl
      (by decide) (slash_not_mem_onionValue addr port)]
    rw [fsp_onion, read_onion_roundtrip addr port 10 16 hlen (by norm_num)
      (by norm_num) (by norm_num) hall' hport ht]
  | Onion3 addr port =>
    simp only [Protocol.reprOk, Bool.and_eq_true, decide_eq_true_eq] at h
    obtain ⟨⟨hlen, hall⟩, hport⟩ := h
    simp only [Protocol.textOk, decide_eq_true_eq] at ht
    have hall' : ∀ b ∈ addr, b < 256 := by
      intro b hb
      have := List.all_eq_true.mp hall b hb
      simpa using this
    rw [textParts_pair (.Onion3 addr port) "onion3".data
      ((b32Encode addr).map toLowerChar ++ ':' :: natToChars port) rfl
      (by decide) (slash_not_mem_onionValue addr port)]
    rw [fsp_onion3, read_onion_roundtrip addr port 35 56 hlen (by norm_num)
      (by norm_num) (by norm_num) hall' hport ht]
  | P2p m =>
    simp only [Protocol.reprOk, Bool.and_eq_true, decide_eq_true_eq] at h
    obtain ⟨⟨⟨hc, hl⟩, hall⟩, hab⟩ := h
    have hall' : ∀ b ∈ m.digest, b < 256 := by
      intro b hb
      have := List.all_eq_true.mp hall b hb
      simpa using this
    rw [textParts_pair (.P2p m) "p2p".data (b58Encode m.as_bytes) rfl
      (by decide) (slash_not_mem_b58Encode m.as_bytes)]
    rw [fsp_p2p]
    simp only [b58_roundtrip m.as_bytes (as_bytes_lt_256 m hall'),
      Multihash.from_bytes_as_bytes m hc hl]
  | P2pCircuit => decide
  | Quic => decide
  | Sctp port =>
    simp only [Protocol.reprOk, decide_eq_true_eq] at h
    rw [textParts_pair (.Sctp port) "sctp".data (natToChars port) rfl
      (by decide) (slash_not_mem_natToChars port)]
    rw [fsp_sctp, parseUint_natToChars 16 port (by simpa using h)]
  | Tcp port =>
    simp only [Protocol.reprOk, decide_eq_true_eq] at h
    rw [textParts_pair (.Tcp port) "tcp".data (natToChars port) rfl
      (by decide) (slash_not_mem_natToChars port)]
    rw [fsp_tcp, parseUint_natToChars 16 port (by simpa using h)]
  | Udp port =>
    simp only [Protocol.reprOk, decide_eq_true_eq] at h
    rw [textParts_pair (.Udp port) "udp".data (natToChars port) rfl
      (by decide) (slash_not_mem_natToChars port)]
    rw [fsp_udp, parseUint_natToChars 16 port (by simpa using h)]
  | Udt => decide
  | Unix s =>
    simp only [Protocol.textOk, Bool.not_eq_true'] at ht
    have hv : '/' ∉ s := by
      rw [List.contains_eq_any_beq, List.any_eq_false] at ht
      intro hm
      have := ht '/' hm
      simp at this
    rw [textParts_pair (.Unix s) "unix".data s rfl (by decide) hv]
    rfl
  | Utp => decide
  | Ws s =>
    by_cases hs : s = ['/']
    · subst hs
      decide
    · have hd : Protocol.display (.Ws s) =
          '/' :: ("x-parity-ws".data ++ '/' :: pctEncode (utf8Encode s)) := by
        show (if s = ['/'] then "/ws".data
          else "/x-parity-ws/".data ++ pctEncode (utf8Encode s)) = _
        rw [if_neg hs]
        rfl
      rw [textParts_pair (.Ws s) "x-parity-ws".data
        (pctEncode (utf8Encode s)) hd (by decide)
        (pctEncode_no_slash _ (utf8Encode_lt_256 s))]
      rw [fsp_xws, pctDecode_encode (utf8Encode s) (utf8Encode_lt_256 s),
        utf8Decode_encode s]
  | Wss s =>
    by_cases hs : s = ['/']
    · subst hs
      decide
    · have hd : Protocol.display (.Wss s) =
          '/' :: ("x-parity-wss".data ++ '/' :: pctEncode (utf8Encode s)) := by
        show (if s = ['/'] then "/wss".data
          else "/x-parity-wss/".data ++ pctEncode (utf8Encode s)) = _
        rw [if_neg hs]
        rfl
      rw [textParts_pair (.Wss s) "x-parity-wss".data
        (pctEncode (utf8Encode s)) hd (by decide)
        (pctEncode_no_slash _ (utf8Encode_lt_256 s))]
      rw [fsp_xwss, pctDecode_encode (utf8Encode s) (utf8Encode_lt_256 s),
        utf8Decode_encode s]

/-- C3 counterexample: the onion protocol with port zero is representable
(`get_enum(ONION)` even constructs it), renders as `/onion/<base32>:0`, but
`from_str_parts` rejects it because `read_onion` refuses port zero — so the
text round-trip of the claim fails without further conditions. -/
theorem C3_counterexample :
    (Protocol.Onion (List.replicate 10 0) 0).reprOk = true ∧
    Protocol.from_str_parts (Protocol.Onion (List.replicate 10 0) 0).textParts ≠
      .ok (Protocol.Onion (List.replicate 10 0) 0, []) := by
  constructor
  · decide
  · decide

/-- C3 (amended): for every representable `Protocol` value, encoding with
`write_bytes` and decoding with `from_bytes` returns the same value with
exactly the appended remainder; and rendering with `Display` and parsing
the slash-separated parts with `from_str_parts` returns the same value with
no parts left over, provided the text form is parseable back at all — i.e.
onion ports are nonzero (`read_onion` rejects zero) and raw string payloads
(dns, dns4, dns6, dnsaddr, unix) contain no `/`. -/
theorem C3_roundtrip (p : Protocol) (suffix : List Nat)
    (h : p.reprOk = true) (ht : p.textOk = true) :
    Protocol.from_str_parts p.textParts = .ok (p, []) ∧
    Protocol.from_bytes (p.write_bytes ++ suffix) = .ok (p, suffix) :=
  ⟨from_str_parts_display p h ht, from_bytes_write_bytes p suffix h⟩

theorem C3_roundtrip_witness :
    (Protocol.Ip4 127 0 0 1).reprOk = true ∧
    (Protocol.Ip4 127 0 0 1).textOk = true ∧
    (Protocol.from_str_parts (Protocol.Ip4 127 0 0 1).textParts =
        .ok (Protocol.Ip4 127 0 0 1, []) ∧
      Protocol.from_bytes ((Protocol.Ip4 127 0 0 1).write_bytes ++ [9, 9]) =
        .ok (Protocol.Ip4 127 0 0 1, [9, 9])) :=
  ⟨by decide, by decide,
    C3_roundtrip (Protocol.Ip4 127 0 0 1) [9, 9] (by decide) (by decide)⟩

end Multiaddr
